import Mathlib

/-!
# QOI codec (`qoi.h`): shallow embedding and verified properties

The two functions of `qoi.h`, `QoiEncode` and `QoiDecode`, are embedded as pure
state-passing functions.  The mutable locals of each function (`run`, `history`,
the pixel registers) and the byte source and sink they read and write form an
explicit state record; each loop of the source becomes a structurally recursive
function over the number of iterations that are left.

`uint8_t` is `Fin 256` and `uint32_t` is `Fin 4294967296`; all arithmetic is done
on the `Nat`/`Int` value and reduced modulo `2^8` explicitly where the source
casts back to `uint8_t`.
-/

set_option autoImplicit false

namespace Qoi

/-- An unsigned 8-bit value (`uint8_t`). -/
abbrev U8 := Fin 256

/-- An unsigned 32-bit value (`uint32_t`). -/
abbrev U32 := Fin 4294967296

/-- The cast `static_cast<uint8_t>(z)` of an `int`: reduction modulo `2^8`. -/
def toU8 (z : Int) : U8 := ⟨(z % 256).toNat, by omega⟩

/-- The four channels `r, g, b, a` the source keeps in four `uint8_t` locals. -/
structure Px where
  r : U8
  g : U8
  b : U8
  a : U8
deriving DecidableEq

/-- The array `uint8_t history[64][4]`: 64 slots of four bytes. -/
abbrev History := Fin 64 → Px

/-- The state after `memset(history, 0, sizeof(history))`. -/
def zeroHistory : History := fun _ => ⟨0, 0, 0, 0⟩

/-- The assignment `history[idx][0..3] = r, g, b, a`. -/
def setSlot (h : History) (idx : Fin 64) (p : Px) : History :=
  fun i => if i = idx then p else h i

/-- The tag of an index operation, `QOI_OP_INDEX_TAG = 0x00`. -/
abbrev QOI_OP_INDEX_TAG : Nat := 0x00

/-- The tag of a diff operation, `QOI_OP_DIFF_TAG = 0x40`. -/
abbrev QOI_OP_DIFF_TAG : Nat := 0x40

/-- The tag of a luma operation, `QOI_OP_LUMA_TAG = 0x80`. -/
abbrev QOI_OP_LUMA_TAG : Nat := 0x80

/-- The tag of a run operation, `QOI_OP_RUN_TAG = 0xc0`. -/
abbrev QOI_OP_RUN_TAG : Nat := 0xc0

/-- The tag of an RGB literal, `QOI_OP_RGB_TAG = 0xfe`. -/
abbrev QOI_OP_RGB_TAG : Nat := 0xfe

/-- The tag of an RGBA literal, `QOI_OP_RGBA_TAG = 0xff`. -/
abbrev QOI_OP_RGBA_TAG : Nat := 0xff

/-- The end marker `QOI_PADDING[8] = {0, 0, 0, 0, 0, 0, 0, 1}`. -/
def QOI_PADDING : List U8 := [0, 0, 0, 0, 0, 0, 0, 1]

/-- The mask of the two tag bits, `QOI_MASK_2 = 0xc0`. -/
abbrev QOI_MASK_2 : Nat := 0xc0

/-! ## The helpers of `utils.h` -/

/-- Modelled from the spec: `QoiColorHash` of `utils.h`, which is not part of the
sources: `index = (r*3 + g*5 + b*7 + a*11) mod 64`. -/
def QoiColorHash (r g b a : U8) : Fin 64 :=
  ⟨(r.val * 3 + g.val * 5 + b.val * 7 + a.val * 11) % 64, Nat.mod_lt _ (by decide)⟩

/-- Modelled from the spec: `QoiReadU8` of `utils.h`, the sequential read of a
single unsigned byte.  The source is the list of bytes not yet read.  What a read
of an exhausted source returns is not fixed by the spec; it is the parameter
`eof`, and such a read leaves the source exhausted. -/
def QoiReadU8 (eof : U8) (inp : List U8) : U8 × List U8 :=
  (inp.headD eof, inp.tail)

/-- Modelled from the spec: `QoiReadChar` of `utils.h`, the sequential read of a
single character, kept as its byte value. -/
def QoiReadChar (eof : U8) (inp : List U8) : U8 × List U8 :=
  QoiReadU8 eof inp

/-- Modelled from the spec: `QoiReadU32` of `utils.h`, the sequential read of a
big-endian unsigned 32-bit word. -/
def QoiReadU32 (eof : U8) (inp : List U8) : U32 × List U8 :=
  let (b3, i1) := QoiReadU8 eof inp
  let (b2, i2) := QoiReadU8 eof i1
  let (b1, i3) := QoiReadU8 eof i2
  let (b0, i4) := QoiReadU8 eof i3
  (⟨((b3.val * 256 + b2.val) * 256 + b1.val) * 256 + b0.val, by omega⟩, i4)

/-- Modelled from the spec: `QoiWriteU8` of `utils.h`, the sequential write of a
single unsigned byte.  The sink is the list of bytes written so far. -/
def QoiWriteU8 (x : U8) (out : List U8) : List U8 :=
  out ++ [x]

/-- Modelled from the spec: `QoiWriteChar` of `utils.h`, the sequential write of
a single character, given by its byte value. -/
def QoiWriteChar (c : U8) (out : List U8) : List U8 :=
  QoiWriteU8 c out

/-- The four bytes of a 32-bit word, most significant first. -/
def be32 (x : U32) : List U8 :=
  [toU8 (x.val / 16777216), toU8 (x.val / 65536), toU8 (x.val / 256), toU8 x.val]

/-- Modelled from the spec: `QoiWriteU32` of `utils.h`, the sequential write of a
big-endian unsigned 32-bit word. -/
def QoiWriteU32 (x : U32) (out : List U8) : List U8 :=
  out ++ be32 x

/-- The value `px_num = static_cast<int>(width * height)`: the product is taken
in `uint32_t` (modulo `2^32`) and then converted to a 32-bit `int`
(two's complement). -/
def pxNum (width height : U32) : Int :=
  let m : Nat := (width.val * height.val) % 4294967296
  if m < 2147483648 then (m : Int) else (m : Int) - 4294967296

/-! ## `QoiEncode` -/

/-- The mutable state of `QoiEncode` inside its pixel loop: the locals `run`,
`history` and `pre_r, pre_g, pre_b, pre_a`, the byte source and the byte sink.
`run` is an `int` that is only ever incremented, reset to `0`, or tested. -/
structure EncState where
  run : Nat
  history : History
  pre : Px
  inp : List U8
  out : List U8

/-- Lines 69-76: read `r, g, b`, and `a` when `channels == 4` (else `a = 255`). -/
def encReadPixel (eof channels : U8) (inp : List U8) : Px × List U8 :=
  let (r, i1) := QoiReadU8 eof inp
  let (g, i2) := QoiReadU8 eof i1
  let (b, i3) := QoiReadU8 eof i2
  if channels = 4 then
    let (a, i4) := QoiReadU8 eof i3
    (⟨r, g, b, a⟩, i4)
  else
    (⟨r, g, b, 255⟩, i3)

/-- Lines 83 and 90: the byte `static_cast<uint8_t>(QOI_OP_RUN_TAG | (run - 1))`,
written only where `run >= 1`. -/
def runByte (run : Nat) : U8 :=
  toU8 ((QOI_OP_RUN_TAG ||| (run - 1) : Nat) : Int)

/-- Lines 99-136: the bytes of the operation written for a pixel `p` that is not
a cache hit, against the previous pixel `pre`.  Inside the diff branch `dr + 2`,
`dg + 2`, `db + 2` are in `[0, 3]`, and inside the luma branch `dg + 32`,
`dgr + 8`, `dgb + 8` are non-negative, so the `int` bit operations of the source
are those of the natural numbers. -/
def encOp (pre p : Px) : List U8 :=
  let dr : Int := (p.r.val : Int) - (pre.r.val : Int)
  let dg : Int := (p.g.val : Int) - (pre.g.val : Int)
  let db : Int := (p.b.val : Int) - (pre.b.val : Int)
  let da : Int := (p.a.val : Int) - (pre.a.val : Int)
  if da ≠ 0 then
    [toU8 QOI_OP_RGBA_TAG, p.r, p.g, p.b, p.a]
  else
    if dr ≥ -2 ∧ dr ≤ 1 ∧ dg ≥ -2 ∧ dg ≤ 1 ∧ db ≥ -2 ∧ db ≤ 1 then
      [toU8 ((QOI_OP_DIFF_TAG ||| ((dr + 2).toNat <<< 4) ||| ((dg + 2).toNat <<< 2)
        ||| (db + 2).toNat : Nat) : Int)]
    else
      let dgr : Int := dr - dg
      let dgb : Int := db - dg
      if dg ≥ -32 ∧ dg ≤ 31 ∧ dgr ≥ -8 ∧ dgr ≤ 7 ∧ dgb ≥ -8 ∧ dgb ≤ 7 then
        [toU8 ((QOI_OP_LUMA_TAG ||| (dg + 32).toNat : Nat) : Int),
         toU8 ((((dgr + 8).toNat <<< 4) ||| (dgb + 8).toNat : Nat) : Int)]
      else
        [toU8 QOI_OP_RGB_TAG, p.r, p.g, p.b]

/-- Lines 78-148: the body of the pixel loop after the pixel `p` has been read.
`last` is the test `i == px_num - 1`. -/
def encPixel (last : Bool) (p : Px) (s : EncState) : EncState :=
  if p.r = s.pre.r ∧ p.g = s.pre.g ∧ p.b = s.pre.b ∧ p.a = s.pre.a then
    let run := s.run + 1
    if run = 62 ∨ last = true then
      { s with run := 0, out := QoiWriteU8 (runByte run) s.out }
    else
      { s with run := run }
  else
    let s1 : EncState :=
      if s.run > 0 then { s with run := 0, out := QoiWriteU8 (runByte s.run) s.out } else s
    let idx := QoiColorHash p.r p.g p.b p.a
    if (s1.history idx).r = p.r ∧ (s1.history idx).g = p.g ∧ (s1.history idx).b = p.b
        ∧ (s1.history idx).a = p.a then
      { s1 with pre := p,
                out := QoiWriteU8 (toU8 ((QOI_OP_INDEX_TAG ||| idx.val : Nat) : Int)) s1.out }
    else
      { s1 with pre := p, history := setSlot s1.history idx p,
                out := s1.out ++ encOp s1.pre p }

/-- One iteration `i` of the pixel loop of `QoiEncode` (lines 69-148). -/
def encIter (eof channels : U8) (pxnum : Int) (i : Nat) (s : EncState) : EncState :=
  let (p, inp1) := encReadPixel eof channels s.inp
  encPixel (decide ((i : Int) = pxnum - 1)) p { s with inp := inp1 }

/-- The loop `for (int i = 0; i < px_num; ++i)` of `QoiEncode`, from iteration
`i` on, with `n` iterations left. -/
def encLoop (eof channels : U8) (pxnum : Int) : Nat → Nat → EncState → EncState
  | 0, _, s => s
  | n + 1, i, s => encLoop eof channels pxnum n (i + 1) (encIter eof channels pxnum i s)

/-- Lines 44-56: the header written by `QoiEncode`. -/
def encHeader (width height : U32) (channels colorspace : U8) (out : List U8) : List U8 :=
  QoiWriteU8 colorspace (QoiWriteU8 channels (QoiWriteU32 height (QoiWriteU32 width
    (QoiWriteChar 102 (QoiWriteChar 105 (QoiWriteChar 111 (QoiWriteChar 113 out)))))))

/-- Lines 59-66: the state in which the pixel loop of `QoiEncode` is entered. -/
def encInit (inp out : List U8) : EncState :=
  { run := 0, history := zeroHistory, pre := ⟨0, 0, 0, 255⟩, inp := inp, out := out }

/-- Lines 40-149: `QoiEncode` up to the end of its pixel loop. -/
def encBody (eof : U8) (width height : U32) (channels colorspace : U8)
    (inp : List U8) : EncState :=
  encLoop eof channels (pxNum width height) (pxNum width height).toNat 0
    (encInit inp (encHeader width height channels colorspace []))

/-- The padding loop of lines 152-154, from index `i` on. -/
def encPadding : List U8 → List U8 → List U8
  | [], out => out
  | x :: xs, out => encPadding xs (QoiWriteU8 x out)

/-- What a call of `QoiEncode` leaves behind: the returned `bool`, the unread
rest of the byte source and the bytes written to the sink. -/
structure EncResult where
  ret : Bool
  inp : List U8
  out : List U8
deriving DecidableEq

/-- The function `QoiEncode` of `qoi.h` (lines 40-157). -/
def QoiEncode (eof : U8) (width height : U32) (channels colorspace : U8)
    (inp : List U8) : EncResult :=
  let s := encBody eof width height channels colorspace inp
  { ret := true, inp := s.inp, out := encPadding QOI_PADDING s.out }

/-! ## `QoiDecode` -/

/-- The mutable state of `QoiDecode` inside its pixel loop: the locals `run`,
`history` and `r, g, b, a`, the byte source and the byte sink.  `run` is an `int`
that is only set to `tag & 0x3f`, or decremented when positive. -/
structure DecState where
  run : Nat
  history : History
  px : Px
  inp : List U8
  out : List U8

/-- Lines 191-228: read one tag and update `r, g, b, a` and `run`. -/
def decOp (eof : U8) (s : DecState) : DecState :=
  let (tag, i0) := QoiReadU8 eof s.inp
  if tag.val = QOI_OP_RGB_TAG then
    let (r, i1) := QoiReadU8 eof i0
    let (g, i2) := QoiReadU8 eof i1
    let (b, i3) := QoiReadU8 eof i2
    { s with px := ⟨r, g, b, s.px.a⟩, inp := i3 }
  else if tag.val = QOI_OP_RGBA_TAG then
    let (r, i1) := QoiReadU8 eof i0
    let (g, i2) := QoiReadU8 eof i1
    let (b, i3) := QoiReadU8 eof i2
    let (a, i4) := QoiReadU8 eof i3
    { s with px := ⟨r, g, b, a⟩, inp := i4 }
  else
    let tag2 : Nat := tag.val &&& QOI_MASK_2
    if tag2 = QOI_OP_INDEX_TAG then
      let idx : Fin 64 := ⟨tag.val &&& 0x3f, Nat.lt_succ_of_le Nat.and_le_right⟩
      { s with px := s.history idx, inp := i0 }
    else if tag2 = QOI_OP_DIFF_TAG then
      let dr : Int := (((tag.val >>> 4) &&& 0x03 : Nat) : Int) - 2
      let dg : Int := (((tag.val >>> 2) &&& 0x03 : Nat) : Int) - 2
      let db : Int := ((tag.val &&& 0x03 : Nat) : Int) - 2
      { s with px := ⟨toU8 (s.px.r.val + dr), toU8 (s.px.g.val + dg),
                      toU8 (s.px.b.val + db), s.px.a⟩, inp := i0 }
    else if tag2 = QOI_OP_LUMA_TAG then
      let dg : Int := ((tag.val &&& 0x3f : Nat) : Int) - 32
      let (b2, i1) := QoiReadU8 eof i0
      let dgr : Int := (((b2.val >>> 4) &&& 0x0f : Nat) : Int) - 8
      let dgb : Int := ((b2.val &&& 0x0f : Nat) : Int) - 8
      { s with px := ⟨toU8 (s.px.r.val + dg + dgr), toU8 (s.px.g.val + dg),
                      toU8 (s.px.b.val + dg + dgb), s.px.a⟩, inp := i1 }
    else if tag2 = QOI_OP_RUN_TAG then
      { s with run := tag.val &&& 0x3f, inp := i0 }
    else
      { s with inp := i0 }

/-- Lines 237-240: write `r, g, b`, and `a` when `channels == 4`. -/
def decEmit (channels : U8) (p : Px) (out : List U8) : List U8 :=
  let o3 := QoiWriteU8 p.b (QoiWriteU8 p.g (QoiWriteU8 p.r out))
  if channels = 4 then QoiWriteU8 p.a o3 else o3

/-- One iteration of the pixel loop of `QoiDecode` (lines 187-240). -/
def decIter (eof channels : U8) (s : DecState) : DecState :=
  let s1 : DecState :=
    if s.run > 0 then
      { s with run := s.run - 1 }
    else
      let t := decOp eof s
      let idx := QoiColorHash t.px.r t.px.g t.px.b t.px.a
      { t with history := setSlot t.history idx t.px }
  { s1 with out := decEmit channels s1.px s1.out }

/-- The loop `for (int i = 0; i < px_num; ++i)` of `QoiDecode`, with `n`
iterations left. -/
def decLoop (eof channels : U8) : Nat → DecState → DecState
  | 0, s => s
  | n + 1, s => decLoop eof channels n (decIter eof channels s)

/-- Lines 178-184: the state in which the pixel loop of `QoiDecode` is entered. -/
def decInit (inp out : List U8) : DecState :=
  { run := 0, history := zeroHistory, px := ⟨0, 0, 0, 255⟩, inp := inp, out := out }

/-- The padding loop of lines 243-246: `valid` and the source after the reads. -/
def decPadding (eof : U8) : List U8 → Bool → List U8 → Bool × List U8
  | [], valid, inp => (valid, inp)
  | x :: xs, valid, inp =>
    let (y, i1) := QoiReadU8 eof inp
    decPadding eof xs (if y ≠ x then false else valid) i1

/-- What a call of `QoiDecode` leaves behind: the returned `bool`, the four
reference parameters, the unread rest of the byte source and the bytes written to
the sink. -/
structure DecResult where
  ret : Bool
  width : U32
  height : U32
  channels : U8
  colorspace : U8
  inp : List U8
  out : List U8
deriving DecidableEq

/-- The header part of `QoiDecode` (lines 161-176): `none` when the magic check
fails, else the four header fields and the source after the header. -/
def decHeader (eof : U8) (inp : List U8) : List U8 × Option (U32 × U32 × U8 × U8) :=
  let (c1, i1) := QoiReadChar eof inp
  let (c2, i2) := QoiReadChar eof i1
  let (c3, i3) := QoiReadChar eof i2
  let (c4, i4) := QoiReadChar eof i3
  if c1 ≠ 113 ∨ c2 ≠ 111 ∨ c3 ≠ 105 ∨ c4 ≠ 102 then
    (i4, none)
  else
    let (w, i5) := QoiReadU32 eof i4
    let (h, i6) := QoiReadU32 eof i5
    let (c, i7) := QoiReadU8 eof i6
    let (cs, i8) := QoiReadU8 eof i7
    (i8, some (w, h, c, cs))

/-- Lines 159-241: `QoiDecode` from the end of the header to the end of its
pixel loop, for the header fields read. -/
def decBody (eof : U8) (width height : U32) (channels : U8) (inp : List U8) : DecState :=
  decLoop eof channels (pxNum width height).toNat (decInit inp [])

/-- The function `QoiDecode` of `qoi.h` (lines 159-249).  `width0`, `height0`,
`channels0`, `colorspace0` are the values the four reference parameters hold when
the function is called. -/
def QoiDecode (eof : U8) (width0 height0 : U32) (channels0 colorspace0 : U8)
    (inp : List U8) : DecResult :=
  match decHeader eof inp with
  | (i4, none) =>
    { ret := false, width := width0, height := height0, channels := channels0,
      colorspace := colorspace0, inp := i4, out := [] }
  | (i8, some (w, h, c, cs)) =>
    let s := decBody eof w h c i8
    let (valid, i9) := decPadding eof QOI_PADDING true s.inp
    { ret := valid, width := w, height := h, channels := c, colorspace := cs,
      inp := i9, out := s.out }

/-! ## Definitions used to state the properties -/

/-- The bytes of one pixel in the raw buffer: `r, g, b`, and `a` when
`channels == 4`. -/
def pixBytes (channels : U8) (p : Px) : List U8 :=
  if channels = 4 then [p.r, p.g, p.b, p.a] else [p.r, p.g, p.b]

/-- The slot of a pixel: `QoiColorHash(r, g, b, a)`. -/
def slotOf (p : Px) : Fin 64 := QoiColorHash p.r p.g p.b p.a

/-- The encoder cache `he` and the decoder cache `hd` agree in every slot, except
that slot 53, the slot of the initial pixel `(0,0,0,255)`, may still hold
`(0,0,0,0)` in the encoder when the decoder has already written `(0,0,0,255)`
into it. -/
def CacheRel (he hd : History) : Prop :=
  ∀ i : Fin 64, he i = hd i ∨ (i = 53 ∧ he i = ⟨0, 0, 0, 0⟩ ∧ hd i = ⟨0, 0, 0, 255⟩)

instance (he hd : History) : Decidable (CacheRel he hd) := by
  unfold CacheRel; infer_instance

/-- The previous pixel is held in its own slot of the encoder cache, or it is
still the initial pixel `(0,0,0,255)` and its slot has not been written. -/
def PreCached (he : History) (pre : Px) : Prop :=
  he (slotOf pre) = pre ∨ (pre = ⟨0, 0, 0, 255⟩ ∧ he 53 = ⟨0, 0, 0, 0⟩)

instance (he : History) (pre : Px) : Decidable (PreCached he pre) := by
  unfold PreCached; infer_instance

/-- The byte of a pending run of `run` pixels, if there is one (lines 89-92). -/
def flushOps (run : Nat) : List U8 :=
  if run > 0 then [runByte run] else []

/-- The encoder went from state `E` to state `E1` over the pixels `ps`, and a
decoder that stands in front of the run pending in `E`, with cache `hd`, decodes
what the encoder wrote to the pixels pending in `E` followed by `ps`, up to the
run pending in `E1`. -/
def Sim (eof channels : U8) (E : EncState) (hd : History) (ps : List Px)
    (E1 : EncState) : Prop :=
  ∃ (ops : List U8) (n : Nat) (dec : List Px) (hd1 : History),
    E1.out = E.out ++ ops ∧ E1.run < 62 ∧ n + E1.run = E.run + ps.length ∧
    dec ++ List.replicate E1.run E1.pre = List.replicate E.run E.pre ++ ps ∧
    CacheRel E1.history hd1 ∧ PreCached E1.history E1.pre ∧
    ∀ drest dout : List U8,
      decLoop eof channels n ⟨0, hd, E.pre, ops ++ drest, dout⟩ =
        ⟨0, hd1, E1.pre, drest, dout ++ dec.flatMap (pixBytes channels)⟩

/-- The bytes the pixel loop of `QoiEncode` writes: the operation stream. -/
def opStream (eof : U8) (width height : U32) (channels : U8) (inp : List U8) : List U8 :=
  (encLoop eof channels (pxNum width height) (pxNum width height).toNat 0 (encInit inp [])).out

/-- The four bytes the first four reads of a source yield: its first four bytes,
completed by the end-of-input byte when the source is shorter. -/
def magicRead (eof : U8) (inp : List U8) : List U8 :=
  (inp ++ List.replicate 4 eof).take 4

/-- The lengths of the runs into which `t` equal pixels are cut: full runs of 62
and, if it is not empty, the remainder. -/
def runLens (t : Nat) : List Nat :=
  List.replicate (t / 62) 62 ++ (if t % 62 = 0 then [] else [t % 62])

/-- The condition of line 113 on the `int` deltas of `p` against `pre`: each of
`dr, dg, db` lies in `[-2, 1]`. -/
def DiffOk (pre p : Px) : Prop :=
  -2 ≤ (p.r.val : Int) - pre.r.val ∧ (p.r.val : Int) - pre.r.val ≤ 1 ∧
  -2 ≤ (p.g.val : Int) - pre.g.val ∧ (p.g.val : Int) - pre.g.val ≤ 1 ∧
  -2 ≤ (p.b.val : Int) - pre.b.val ∧ (p.b.val : Int) - pre.b.val ≤ 1

instance (pre p : Px) : Decidable (DiffOk pre p) := by
  unfold DiffOk; infer_instance

/-- The condition of line 122 on the `int` deltas of `p` against `pre`: `dg` lies
in `[-32, 31]` and `dr - dg`, `db - dg` lie in `[-8, 7]`. -/
def LumaOk (pre p : Px) : Prop :=
  -32 ≤ (p.g.val : Int) - pre.g.val ∧ (p.g.val : Int) - pre.g.val ≤ 31 ∧
  -8 ≤ ((p.r.val : Int) - pre.r.val) - ((p.g.val : Int) - pre.g.val) ∧
  ((p.r.val : Int) - pre.r.val) - ((p.g.val : Int) - pre.g.val) ≤ 7 ∧
  -8 ≤ ((p.b.val : Int) - pre.b.val) - ((p.g.val : Int) - pre.g.val) ∧
  ((p.b.val : Int) - pre.b.val) - ((p.g.val : Int) - pre.g.val) ≤ 7

instance (pre p : Px) : Decidable (LumaOk pre p) := by
  unfold LumaOk; infer_instance

/-- The diff byte of line 114 for the pixel `p` against `pre`. -/
def diffByte (pre p : Px) : U8 :=
  toU8 ((QOI_OP_DIFF_TAG ||| (((p.r.val : Int) - pre.r.val + 2).toNat <<< 4)
    ||| (((p.g.val : Int) - pre.g.val + 2).toNat <<< 2)
    ||| ((p.b.val : Int) - pre.b.val + 2).toNat : Nat) : Int)

/-- The two luma bytes of lines 124-125 for the pixel `p` against `pre`. -/
def lumaBytes (pre p : Px) : List U8 :=
  [toU8 ((QOI_OP_LUMA_TAG ||| ((p.g.val : Int) - pre.g.val + 32).toNat : Nat) : Int),
   toU8 ((((((p.r.val : Int) - pre.r.val) - ((p.g.val : Int) - pre.g.val) + 8).toNat <<< 4)
     ||| (((p.b.val : Int) - pre.b.val) - ((p.g.val : Int) - pre.g.val) + 8).toNat : Nat)
     : Int)]

/-- The operations the encoder chooses among for a pixel `p` that differs from
the previous pixel `pre`, with cache `he`: the index operation of the slot
`hash(p)` when that slot holds `p`; the diff and the luma operation of the
integer deltas when alpha is unchanged and the deltas are within the bounds of
line 113, respectively line 122; the RGB literal when alpha is unchanged; the RGBA
literal. -/
def candidateOps (he : History) (pre p : Px) : List (List U8) :=
  (if he (slotOf p) = p then [[toU8 ((QOI_OP_INDEX_TAG ||| (slotOf p).val : Nat) : Int)]]
    else []) ++
  (if p.a = pre.a ∧ DiffOk pre p then [[diffByte pre p]] else []) ++
  (if p.a = pre.a ∧ LumaOk pre p then [lumaBytes pre p] else []) ++
  (if p.a = pre.a then [[0xfe, p.r, p.g, p.b]] else []) ++
  [[0xff, p.r, p.g, p.b, p.a]]

/-- An operation of the stream, as far as the accounting needs it: a run with
its length, or any other operation with its tag byte. -/
inductive Op where
  | run (len : Nat)
  | other (tag : U8)
deriving DecidableEq

/-- The tag space, checked as `QoiDecode` checks it: a tag is a run tag when it
is neither literal tag and its top two bits are `11`. -/
def isRunTag (t : U8) : Prop :=
  t.val ≠ QOI_OP_RGB_TAG ∧ t.val ≠ QOI_OP_RGBA_TAG ∧ t.val &&& QOI_MASK_2 = QOI_OP_RUN_TAG

instance (t : U8) : Decidable (isRunTag t) := by
  unfold isRunTag; infer_instance

/-- The number of bytes of the operation that starts with the tag `t`, as
`QoiDecode` reads it: 4 for an RGB literal, 5 for an RGBA literal, 2 for a luma
operation, 1 for an index, diff or run operation. -/
def opSize (t : U8) : Nat :=
  if t.val = QOI_OP_RGB_TAG then 4
  else if t.val = QOI_OP_RGBA_TAG then 5
  else if t.val &&& QOI_MASK_2 = QOI_OP_LUMA_TAG then 2
  else 1

/-- The operation that starts with the tag `t`; the length of a run is the low
six bits of its byte plus one. -/
def opOf (t : U8) : Op :=
  if isRunTag t then Op.run ((t.val &&& 0x3f) + 1) else Op.other t

/-- Parsing of an operation stream into its operations; `skip` is the number of
bytes of the current operation that are still to be passed over. -/
def parseFrom : Nat → List U8 → List Op
  | _, [] => []
  | skip + 1, _ :: rest => parseFrom skip rest
  | 0, t :: rest => opOf t :: parseFrom (opSize t - 1) rest

/-- Parsing of an operation stream from its first tag. -/
def parseOps (bytes : List U8) : List Op := parseFrom 0 bytes

/-- The number of operations of a list that are not runs. -/
def nonRuns : List Op → Nat
  | [] => 0
  | Op.run _ :: ops => nonRuns ops
  | Op.other _ :: ops => nonRuns ops + 1

/-- The sum of the lengths of the runs of a list of operations. -/
def runSum : List Op → Nat
  | [] => 0
  | Op.run n :: ops => n + runSum ops
  | Op.other _ :: ops => runSum ops

/-- The relation between an operation and the next one: a run of less than 62
pixels is followed by an operation that is not a run. -/
def RunThenOther (a b : Op) : Prop :=
  ∀ n : Nat, a = Op.run n → n < 62 → ∃ t : U8, b = Op.other t

/-- The byte that a pending run still has to be given in the stream: 1 when
`run > 0`, else 0. -/
def pending (run : Nat) : Nat := if run > 0 then 1 else 0

/-- A sequence of bytes is made of whole operations: parsing it in front of
further bytes parses it and then the further bytes. -/
def Complete (bytes : List U8) : Prop :=
  ∀ rest : List U8, parseOps (bytes ++ rest) = parseOps bytes ++ parseOps rest

/-! ## Bytes and bit fields -/

theorem toU8_natCast_val (n : Nat) : (toU8 (n : Int)).val = n % 256 := by
  simp only [toU8]
  omega

/-- The run byte of a run of `m + 1` pixels, `m ≤ 61`: it is neither literal tag,
its top two bits are `11` and its low six bits are `m`. -/
theorem runByte_fields : ∀ m < 62,
    (runByte (m + 1)).val ≠ 254 ∧ (runByte (m + 1)).val ≠ 255 ∧
    (runByte (m + 1)).val &&& 192 = 192 ∧ (runByte (m + 1)).val &&& 63 = m ∧
    (runByte (m + 1)).val = 192 + m := by
  decide

/-- The index byte of slot `k`: its top two bits are `00` and its low six bits
are `k`. -/
theorem indexByte_fields : ∀ k < 64,
    (toU8 ((0 ||| k : Nat) : Int)).val ≠ 254 ∧ (toU8 ((0 ||| k : Nat) : Int)).val ≠ 255 ∧
    (toU8 ((0 ||| k : Nat) : Int)).val &&& 192 = 0 ∧
    (toU8 ((0 ||| k : Nat) : Int)).val &&& 63 = k ∧
    (toU8 ((0 ||| k : Nat) : Int)).val = k := by
  decide

/-- The diff byte built from three biased deltas in `[0, 3]`: the decoder's bit
fields give the three deltas back. -/
theorem diffByte_fields : ∀ x < 4, ∀ y < 4, ∀ z < 4,
    (toU8 ((64 ||| (x <<< 4) ||| (y <<< 2) ||| z : Nat) : Int)).val ≠ 254 ∧
    (toU8 ((64 ||| (x <<< 4) ||| (y <<< 2) ||| z : Nat) : Int)).val ≠ 255 ∧
    (toU8 ((64 ||| (x <<< 4) ||| (y <<< 2) ||| z : Nat) : Int)).val &&& 192 = 64 ∧
    ((toU8 ((64 ||| (x <<< 4) ||| (y <<< 2) ||| z : Nat) : Int)).val >>> 4) &&& 3 = x ∧
    ((toU8 ((64 ||| (x <<< 4) ||| (y <<< 2) ||| z : Nat) : Int)).val >>> 2) &&& 3 = y ∧
    (toU8 ((64 ||| (x <<< 4) ||| (y <<< 2) ||| z : Nat) : Int)).val &&& 3 = z ∧
    (toU8 ((64 ||| (x <<< 4) ||| (y <<< 2) ||| z : Nat) : Int)).val = 64 + 16 * x + 4 * y + z := by
  decide

/-- The first luma byte built from a biased green delta in `[0, 63]`. -/
theorem lumaByte1_fields : ∀ x < 64,
    (toU8 ((128 ||| x : Nat) : Int)).val ≠ 254 ∧ (toU8 ((128 ||| x : Nat) : Int)).val ≠ 255 ∧
    (toU8 ((128 ||| x : Nat) : Int)).val &&& 192 = 128 ∧
    (toU8 ((128 ||| x : Nat) : Int)).val &&& 63 = x ∧
    (toU8 ((128 ||| x : Nat) : Int)).val = 128 + x := by
  decide

/-- The second luma byte built from two biased deltas in `[0, 15]`. -/
theorem lumaByte2_fields : ∀ x < 16, ∀ y < 16,
    ((toU8 (((x <<< 4) ||| y : Nat) : Int)).val >>> 4) &&& 15 = x ∧
    (toU8 (((x <<< 4) ||| y : Nat) : Int)).val &&& 15 = y ∧
    (toU8 (((x <<< 4) ||| y : Nat) : Int)).val = 16 * x + y := by
  decide

/-! ## Single steps of the decoder -/

theorem decEmit_eq (channels : U8) (p : Px) (out : List U8) :
    decEmit channels p out = out ++ pixBytes channels p := by
  unfold decEmit pixBytes QoiWriteU8
  split <;> simp

theorem decLoop_add (eof channels : U8) (m n : Nat) (s : DecState) :
    decLoop eof channels (m + n) s = decLoop eof channels n (decLoop eof channels m s) := by
  induction m generalizing s with
  | zero => simp [decLoop]
  | succ m ih =>
    rw [Nat.succ_add]
    simp only [decLoop]
    exact ih _

/-- While `run > 0` the decoder repeats the pixel registers without reading. -/
theorem decLoop_repeat (eof channels : U8) (k : Nat) (h : History) (px : Px)
    (inp out : List U8) :
    decLoop eof channels k ⟨k, h, px, inp, out⟩ =
      ⟨0, h, px, inp, out ++ (List.replicate k px).flatMap (pixBytes channels)⟩ := by
  induction k generalizing out with
  | zero => simp [decLoop]
  | succ k ih =>
    simp only [decLoop, decIter, decEmit_eq]
    simp only [Nat.succ_pos, if_true, Nat.add_sub_cancel]
    rw [ih]
    simp [List.replicate_succ]

theorem decOp_rgb (eof : U8) (run : Nat) (h : History) (px : Px) (t r g b : U8)
    (rest out : List U8) (ht : t.val = 254) :
    decOp eof ⟨run, h, px, t :: r :: g :: b :: rest, out⟩ =
      ⟨run, h, ⟨r, g, b, px.a⟩, rest, out⟩ := by
  simp [decOp, QoiReadU8, QOI_OP_RGB_TAG, ht]

theorem decOp_rgba (eof : U8) (run : Nat) (h : History) (px : Px) (t r g b a : U8)
    (rest out : List U8) (ht : t.val = 255) :
    decOp eof ⟨run, h, px, t :: r :: g :: b :: a :: rest, out⟩ =
      ⟨run, h, ⟨r, g, b, a⟩, rest, out⟩ := by
  simp [decOp, QoiReadU8, QOI_OP_RGB_TAG, QOI_OP_RGBA_TAG, ht]

theorem decOp_index (eof : U8) (run : Nat) (h : History) (px : Px) (t : U8)
    (rest out : List U8) (h1 : t.val ≠ 254) (h2 : t.val ≠ 255) (h3 : t.val &&& 192 = 0) :
    decOp eof ⟨run, h, px, t :: rest, out⟩ =
      ⟨run, h, h ⟨t.val &&& 63, Nat.lt_succ_of_le Nat.and_le_right⟩, rest, out⟩ := by
  simp [decOp, QoiReadU8, QOI_OP_RGB_TAG, QOI_OP_RGBA_TAG, QOI_MASK_2, QOI_OP_INDEX_TAG,
    h1, h2, h3]

theorem decOp_diff (eof : U8) (run : Nat) (h : History) (px : Px) (t : U8)
    (rest out : List U8) (h1 : t.val ≠ 254) (h2 : t.val ≠ 255) (h3 : t.val &&& 192 = 64) :
    decOp eof ⟨run, h, px, t :: rest, out⟩ =
      ⟨run, h, ⟨toU8 ((px.r.val : Int) + ((((t.val >>> 4) &&& 3 : Nat) : Int) - (2 : Int))),
                toU8 ((px.g.val : Int) + ((((t.val >>> 2) &&& 3 : Nat) : Int) - (2 : Int))),
                toU8 ((px.b.val : Int) + (((t.val &&& 3 : Nat) : Int) - (2 : Int))), px.a⟩,
        rest, out⟩ := by
  simp [decOp, QoiReadU8, QOI_OP_RGB_TAG, QOI_OP_RGBA_TAG, QOI_MASK_2, QOI_OP_INDEX_TAG,
    QOI_OP_DIFF_TAG, h1, h2, h3]

theorem decOp_luma (eof : U8) (run : Nat) (h : History) (px : Px) (t b2 : U8)
    (rest out : List U8) (h1 : t.val ≠ 254) (h2 : t.val ≠ 255) (h3 : t.val &&& 192 = 128) :
    decOp eof ⟨run, h, px, t :: b2 :: rest, out⟩ =
      ⟨run, h, ⟨toU8 ((px.r.val : Int) + (((t.val &&& 63 : Nat) : Int) - (32 : Int))
                  + ((((b2.val >>> 4) &&& 15 : Nat) : Int) - (8 : Int))),
                toU8 ((px.g.val : Int) + (((t.val &&& 63 : Nat) : Int) - (32 : Int))),
                toU8 ((px.b.val : Int) + (((t.val &&& 63 : Nat) : Int) - (32 : Int))
                  + (((b2.val &&& 15 : Nat) : Int) - (8 : Int))), px.a⟩, rest, out⟩ := by
  simp [decOp, QoiReadU8, QOI_OP_RGB_TAG, QOI_OP_RGBA_TAG, QOI_MASK_2, QOI_OP_INDEX_TAG,
    QOI_OP_DIFF_TAG, QOI_OP_LUMA_TAG, h1, h2, h3]

theorem decOp_run (eof : U8) (run : Nat) (h : History) (px : Px) (t : U8)
    (rest out : List U8) (h1 : t.val ≠ 254) (h2 : t.val ≠ 255) (h3 : t.val &&& 192 = 192) :
    decOp eof ⟨run, h, px, t :: rest, out⟩ = ⟨t.val &&& 63, h, px, rest, out⟩ := by
  simp [decOp, QoiReadU8, QOI_OP_RGB_TAG, QOI_OP_RGBA_TAG, QOI_MASK_2, QOI_OP_INDEX_TAG,
    QOI_OP_DIFF_TAG, QOI_OP_LUMA_TAG, QOI_OP_RUN_TAG, h1, h2, h3]

/-- An iteration that starts with `run = 0` reads one operation, writes the
resulting pixel registers into the cache and emits them. -/
theorem decIter_of_decOp (eof channels : U8) (h : History) (px : Px) (inp out : List U8)
    (t : DecState) (hop : decOp eof ⟨0, h, px, inp, out⟩ = t) :
    decIter eof channels ⟨0, h, px, inp, out⟩ =
      ⟨t.run, setSlot t.history (slotOf t.px) t.px, t.px, t.inp,
        t.out ++ pixBytes channels t.px⟩ := by
  subst hop
  simp [decIter, decEmit_eq, slotOf]

/-- A run byte of a run of `m + 1` pixels is decoded, in `m + 1` iterations, to
`m + 1` copies of the pixel registers, and writes the registers into the cache. -/
theorem decLoop_run (eof channels : U8) (m : Nat) (hm : m < 62) (h : History) (px : Px)
    (rest out : List U8) :
    decLoop eof channels (m + 1) ⟨0, h, px, runByte (m + 1) :: rest, out⟩ =
      ⟨0, setSlot h (slotOf px) px, px, rest,
        out ++ (List.replicate (m + 1) px).flatMap (pixBytes channels)⟩ := by
  obtain ⟨h1, h2, h3, h4, -⟩ := runByte_fields m hm
  simp only [decLoop]
  rw [decIter_of_decOp eof channels h px _ out _ (decOp_run eof 0 h px _ rest out h1 h2 h3), h4]
  simp only []
  rw [decLoop_repeat]
  simp [List.replicate_succ]

/-- An index byte is decoded to the pixel held in the addressed slot. -/
theorem decIter_index (eof channels : U8) (k : Fin 64) (h : History) (px : Px)
    (rest out : List U8) :
    decIter eof channels ⟨0, h, px, toU8 ((QOI_OP_INDEX_TAG ||| k.val : Nat) : Int) :: rest, out⟩ =
      ⟨0, setSlot h (slotOf (h k)) (h k), h k, rest, out ++ pixBytes channels (h k)⟩ := by
  obtain ⟨h1, h2, h3, h4, -⟩ := indexByte_fields k.val k.isLt
  have hk : (⟨(toU8 ((QOI_OP_INDEX_TAG ||| k.val : Nat) : Int)).val &&& 63,
      Nat.lt_succ_of_le Nat.and_le_right⟩ : Fin 64) = k := Fin.ext h4
  rw [decIter_of_decOp eof channels h px _ out _ (decOp_index eof 0 h px _ rest out h1 h2 h3)]
  simp only []
  rw [hk]

/-- The operation the encoder writes for a pixel that is not a cache hit is
decoded, from the same previous pixel, to that pixel. -/
theorem decIter_encOp (eof channels : U8) (h : History) (pre p : Px) (rest out : List U8) :
    decIter eof channels ⟨0, h, pre, encOp pre p ++ rest, out⟩ =
      ⟨0, setSlot h (slotOf p) p, p, rest, out ++ pixBytes channels p⟩ := by
  obtain ⟨pr, pg, pb, pa⟩ := p
  obtain ⟨qr, qg, qb, qa⟩ := pre
  unfold encOp
  simp only []
  split
  · -- RGBA literal
    rw [List.cons_append, List.cons_append, List.cons_append, List.cons_append, List.cons_append,
      List.nil_append,
      decIter_of_decOp eof channels h _ _ out _ (decOp_rgba eof 0 h _ _ pr pg pb pa rest out rfl)]
  · rename_i hda
    have hpa : pa = qa := by
      apply Fin.ext
      simp only [ne_eq, Decidable.not_not] at hda
      omega
    subst hpa
    split
    · -- diff
      rename_i hd
      obtain ⟨x, hx⟩ : ∃ x : Nat, ((pr.val : Int) - qr.val + 2).toNat = x := ⟨_, rfl⟩
      obtain ⟨y, hy⟩ : ∃ y : Nat, ((pg.val : Int) - qg.val + 2).toNat = y := ⟨_, rfl⟩
      obtain ⟨z, hz⟩ : ∃ z : Nat, ((pb.val : Int) - qb.val + 2).toNat = z := ⟨_, rfl⟩
      obtain ⟨h1, h2, h3, h4, h5, h6, -⟩ := diffByte_fields x (by omega) y (by omega) z (by omega)
      rw [hx, hy, hz, List.cons_append, List.nil_append,
        decIter_of_decOp eof channels h _ _ out _ (decOp_diff eof 0 h _ _ rest out h1 h2 h3)]
      simp only [h4, h5, h6]
      have er : toU8 ((qr.val : Int) + ((x : Int) - 2)) = pr := by
        apply Fin.ext; simp only [toU8]; omega
      have eg : toU8 ((qg.val : Int) + ((y : Int) - 2)) = pg := by
        apply Fin.ext; simp only [toU8]; omega
      have eb : toU8 ((qb.val : Int) + ((z : Int) - 2)) = pb := by
        apply Fin.ext; simp only [toU8]; omega
      rw [er, eg, eb]
    · split
      · -- luma
        rename_i hd hl
        obtain ⟨x, hx⟩ : ∃ x : Nat, ((pg.val : Int) - qg.val + 32).toNat = x := ⟨_, rfl⟩
        obtain ⟨y, hy⟩ : ∃ y : Nat,
          ((pr.val : Int) - qr.val - ((pg.val : Int) - qg.val) + 8).toNat = y := ⟨_, rfl⟩
        obtain ⟨z, hz⟩ : ∃ z : Nat,
          ((pb.val : Int) - qb.val - ((pg.val : Int) - qg.val) + 8).toNat = z := ⟨_, rfl⟩
        obtain ⟨h1, h2, h3, h4, -⟩ := lumaByte1_fields x (by omega)
        obtain ⟨h5, h6, -⟩ := lumaByte2_fields y (by omega) z (by omega)
        rw [hx, hy, hz, List.cons_append, List.cons_append, List.nil_append,
          decIter_of_decOp eof channels h _ _ out _ (decOp_luma eof 0 h _ _ _ rest out h1 h2 h3)]
        simp only [h4, h5, h6]
        have er : toU8 ((qr.val : Int) + ((x : Int) - 32) + ((y : Int) - 8)) = pr := by
          apply Fin.ext; simp only [toU8]; omega
        have eg : toU8 ((qg.val : Int) + ((x : Int) - 32)) = pg := by
          apply Fin.ext; simp only [toU8]; omega
        have eb : toU8 ((qb.val : Int) + ((x : Int) - 32) + ((z : Int) - 8)) = pb := by
          apply Fin.ext; simp only [toU8]; omega
        rw [er, eg, eb]
      · -- RGB literal
        rw [List.cons_append, List.cons_append, List.cons_append, List.cons_append,
          List.nil_append,
          decIter_of_decOp eof channels h _ _ out _ (decOp_rgb eof 0 h _ _ pr pg pb rest out rfl)]

/-! ## The relation between the two caches -/

theorem cacheRel_refl (h : History) : CacheRel h h := fun _ => Or.inl rfl

theorem cacheRel_setSlot_pre {he hd : History} {pre : Px} (h1 : CacheRel he hd)
    (h2 : PreCached he pre) : CacheRel he (setSlot hd (slotOf pre) pre) := by
  intro i
  unfold setSlot
  by_cases hi : i = slotOf pre
  · rw [if_pos hi]
    rcases h2 with h2 | ⟨h2, h3⟩
    · left; rw [hi]; exact h2
    · subst h2
      have : slotOf ⟨0, 0, 0, 255⟩ = 53 := by decide
      rw [this] at hi
      right; exact ⟨hi, hi ▸ h3, rfl⟩
  · rw [if_neg hi]; exact h1 i

theorem cacheRel_lookup {he hd : History} {p : Px} (h1 : CacheRel he hd)
    (hit : he (slotOf p) = p) : hd (slotOf p) = p := by
  rcases h1 (slotOf p) with h | ⟨h, h0, -⟩
  · rw [← h]; exact hit
  · rw [hit] at h0
    subst h0
    exact absurd h (by decide)

theorem cacheRel_setSlot_both {he hd : History} (k : Fin 64) (p : Px)
    (h1 : CacheRel he hd) : CacheRel (setSlot he k p) (setSlot hd k p) := by
  intro i
  unfold setSlot
  by_cases hi : i = k
  · rw [if_pos hi, if_pos hi]; exact Or.inl rfl
  · rw [if_neg hi, if_neg hi]; exact h1 i

theorem cacheRel_setSlot_hit {he hd : History} {p : Px} (h1 : CacheRel he hd)
    (hit : he (slotOf p) = p) : CacheRel he (setSlot hd (slotOf p) p) := by
  intro i
  unfold setSlot
  by_cases hi : i = slotOf p
  · rw [if_pos hi, hi]; exact Or.inl hit
  · rw [if_neg hi]; exact h1 i

theorem preCached_setSlot (he : History) (p : Px) :
    PreCached (setSlot he (slotOf p) p) p := by
  left; simp [setSlot]

/-- The decoder consumes the byte of a pending run of `run` pixels, if any. -/
theorem decLoop_flush (eof channels : U8) (run : Nat) (hrun : run < 63) (hd : History)
    (pre : Px) (rest out : List U8) :
    decLoop eof channels run
        ⟨0, hd, pre, (if run > 0 then [runByte run] else []) ++ rest, out⟩ =
      ⟨0, if run > 0 then setSlot hd (slotOf pre) pre else hd, pre, rest,
        out ++ (List.replicate run pre).flatMap (pixBytes channels)⟩ := by
  cases run with
  | zero => simp [decLoop]
  | succ m =>
    simp only [Nat.succ_pos, if_true, gt_iff_lt, List.cons_append, List.nil_append]
    exact decLoop_run eof channels m (by omega) hd pre rest out

/-! ## Single steps of the encoder -/

theorem px_eq_iff (p q : Px) : (p.r = q.r ∧ p.g = q.g ∧ p.b = q.b ∧ p.a = q.a) ↔ p = q := by
  cases p; cases q; simp

theorem encPixel_run_flush (last : Bool) (p : Px) (run : Nat) (he : History) (pre : Px)
    (inp out : List U8) (hp : p = pre) (hf : run + 1 = 62 ∨ last = true) :
    encPixel last p ⟨run, he, pre, inp, out⟩ = ⟨0, he, pre, inp, out ++ [runByte (run + 1)]⟩ := by
  unfold encPixel
  simp only [px_eq_iff]
  rw [if_pos hp, if_pos hf]
  rfl

theorem encPixel_run_keep (last : Bool) (p : Px) (run : Nat) (he : History) (pre : Px)
    (inp out : List U8) (hp : p = pre) (hf : ¬ (run + 1 = 62 ∨ last = true)) :
    encPixel last p ⟨run, he, pre, inp, out⟩ = ⟨run + 1, he, pre, inp, out⟩ := by
  unfold encPixel
  simp only [px_eq_iff]
  rw [if_pos hp, if_neg hf]

theorem encPixel_hit (last : Bool) (p : Px) (run : Nat) (he : History) (pre : Px)
    (inp out : List U8) (hp : p ≠ pre) (hit : he (slotOf p) = p) :
    encPixel last p ⟨run, he, pre, inp, out⟩ =
      ⟨0, he, p, inp,
        out ++ flushOps run ++ [toU8 ((QOI_OP_INDEX_TAG ||| (slotOf p).val : Nat) : Int)]⟩ := by
  unfold encPixel flushOps
  simp only [px_eq_iff]
  rw [if_neg hp]
  by_cases hr : run > 0
  · simp only [if_pos hr]
    rw [if_pos (by exact hit)]
    simp [QoiWriteU8, slotOf]
  · simp only [if_neg hr]
    rw [if_pos (by exact hit)]
    have : run = 0 := by omega
    simp [QoiWriteU8, slotOf, this]

theorem encPixel_miss (last : Bool) (p : Px) (run : Nat) (he : History) (pre : Px)
    (inp out : List U8) (hp : p ≠ pre) (hit : he (slotOf p) ≠ p) :
    encPixel last p ⟨run, he, pre, inp, out⟩ =
      ⟨0, setSlot he (slotOf p) p, p, inp, out ++ flushOps run ++ encOp pre p⟩ := by
  unfold encPixel flushOps
  simp only [px_eq_iff]
  rw [if_neg hp]
  by_cases hr : run > 0
  · simp only [if_pos hr]
    rw [if_neg (by exact hit)]
    simp [QoiWriteU8, slotOf]
  · simp only [if_neg hr]
    rw [if_neg (by exact hit)]
    have : run = 0 := by omega
    simp [slotOf, this]

/-! ## The decoder follows the encoder -/

theorem sim_nil (eof channels : U8) (E : EncState) (hd : History) (hrun : E.run < 62)
    (hrel : CacheRel E.history hd) (hpre : PreCached E.history E.pre) :
    Sim eof channels E hd [] E :=
  ⟨[], 0, [], hd, by simp, hrun, by simp, by simp, hrel, hpre, by
    intro drest dout; simp [decLoop]⟩

theorem sim_trans (eof channels : U8) (E E1 E2 : EncState) (hd : History)
    (ps1 ps2 : List Px) (h1 : Sim eof channels E hd ps1 E1)
    (h2 : ∀ hd1, CacheRel E1.history hd1 → Sim eof channels E1 hd1 ps2 E2) :
    Sim eof channels E hd (ps1 ++ ps2) E2 := by
  obtain ⟨ops1, n1, dec1, hd1, ho1, -, hn1, hdec1, hrel1, -, hloop1⟩ := h1
  obtain ⟨ops2, n2, dec2, hd2, ho2, hr2, hn2, hdec2, hrel2, hpre2, hloop2⟩ := h2 hd1 hrel1
  refine ⟨ops1 ++ ops2, n1 + n2, dec1 ++ dec2, hd2, ?_, hr2, ?_, ?_, hrel2, hpre2, ?_⟩
  · rw [ho2, ho1, List.append_assoc]
  · rw [List.length_append]; omega
  · rw [List.append_assoc, hdec2, ← List.append_assoc, hdec1, List.append_assoc]
  · intro drest dout
    rw [decLoop_add, List.append_assoc, hloop1, hloop2, List.flatMap_append,
      List.append_assoc]

/-- One pixel: the step `encPixel` is followed by the decoder. -/
theorem sim_step (eof channels : U8) (last : Bool) (p : Px) (run : Nat) (he : History)
    (pre : Px) (inp eout : List U8) (hd : History)
    (hrun : run < 62) (hrel : CacheRel he hd) (hpre : PreCached he pre) :
    Sim eof channels ⟨run, he, pre, inp, eout⟩ hd [p]
        (encPixel last p ⟨run, he, pre, inp, eout⟩) ∧
      (encPixel last p ⟨run, he, pre, inp, eout⟩).inp = inp ∧
      (last = true → (encPixel last p ⟨run, he, pre, inp, eout⟩).run = 0) := by
  by_cases hp : p = pre
  · by_cases hf : run + 1 = 62 ∨ last = true
    · rw [encPixel_run_flush last p run he pre inp eout hp hf]
      refine ⟨⟨[runByte (run + 1)], run + 1, List.replicate (run + 1) pre,
        setSlot hd (slotOf pre) pre, rfl, by simp, by simp, ?_,
        cacheRel_setSlot_pre hrel hpre, hpre, ?_⟩, rfl, fun _ => rfl⟩
      · simp [hp, List.replicate_succ']
      · intro drest dout
        exact decLoop_run eof channels run hrun hd pre drest dout
    · rw [encPixel_run_keep last p run he pre inp eout hp hf]
      refine ⟨⟨[], 0, [], hd, by simp, ?_, by simp, ?_, hrel, hpre, ?_⟩, rfl, ?_⟩
      · simp only; omega
      · simp [hp, List.replicate_succ']
      · intro drest dout; simp [decLoop]
      · intro hl; exact absurd (Or.inr hl) hf
  · have hfl : CacheRel he (if run > 0 then setSlot hd (slotOf pre) pre else hd) := by
      split
      · exact cacheRel_setSlot_pre hrel hpre
      · exact hrel
    by_cases hit : he (slotOf p) = p
    · rw [encPixel_hit last p run he pre inp eout hp hit]
      refine ⟨⟨flushOps run ++ [toU8 ((QOI_OP_INDEX_TAG ||| (slotOf p).val : Nat) : Int)],
        run + 1, List.replicate run pre ++ [p], _, by simp, by simp, by simp, by simp,
        cacheRel_setSlot_hit hfl hit, Or.inl hit, ?_⟩, rfl, fun _ => rfl⟩
      intro drest dout
      have hlk := cacheRel_lookup hfl hit
      rw [decLoop_add, List.append_assoc]
      unfold flushOps
      rw [decLoop_flush eof channels run (by omega)]
      simp only [decLoop, List.cons_append, List.nil_append]
      rw [decIter_index, hlk]
      simp
    · rw [encPixel_miss last p run he pre inp eout hp hit]
      refine ⟨⟨flushOps run ++ encOp pre p,
        run + 1, List.replicate run pre ++ [p], _, by simp, by simp, by simp, by simp,
        cacheRel_setSlot_both (slotOf p) p hfl, preCached_setSlot he p, ?_⟩, rfl, fun _ => rfl⟩
      intro drest dout
      rw [decLoop_add, List.append_assoc]
      unfold flushOps
      rw [decLoop_flush eof channels run (by omega)]
      simp only [decLoop]
      rw [decIter_encOp]
      simp

theorem encReadPixel_pix (eof channels : U8) (p : Px) (rest : List U8)
    (hp : channels ≠ 4 → p.a = 255) :
    encReadPixel eof channels (pixBytes channels p ++ rest) = (p, rest) := by
  obtain ⟨r, g, b, a⟩ := p
  unfold encReadPixel pixBytes
  by_cases hc : channels = 4
  · simp [hc, QoiReadU8]
  · have := hp hc
    simp only at this
    simp [hc, QoiReadU8, this]

/-- The pixel loop of the encoder over the pixels `ps` is followed by the
decoder; the loop leaves no run pending when it reaches `px_num`. -/
theorem sim_loop (eof eofD channels : U8) (pxnum : Int) (ps : List Px)
    (hps : channels ≠ 4 → ∀ p ∈ ps, p.a = 255) :
    ∀ (i run : Nat) (he : History) (pre : Px) (erest eout : List U8) (hd : History),
      run < 62 → CacheRel he hd → PreCached he pre →
      Sim eofD channels ⟨run, he, pre, ps.flatMap (pixBytes channels) ++ erest, eout⟩ hd ps
          (encLoop eof channels pxnum ps.length i
            ⟨run, he, pre, ps.flatMap (pixBytes channels) ++ erest, eout⟩) ∧
        (encLoop eof channels pxnum ps.length i
            ⟨run, he, pre, ps.flatMap (pixBytes channels) ++ erest, eout⟩).inp = erest ∧
        ((i : Int) + ps.length = pxnum → ps ≠ [] →
          (encLoop eof channels pxnum ps.length i
            ⟨run, he, pre, ps.flatMap (pixBytes channels) ++ erest, eout⟩).run = 0) := by
  induction ps with
  | nil =>
    intro i run he pre erest eout hd hrun hrel hpre
    exact ⟨sim_nil eofD channels _ hd hrun hrel hpre, by simp [encLoop], fun _ h => absurd rfl h⟩
  | cons p ps ih =>
    intro i run he pre erest eout hd hrun hrel hpre
    have hp : channels ≠ 4 → p.a = 255 := fun hc => hps hc p (List.mem_cons_self _ _)
    have hps1 : channels ≠ 4 → ∀ q ∈ ps, q.a = 255 :=
      fun hc q hq => hps hc q (List.mem_cons_of_mem _ hq)
    have hiter : encIter eof channels pxnum i
        ⟨run, he, pre, (p :: ps).flatMap (pixBytes channels) ++ erest, eout⟩ =
        encPixel (decide ((i : Int) = pxnum - 1)) p
          ⟨run, he, pre, ps.flatMap (pixBytes channels) ++ erest, eout⟩ := by
      unfold encIter
      simp only [List.flatMap_cons, List.append_assoc]
      rw [encReadPixel_pix eof channels p _ hp]
    simp only [List.length_cons, encLoop]
    rw [hiter]
    obtain ⟨hs, hinp, hlast⟩ := sim_step eofD channels (decide ((i : Int) = pxnum - 1)) p run he
      pre (ps.flatMap (pixBytes channels) ++ erest) eout hd hrun hrel hpre
    generalize encPixel (decide ((i : Int) = pxnum - 1)) p
      ⟨run, he, pre, ps.flatMap (pixBytes channels) ++ erest, eout⟩ = E1 at hs hinp hlast ⊢
    obtain ⟨run1, he1, pre1, inp1, out1⟩ := E1
    simp only at hinp
    subst hinp
    have hs' := hs
    obtain ⟨_, _, _, _, -, hr1, -, -, -, hpre1, -⟩ := hs'
    simp only at hr1 hpre1
    refine ⟨?_, (ih hps1 (i + 1) run1 he1 pre1 erest out1 he1 hr1 (cacheRel_refl _) hpre1).2.1, ?_⟩
    · exact sim_trans eofD channels _ _ _ hd [p] ps hs
        (fun hd1 hrel1 => (ih hps1 (i + 1) run1 he1 pre1 erest out1 hd1 hr1 hrel1 hpre1).1)
    · intro hi _
      by_cases hnil : ps = []
      · subst hnil
        simp only [List.length_nil, encLoop]
        simp only [List.length_cons, List.length_nil] at hi
        exact hlast (by simp; omega)
      · refine (ih hps1 (i + 1) run1 he1 pre1 erest out1 he1 hr1 (cacheRel_refl _) hpre1).2.2
          ?_ hnil
        push_cast at hi ⊢
        omega

/-! ## Header, padding and the shape of the output -/

theorem pxNum_of_lt (width height : U32) (h : width.val * height.val < 2147483648) :
    pxNum width height = ((width.val * height.val : Nat) : Int) := by
  unfold pxNum
  have hm : width.val * height.val % 4294967296 = width.val * height.val :=
    Nat.mod_eq_of_lt (by omega)
  simp only [hm, if_pos h]

theorem encHeader_eq (width height : U32) (channels colorspace : U8) (out : List U8) :
    encHeader width height channels colorspace out =
      out ++ ([113, 111, 105, 102] ++ be32 width ++ be32 height ++ [channels, colorspace]) := by
  simp [encHeader, QoiWriteU8, QoiWriteChar, QoiWriteU32]

theorem encPadding_eq (out : List U8) :
    encPadding QOI_PADDING out = out ++ [0, 0, 0, 0, 0, 0, 0, 1] := by
  simp [encPadding, QOI_PADDING, QoiWriteU8]

theorem QoiReadU32_be32 (eof : U8) (x : U32) (rest : List U8) :
    QoiReadU32 eof (be32 x ++ rest) = (x, rest) := by
  unfold QoiReadU32 be32
  simp only [QoiReadU8, List.cons_append, List.nil_append, List.headD_cons, List.tail_cons]
  refine Prod.ext (Fin.ext ?_) rfl
  have hx := x.isLt
  simp only [toU8]
  omega

theorem decHeader_encHeader (eof : U8) (width height : U32) (channels colorspace : U8)
    (rest : List U8) :
    decHeader eof (([113, 111, 105, 102] ++ be32 width ++ be32 height ++
        [channels, colorspace]) ++ rest) =
      (rest, some (width, height, channels, colorspace)) := by
  unfold decHeader
  simp only [QoiReadChar, QoiReadU8, List.cons_append, List.nil_append, List.headD_cons,
    List.tail_cons, List.append_assoc]
  simp only [ne_eq, not_true_eq_false, or_self, if_false]
  rw [QoiReadU32_be32]
  simp only []
  rw [QoiReadU32_be32]
  simp only [List.headD_cons, List.tail_cons]

theorem decPadding_ok (eof : U8) (rest : List U8) :
    decPadding eof QOI_PADDING true ([0, 0, 0, 0, 0, 0, 0, 1] ++ rest) = (true, rest) := by
  simp [decPadding, QOI_PADDING, QoiReadU8]

/-- A raw buffer of `n * channels` bytes, `channels` being 3 or 4, is the
concatenation of the bytes of `n` pixels. -/
theorem exists_pixels (channels : U8) (hch : channels = 3 ∨ channels = 4) :
    ∀ (n : Nat) (buf : List U8), buf.length = n * channels.val →
      ∃ ps : List Px, ps.length = n ∧ ps.flatMap (pixBytes channels) = buf ∧
        (channels ≠ 4 → ∀ p ∈ ps, p.a = 255) := by
  intro n
  induction n with
  | zero =>
    intro buf hlen
    have : buf = [] := List.length_eq_zero.mp (by simpa using hlen)
    exact ⟨[], rfl, by simp [this], by simp⟩
  | succ n ih =>
    intro buf hlen
    rcases hch with hc | hc
    · subst hc
      have hv : ((3 : U8).val) = 3 := rfl
      rw [hv] at hlen ih
      match buf, hlen with
      | r :: g :: b :: rest, hlen =>
        obtain ⟨ps, h1, h2, h3⟩ := ih rest (by
          simp only [List.length_cons] at hlen
          omega)
        refine ⟨⟨r, g, b, 255⟩ :: ps, by simp [h1], ?_, ?_⟩
        · simp [List.flatMap_cons, h2, pixBytes]
        · intro hc q hq
          rcases List.mem_cons.mp hq with hq | hq
          · rw [hq]
          · exact h3 hc q hq
      | [], hlen => simp only [List.length_nil] at hlen; omega
      | [_], hlen => simp only [List.length_cons, List.length_nil] at hlen; omega
      | [_, _], hlen => simp only [List.length_cons, List.length_nil] at hlen; omega
    · subst hc
      have hv : ((4 : U8).val) = 4 := rfl
      rw [hv] at hlen ih
      match buf, hlen with
      | r :: g :: b :: a :: rest, hlen =>
        obtain ⟨ps, h1, h2, h3⟩ := ih rest (by
          simp only [List.length_cons] at hlen
          omega)
        refine ⟨⟨r, g, b, a⟩ :: ps, by simp [h1], ?_, ?_⟩
        · simp [List.flatMap_cons, h2, pixBytes]
        · intro hc; exact absurd rfl hc
      | [], hlen => simp only [List.length_nil] at hlen; omega
      | [_], hlen => simp only [List.length_cons, List.length_nil] at hlen; omega
      | [_, _], hlen => simp only [List.length_cons, List.length_nil] at hlen; omega
      | [_, _, _], hlen => simp only [List.length_cons, List.length_nil] at hlen; omega

/-- The encoder step does not look at the sink: it only appends to it. -/
theorem encPixel_out (last : Bool) (p : Px) (run : Nat) (he : History) (pre : Px)
    (inp out : List U8) :
    encPixel last p ⟨run, he, pre, inp, out⟩ =
      { encPixel last p ⟨run, he, pre, inp, []⟩ with
        out := out ++ (encPixel last p ⟨run, he, pre, inp, []⟩).out } := by
  by_cases hp : p = pre
  · by_cases hf : run + 1 = 62 ∨ last = true
    · simp [encPixel_run_flush last p run he pre inp _ hp hf]
    · simp [encPixel_run_keep last p run he pre inp _ hp hf]
  · by_cases hit : he (slotOf p) = p
    · simp [encPixel_hit last p run he pre inp _ hp hit]
    · simp [encPixel_miss last p run he pre inp _ hp hit]

theorem encLoop_out (eof channels : U8) (pxnum : Int) (n : Nat) :
    ∀ (i run : Nat) (he : History) (pre : Px) (inp out : List U8),
      encLoop eof channels pxnum n i ⟨run, he, pre, inp, out⟩ =
        { encLoop eof channels pxnum n i ⟨run, he, pre, inp, []⟩ with
          out := out ++ (encLoop eof channels pxnum n i ⟨run, he, pre, inp, []⟩).out } := by
  induction n with
  | zero => intro i run he pre inp out; simp [encLoop]
  | succ n ih =>
    intro i run he pre inp out
    simp only [encLoop, encIter]
    rw [encPixel_out]
    generalize encPixel (decide ((i : Int) = pxnum - 1)) (encReadPixel eof channels inp).1
      ⟨run, he, pre, (encReadPixel eof channels inp).2, []⟩ = E1
    obtain ⟨run1, he1, pre1, inp1, out1⟩ := E1
    simp only []
    rw [ih (i + 1) run1 he1 pre1 inp1 (out ++ out1), ih (i + 1) run1 he1 pre1 inp1 out1]
    simp

/-- The output of `QoiEncode`: header, operation stream, padding. -/
theorem QoiEncode_out (eof : U8) (width height : U32) (channels colorspace : U8)
    (inp : List U8) :
    (QoiEncode eof width height channels colorspace inp).out =
      ([113, 111, 105, 102] ++ be32 width ++ be32 height ++ [channels, colorspace]) ++
        opStream eof width height channels inp ++ [0, 0, 0, 0, 0, 0, 0, 1] := by
  unfold QoiEncode encBody opStream encInit
  simp only [encPadding_eq]
  rw [encLoop_out, encHeader_eq]
  simp

/-- On a buffer made of the pixels `ps`, `width * height` of them, the decoder
loop decodes the operation stream back to the buffer and stops right behind
it. -/
theorem decLoop_opStream (eof eofD : U8) (width height : U32) (channels : U8)
    (ps : List Px) (erest : List U8)
    (hsize : width.val * height.val < 2147483648)
    (hlen : ps.length = width.val * height.val)
    (hps : channels ≠ 4 → ∀ p ∈ ps, p.a = 255) :
    ∃ (hd1 : History) (px1 : Px), ∀ drest dout : List U8,
      decLoop eofD channels (pxNum width height).toNat
          (decInit (opStream eof width height channels
            (ps.flatMap (pixBytes channels) ++ erest) ++ drest) dout) =
        ⟨0, hd1, px1, drest, dout ++ ps.flatMap (pixBytes channels)⟩ := by
  have hpx := pxNum_of_lt width height hsize
  have hn : (pxNum width height).toNat = ps.length := by rw [hpx, hlen, Int.toNat_ofNat]
  obtain ⟨⟨ops, n, dec, hd1, ho, -, hnn, hdec, -, -, hloop⟩, -, hlast⟩ :=
    sim_loop eof eofD channels (pxNum width height) ps hps 0 0 zeroHistory ⟨0, 0, 0, 255⟩
      erest [] zeroHistory (by decide) (cacheRel_refl _) (Or.inr ⟨rfl, rfl⟩)
  have hrun0 : (encLoop eof channels (pxNum width height) ps.length 0
      ⟨0, zeroHistory, ⟨0, 0, 0, 255⟩, ps.flatMap (pixBytes channels) ++ erest, []⟩).run = 0 := by
    by_cases hnil : ps = []
    · subst hnil; simp [encLoop]
    · exact hlast (by rw [hpx, hlen]; simp) hnil
  rw [hrun0] at hnn hdec
  simp only [List.replicate_zero, List.append_nil, List.nil_append, Nat.add_zero,
    Nat.zero_add] at hnn hdec
  refine ⟨hd1, (encLoop eof channels (pxNum width height) ps.length 0
      ⟨0, zeroHistory, ⟨0, 0, 0, 255⟩, ps.flatMap (pixBytes channels) ++ erest, []⟩).pre,
    fun drest dout => ?_⟩
  have hops : opStream eof width height channels (ps.flatMap (pixBytes channels) ++ erest)
      = ops := by
    unfold opStream encInit
    rw [hn, ho]
    simp
  subst hnn hdec
  rw [hops, hn]
  exact hloop drest dout

/-- Decoding a stream that starts with a well-formed header: the pixel loop runs
on what follows the header, then the padding is read. -/
theorem QoiDecode_header (eof : U8) (w0 h0 : U32) (c0 cs0 : U8) (width height : U32)
    (channels colorspace : U8) (rest : List U8) :
    QoiDecode eof w0 h0 c0 cs0 (([113, 111, 105, 102] ++ be32 width ++ be32 height ++
        [channels, colorspace]) ++ rest) =
      { ret := (decPadding eof QOI_PADDING true (decBody eof width height channels rest).inp).1,
        width := width, height := height, channels := channels, colorspace := colorspace,
        inp := (decPadding eof QOI_PADDING true (decBody eof width height channels rest).inp).2,
        out := (decBody eof width height channels rest).out } := by
  unfold QoiDecode
  rw [decHeader_encHeader]

/-! ## C1: round trip -/

/-- C1: for every width and height with `width * height < 2^31`, every `channels`
in `{3, 4}`, every colorspace byte and every raw pixel buffer of exactly
`width * height * channels` bytes, `QoiEncode` returns `true` and consumes the
buffer, and `QoiDecode` run on the bytes `QoiEncode` wrote returns `true`, sets
the four out-parameters to the encoder's width, height, channels and colorspace,
reads the whole stream and writes a pixel buffer equal to the original one. -/
theorem QoiDecode_QoiEncode_roundtrip (eofE eofD : U8) (width height : U32)
    (channels colorspace : U8) (w0 h0 : U32) (c0 cs0 : U8) (buf : List U8)
    (hsize : width.val * height.val < 2147483648)
    (hch : channels = 3 ∨ channels = 4)
    (hbuf : buf.length = width.val * height.val * channels.val) :
    (QoiEncode eofE width height channels colorspace buf).ret = true ∧
    QoiDecode eofD w0 h0 c0 cs0 (QoiEncode eofE width height channels colorspace buf).out =
      { ret := true, width := width, height := height, channels := channels,
        colorspace := colorspace, inp := [], out := buf } := by
  refine ⟨rfl, ?_⟩
  obtain ⟨ps, hlen, hflat, hps⟩ := exists_pixels channels hch _ buf hbuf
  obtain ⟨hd1, px1, hloop⟩ := decLoop_opStream eofE eofD width height channels ps []
    hsize hlen hps
  rw [List.append_nil, hflat] at hloop
  rw [QoiEncode_out, List.append_assoc, QoiDecode_header]
  unfold decBody
  rw [hloop]
  simp only [decPadding_ok, List.nil_append]
  have := decPadding_ok eofD []
  rw [List.append_nil] at this
  rw [this]

/-- C1, at a 2×1 RGBA image whose two pixels are equal. -/
theorem QoiDecode_QoiEncode_roundtrip_witness :
    (QoiEncode 0 2 1 4 0 [1, 2, 3, 255, 1, 2, 3, 255]).ret = true ∧
    QoiDecode 0 0 0 0 0 (QoiEncode 0 2 1 4 0 [1, 2, 3, 255, 1, 2, 3, 255]).out =
      { ret := true, width := 2, height := 1, channels := 4,
        colorspace := 0, inp := [], out := [1, 2, 3, 255, 1, 2, 3, 255] } :=
  QoiDecode_QoiEncode_roundtrip 0 0 2 1 4 0 0 0 0 0 [1, 2, 3, 255, 1, 2, 3, 255]
    (by decide) (by decide) (by decide)

/-! ## C2: framing of the encoder output -/

/-- C2: for every input, `QoiEncode` returns `true` and its output is the 14
header bytes `'q','o','i','f'`, big-endian width, big-endian height, channels,
colorspace, followed by the operation stream written by the pixel loop, followed
by the 8 bytes `0,0,0,0,0,0,0,1`, which are the last bytes of the output. -/
theorem QoiEncode_framing (eof : U8) (width height : U32) (channels colorspace : U8)
    (inp : List U8) :
    (QoiEncode eof width height channels colorspace inp).ret = true ∧
    (QoiEncode eof width height channels colorspace inp).out =
      [113, 111, 105, 102] ++ be32 width ++ be32 height ++ [channels, colorspace] ++
        opStream eof width height channels inp ++ [0, 0, 0, 0, 0, 0, 0, 1] ∧
    (be32 width).map Fin.val =
      [width.val / 16777216 % 256, width.val / 65536 % 256, width.val / 256 % 256,
        width.val % 256] ∧
    (be32 height).map Fin.val =
      [height.val / 16777216 % 256, height.val / 65536 % 256, height.val / 256 % 256,
        height.val % 256] ∧
    ([113, 111, 105, 102] ++ be32 width ++ be32 height ++ [channels, colorspace]).length = 14 ∧
    (QoiEncode eof width height channels colorspace inp).out.drop
      ((QoiEncode eof width height channels colorspace inp).out.length - 8) =
        [0, 0, 0, 0, 0, 0, 0, 1] := by
  have hbe : ∀ x : U32, (be32 x).map Fin.val =
      [x.val / 16777216 % 256, x.val / 65536 % 256, x.val / 256 % 256, x.val % 256] := by
    intro x
    simp only [be32, List.map_cons, List.map_nil]
    have e1 := toU8_natCast_val (x.val / 16777216)
    have e2 := toU8_natCast_val (x.val / 65536)
    have e3 := toU8_natCast_val (x.val / 256)
    have e4 := toU8_natCast_val x.val
    push_cast at e1 e2 e3
    rw [e1, e2, e3, e4]
  refine ⟨rfl, QoiEncode_out eof width height channels colorspace inp, hbe width, hbe height,
    by simp [be32], ?_⟩
  rw [QoiEncode_out]
  exact List.drop_left' (by simp only [List.length_append, List.length_cons, List.length_nil]; omega)

/-! ## C3: magic mismatch -/

/-- C3: for every input stream whose first four bytes are not exactly
`'q','o','i','f'`, `QoiDecode` returns `false`, writes no byte to the sink, reads
nothing past the four magic bytes, and leaves the width, height, channels and
colorspace out-parameters at the values they had at the call. -/
theorem QoiDecode_magic_mismatch (eof : U8) (w0 h0 : U32) (c0 cs0 : U8) (inp : List U8)
    (hmagic : magicRead eof inp ≠ [113, 111, 105, 102]) :
    QoiDecode eof w0 h0 c0 cs0 inp =
      { ret := false, width := w0, height := h0, channels := c0, colorspace := cs0,
        inp := inp.drop 4, out := [] } := by
  have hdr : decHeader eof inp = (inp.drop 4, none) := by
    unfold decHeader
    rcases inp with _ | ⟨a, _ | ⟨b, _ | ⟨c, _ | ⟨d, rest⟩⟩⟩⟩ <;>
      simp only [magicRead, QoiReadChar, QoiReadU8, List.headD_cons, List.headD_nil,
        List.tail_cons, List.tail_nil, List.drop_nil, List.drop_succ_cons, List.drop_zero,
        List.nil_append, List.cons_append, List.replicate, List.take_succ_cons,
        List.take_zero, List.take_nil, ne_eq, List.cons.injEq, and_true, not_and] at hmagic ⊢ <;>
      rw [if_pos] <;>
      by_contra hcon <;>
      simp only [not_or, Decidable.not_not] at hcon <;>
      obtain ⟨h1, h2, h3, h4⟩ := hcon <;>
      exact hmagic h1 h2 h3 h4
  unfold QoiDecode
  rw [hdr]

/-- C3, at a stream whose fourth byte is `'g'`. -/
theorem QoiDecode_magic_mismatch_witness :
    QoiDecode 0 7 8 9 10 [113, 111, 105, 103, 0, 0, 0, 1, 0, 0, 0, 1, 4, 0] =
      { ret := false, width := 7, height := 8, channels := 9, colorspace := 10,
        inp := [0, 0, 0, 1, 0, 0, 0, 1, 4, 0], out := [] } :=
  QoiDecode_magic_mismatch 0 7 8 9 10 [113, 111, 105, 103, 0, 0, 0, 1, 0, 0, 0, 1, 4, 0]
    (by decide)

/-! ## C5: the number of pixels -/

theorem encPixel_inp (last : Bool) (p : Px) (s : EncState) :
    (encPixel last p s).inp = s.inp := by
  obtain ⟨run, he, pre, inp, out⟩ := s
  by_cases hp : p = pre
  · by_cases hf : run + 1 = 62 ∨ last = true
    · rw [encPixel_run_flush last p run he pre inp _ hp hf]
    · rw [encPixel_run_keep last p run he pre inp _ hp hf]
  · by_cases hit : he (slotOf p) = p
    · rw [encPixel_hit last p run he pre inp _ hp hit]
    · rw [encPixel_miss last p run he pre inp _ hp hit]

theorem encReadPixel_snd (eof channels : U8) (inp : List U8) :
    (encReadPixel eof channels inp).2 = inp.drop (if channels = 4 then 4 else 3) := by
  unfold encReadPixel
  by_cases hc : channels = 4
  · simp only [hc, if_true, QoiReadU8]
    rcases inp with _ | ⟨a, _ | ⟨b, _ | ⟨c, _ | ⟨d, rest⟩⟩⟩⟩ <;> simp
  · simp only [hc, if_false, QoiReadU8]
    rcases inp with _ | ⟨a, _ | ⟨b, _ | ⟨c, rest⟩⟩⟩ <;> simp

/-- Each iteration of the encoder loop reads the bytes of one pixel. -/
theorem encLoop_inp (eof channels : U8) (pxnum : Int) (n : Nat) :
    ∀ (i : Nat) (s : EncState),
      (encLoop eof channels pxnum n i s).inp =
        s.inp.drop (n * (if channels = 4 then 4 else 3)) := by
  induction n with
  | zero => intro i s; simp [encLoop]
  | succ n ih =>
    intro i s
    simp only [encLoop]
    rw [ih]
    unfold encIter
    simp only []
    rw [encPixel_inp]
    simp only []
    rw [encReadPixel_snd, List.drop_drop]
    congr 1
    rw [Nat.succ_mul]; omega

theorem decOp_out (eof : U8) (s : DecState) : (decOp eof s).out = s.out := by
  unfold decOp
  simp only []
  repeat' split
  all_goals rfl

/-- Each iteration of the decoder loop writes the bytes of one pixel. -/
theorem decLoop_out_length (eof channels : U8) (n : Nat) :
    ∀ s : DecState, (decLoop eof channels n s).out.length =
      s.out.length + n * (if channels = 4 then 4 else 3) := by
  induction n with
  | zero => intro s; simp [decLoop]
  | succ n ih =>
    intro s
    simp only [decLoop]
    rw [ih]
    have hstep : (decIter eof channels s).out.length =
        s.out.length + (if channels = 4 then 4 else 3) := by
      unfold decIter
      simp only [decEmit_eq, List.length_append]
      by_cases hr : s.run > 0
      · simp only [hr, if_true]
        unfold pixBytes; split <;> rfl
      · simp only [hr, if_false, decOp_out]
        unfold pixBytes; split <;> rfl
    rw [hstep, Nat.succ_mul]; omega

/-- C5, as the code has it: for every width and height with
`width * height < 2^31`, `px_num` is `width * height`; the pixel loop of the
encoder reads exactly `width * height` pixels from its source (4 bytes each when
`channels == 4`, else 3 bytes each), and the pixel loop of the decoder, on every
stream with that header, writes exactly `width * height` pixels, which is
`width * height * channels` bytes when `channels` is 3 or 4. -/
theorem pixel_count_of_lt (eofE eofD : U8) (width height : U32) (channels colorspace : U8)
    (w0 h0 : U32) (c0 cs0 : U8) (inp rest : List U8)
    (hsize : width.val * height.val < 2147483648) :
    (pxNum width height).toNat = width.val * height.val ∧
    (QoiEncode eofE width height channels colorspace inp).inp =
      inp.drop (width.val * height.val * (if channels = 4 then 4 else 3)) ∧
    (QoiDecode eofD w0 h0 c0 cs0 (([113, 111, 105, 102] ++ be32 width ++ be32 height ++
        [channels, colorspace]) ++ rest)).out.length =
      width.val * height.val * (if channels = 4 then 4 else 3) ∧
    (channels = 3 ∨ channels = 4 →
      (QoiDecode eofD w0 h0 c0 cs0 (([113, 111, 105, 102] ++ be32 width ++ be32 height ++
        [channels, colorspace]) ++ rest)).out.length =
      width.val * height.val * channels.val) := by
  have hn : (pxNum width height).toNat = width.val * height.val := by
    rw [pxNum_of_lt width height hsize, Int.toNat_ofNat]
  have hdec : (QoiDecode eofD w0 h0 c0 cs0 (([113, 111, 105, 102] ++ be32 width ++
      be32 height ++ [channels, colorspace]) ++ rest)).out.length =
      width.val * height.val * (if channels = 4 then 4 else 3) := by
    rw [QoiDecode_header]
    simp only [decBody]
    rw [decLoop_out_length, hn]
    simp [decInit]
  refine ⟨hn, ?_, hdec, ?_⟩
  · simp only [QoiEncode, encBody]
    rw [encLoop_inp, hn]
    rfl
  · intro hch
    rw [hdec]
    rcases hch with hc | hc <;> subst hc <;> rfl

/-- C5 as amended, at a 3×2 RGB image. -/
theorem pixel_count_of_lt_witness :
    (pxNum 3 2).toNat = 3 * 2 ∧
    (QoiEncode 0 3 2 3 0 (List.replicate 20 7)).inp =
      (List.replicate 20 7).drop (3 * 2 * (if (3 : U8) = 4 then 4 else 3)) ∧
    (QoiDecode 0 0 0 0 0 (([113, 111, 105, 102] ++ be32 3 ++ be32 2 ++
        [3, 0]) ++ [254, 1, 2, 3])).out.length =
      3 * 2 * (if (3 : U8) = 4 then 4 else 3) ∧
    ((3 : U8) = 3 ∨ (3 : U8) = 4 →
      (QoiDecode 0 0 0 0 0 (([113, 111, 105, 102] ++ be32 3 ++ be32 2 ++
        [3, 0]) ++ [254, 1, 2, 3])).out.length = 3 * 2 * (3 : U8).val) :=
  pixel_count_of_lt 0 0 3 2 3 0 0 0 0 0 (List.replicate 20 7) [254, 1, 2, 3] (by decide)

/-- C5 as stated fails at `width = height = 65536`: the product `2^32` wraps to
`px_num = 0`, so the decoder writes no byte at all instead of
`65536 * 65536 * 4` bytes, and the encoder reads no pixel and writes an empty
operation stream. -/
theorem pixel_count_counterexample :
    pxNum 65536 65536 = 0 ∧
    ¬ ((QoiDecode 0 0 0 0 0 (([113, 111, 105, 102] ++ be32 65536 ++ be32 65536 ++
        [4, 0]) ++ [0, 0, 0, 0, 0, 0, 0, 1])).out.length = 65536 * 65536 * 4) ∧
    (QoiDecode 0 0 0 0 0 (([113, 111, 105, 102] ++ be32 65536 ++ be32 65536 ++
        [4, 0]) ++ [0, 0, 0, 0, 0, 0, 0, 1])).out = [] ∧
    (QoiEncode 0 65536 65536 4 0 [1, 2, 3, 255]).inp = [1, 2, 3, 255] ∧
    opStream 0 65536 65536 4 [1, 2, 3, 255] = [] := by
  decide

/-! ## C8, C9, C10: which operation the encoder chooses -/

theorem diffByte_raw : ∀ x < 4, ∀ y < 4, ∀ z < 4,
    (64 ||| (x <<< 4) ||| (y <<< 2) ||| z : Nat) = 64 + 16 * x + 4 * y + z := by
  decide

theorem lumaByte1_raw : ∀ x < 64, (128 ||| x : Nat) = 128 + x := by
  decide

theorem lumaByte2_raw : ∀ x < 16, ∀ y < 16, ((x <<< 4) ||| y : Nat) = 16 * x + y := by
  decide

theorem encOp_rgba (pre p : Px) (ha : p.a ≠ pre.a) :
    encOp pre p = [255, p.r, p.g, p.b, p.a] := by
  unfold encOp
  simp only []
  rw [if_pos]
  · rfl
  · intro h
    exact ha (Fin.ext (by omega))

/-- C8: for every encoder state and every pixel whose alpha differs from the
previous pixel's alpha, the operation `QoiEncode` writes for the pixel, after the
byte of any pending run, is never a diff or luma operation: it is the index byte
of `hash(pixel)` when the pixel equals the cache slot at `hash(pixel)`, and
exactly the five bytes `0xff, r, g, b, a` when it does not, whatever the deltas
of `r, g, b` are. -/
theorem encPixel_alpha_changed (last : Bool) (p : Px) (run : Nat) (he : History) (pre : Px)
    (inp out : List U8) (ha : p.a ≠ pre.a) :
    ∃ (t : U8) (rest : List U8),
      (encPixel last p ⟨run, he, pre, inp, out⟩).out = out ++ flushOps run ++ t :: rest ∧
      t.val &&& 0xc0 ≠ 0x40 ∧ t.val &&& 0xc0 ≠ 0x80 ∧
      (he (slotOf p) = p → t.val = (slotOf p).val ∧ rest = []) ∧
      (he (slotOf p) ≠ p → t :: rest = [0xff, p.r, p.g, p.b, p.a]) := by
  have hp : p ≠ pre := fun h => ha (by rw [h])
  by_cases hit : he (slotOf p) = p
  · obtain ⟨h1, h2, h3, h4, h5⟩ := indexByte_fields (slotOf p).val (slotOf p).isLt
    refine ⟨toU8 ((QOI_OP_INDEX_TAG ||| (slotOf p).val : Nat) : Int), [], ?_, ?_, ?_, ?_, ?_⟩
    · rw [encPixel_hit last p run he pre inp out hp hit]
    · rw [h3]; decide
    · rw [h3]; decide
    · intro _; exact ⟨h5, rfl⟩
    · intro h; exact absurd hit h
  · refine ⟨0xff, [p.r, p.g, p.b, p.a], ?_, by decide, by decide, ?_, ?_⟩
    · rw [encPixel_miss last p run he pre inp out hp hit, encOp_rgba pre p ha]
    · intro h; exact absurd h hit
    · intro _; rfl

/-- C8, at a pixel whose `r, g, b` deltas are all `1` and whose alpha changes,
from a state with a pending run of 3 pixels. -/
theorem encPixel_alpha_changed_witness :
    ∃ (t : U8) (rest : List U8),
      (encPixel false ⟨11, 11, 11, 254⟩ ⟨3, zeroHistory, ⟨10, 10, 10, 255⟩, [], []⟩).out =
        [] ++ flushOps 3 ++ t :: rest ∧
      t.val &&& 0xc0 ≠ 0x40 ∧ t.val &&& 0xc0 ≠ 0x80 ∧
      (zeroHistory (slotOf ⟨11, 11, 11, 254⟩) = ⟨11, 11, 11, 254⟩ →
        t.val = (slotOf ⟨11, 11, 11, 254⟩).val ∧ rest = []) ∧
      (zeroHistory (slotOf ⟨11, 11, 11, 254⟩) ≠ ⟨11, 11, 11, 254⟩ →
        t :: rest = [0xff, 11, 11, 11, 254]) :=
  encPixel_alpha_changed false ⟨11, 11, 11, 254⟩ 3 zeroHistory ⟨10, 10, 10, 255⟩ [] []
    (by decide)

/-- C9: for every encoder state and every pixel that differs from the previous
pixel, is not a cache hit, has the alpha of the previous pixel and whose integer
deltas `dr, dg, db` against the previous pixel all lie in `[-2, 1]`, `QoiEncode`
writes for the pixel, after the byte of any pending run, exactly one byte, equal
to `0x40 | ((dr+2) << 4) | ((dg+2) << 2) | (db+2)`, that is
`64 + 16 (dr+2) + 4 (dg+2) + (db+2)`; for `dr = -2, dg = 1, db = -2` the byte is
`0x4c`. -/
theorem encPixel_diff (last : Bool) (p : Px) (run : Nat) (he : History) (pre : Px)
    (inp out : List U8) (hne : p ≠ pre) (hmiss : he (slotOf p) ≠ p) (ha : p.a = pre.a)
    (hr : -2 ≤ (p.r.val : Int) - pre.r.val ∧ (p.r.val : Int) - pre.r.val ≤ 1)
    (hg : -2 ≤ (p.g.val : Int) - pre.g.val ∧ (p.g.val : Int) - pre.g.val ≤ 1)
    (hb : -2 ≤ (p.b.val : Int) - pre.b.val ∧ (p.b.val : Int) - pre.b.val ≤ 1) :
    (∃ t : U8,
      (encPixel last p ⟨run, he, pre, inp, out⟩).out = out ++ flushOps run ++ [t] ∧
      t.val = 0x40 ||| ((((p.r.val : Int) - pre.r.val + 2).toNat) <<< 4)
        ||| ((((p.g.val : Int) - pre.g.val + 2).toNat) <<< 2)
        ||| (((p.b.val : Int) - pre.b.val + 2).toNat) ∧
      (t.val : Int) = 64 + 16 * ((p.r.val : Int) - pre.r.val + 2)
        + 4 * ((p.g.val : Int) - pre.g.val + 2) + ((p.b.val : Int) - pre.b.val + 2)) ∧
    (encPixel false ⟨8, 11, 8, 255⟩ ⟨0, zeroHistory, ⟨10, 10, 10, 255⟩, [], []⟩).out = [0x4c] := by
  refine ⟨?_, by decide⟩
  obtain ⟨x, hx⟩ : ∃ x : Nat, ((p.r.val : Int) - pre.r.val + 2).toNat = x := ⟨_, rfl⟩
  obtain ⟨y, hy⟩ : ∃ y : Nat, ((p.g.val : Int) - pre.g.val + 2).toNat = y := ⟨_, rfl⟩
  obtain ⟨z, hz⟩ : ∃ z : Nat, ((p.b.val : Int) - pre.b.val + 2).toNat = z := ⟨_, rfl⟩
  have hx4 : x < 4 := by omega
  have hy4 : y < 4 := by omega
  have hz4 : z < 4 := by omega
  obtain ⟨-, -, -, -, -, -, h7⟩ := diffByte_fields x hx4 y hy4 z hz4
  have hraw := diffByte_raw x hx4 y hy4 z hz4
  have hop : encOp pre p = [toU8 ((64 ||| (x <<< 4) ||| (y <<< 2) ||| z : Nat) : Int)] := by
    unfold encOp
    simp only []
    rw [if_neg (by simp only [ne_eq, Decidable.not_not]; rw [ha]; omega),
      if_pos (by omega), hx, hy, hz]
  refine ⟨toU8 ((64 ||| (x <<< 4) ||| (y <<< 2) ||| z : Nat) : Int), ?_, ?_, ?_⟩
  · rw [encPixel_miss last p run he pre inp out hne hmiss, hop]
  · rw [hx, hy, hz, h7, hraw]
  · rw [h7]; push_cast; omega

/-- C9, at the boundary deltas `dr = -2, dg = 1, db = -2`. -/
theorem encPixel_diff_witness :
    (∃ t : U8,
      (encPixel false ⟨8, 11, 8, 255⟩ ⟨0, zeroHistory, ⟨10, 10, 10, 255⟩, [], []⟩).out =
        [] ++ flushOps 0 ++ [t] ∧
      t.val = 0x40 ||| (((((8 : U8).val : Int) - (10 : U8).val + 2).toNat) <<< 4)
        ||| (((((11 : U8).val : Int) - (10 : U8).val + 2).toNat) <<< 2)
        ||| ((((8 : U8).val : Int) - (10 : U8).val + 2).toNat) ∧
      (t.val : Int) = 64 + 16 * (((8 : U8).val : Int) - (10 : U8).val + 2)
        + 4 * (((11 : U8).val : Int) - (10 : U8).val + 2)
        + (((8 : U8).val : Int) - (10 : U8).val + 2)) ∧
    (encPixel false ⟨8, 11, 8, 255⟩ ⟨0, zeroHistory, ⟨10, 10, 10, 255⟩, [], []⟩).out = [0x4c] :=
  encPixel_diff false ⟨8, 11, 8, 255⟩ 0 zeroHistory ⟨10, 10, 10, 255⟩ [] []
    (by decide) (by decide) (by decide) (by decide) (by decide) (by decide)

/-- C10: for every encoder state and every pixel that is not a run extension,
not a cache hit, has unchanged alpha, does not qualify for diff (some delta is
outside `[-2, 1]`) and has `dg` in `[-32, 31]` and `dr - dg`, `db - dg` in
`[-8, 7]`, `QoiEncode` writes for the pixel, after the byte of any pending run,
exactly the two bytes `0x80 | (dg+32)` and `((dr-dg+8) << 4) | (db-dg+8)`, that
is `128 + (dg+32)` and `16 (dr-dg+8) + (db-dg+8)`. -/
theorem encPixel_luma (last : Bool) (p : Px) (run : Nat) (he : History) (pre : Px)
    (inp out : List U8) (hne : p ≠ pre) (hmiss : he (slotOf p) ≠ p) (ha : p.a = pre.a)
    (hnd : ¬ (-2 ≤ (p.r.val : Int) - pre.r.val ∧ (p.r.val : Int) - pre.r.val ≤ 1 ∧
      -2 ≤ (p.g.val : Int) - pre.g.val ∧ (p.g.val : Int) - pre.g.val ≤ 1 ∧
      -2 ≤ (p.b.val : Int) - pre.b.val ∧ (p.b.val : Int) - pre.b.val ≤ 1))
    (hg : -32 ≤ (p.g.val : Int) - pre.g.val ∧ (p.g.val : Int) - pre.g.val ≤ 31)
    (hr : -8 ≤ ((p.r.val : Int) - pre.r.val) - ((p.g.val : Int) - pre.g.val) ∧
      ((p.r.val : Int) - pre.r.val) - ((p.g.val : Int) - pre.g.val) ≤ 7)
    (hb : -8 ≤ ((p.b.val : Int) - pre.b.val) - ((p.g.val : Int) - pre.g.val) ∧
      ((p.b.val : Int) - pre.b.val) - ((p.g.val : Int) - pre.g.val) ≤ 7) :
    ∃ b1 b2 : U8,
      (encPixel last p ⟨run, he, pre, inp, out⟩).out = out ++ flushOps run ++ [b1, b2] ∧
      b1.val = 0x80 ||| ((p.g.val : Int) - pre.g.val + 32).toNat ∧
      b2.val = ((((p.r.val : Int) - pre.r.val) - ((p.g.val : Int) - pre.g.val) + 8).toNat <<< 4)
        ||| ((((p.b.val : Int) - pre.b.val) - ((p.g.val : Int) - pre.g.val) + 8).toNat) ∧
      (b1.val : Int) = 128 + ((p.g.val : Int) - pre.g.val + 32) ∧
      (b2.val : Int) = 16 * (((p.r.val : Int) - pre.r.val) - ((p.g.val : Int) - pre.g.val) + 8)
        + (((p.b.val : Int) - pre.b.val) - ((p.g.val : Int) - pre.g.val) + 8) := by
  obtain ⟨x, hx⟩ : ∃ x : Nat, ((p.g.val : Int) - pre.g.val + 32).toNat = x := ⟨_, rfl⟩
  obtain ⟨y, hy⟩ : ∃ y : Nat,
    (((p.r.val : Int) - pre.r.val) - ((p.g.val : Int) - pre.g.val) + 8).toNat = y := ⟨_, rfl⟩
  obtain ⟨z, hz⟩ : ∃ z : Nat,
    (((p.b.val : Int) - pre.b.val) - ((p.g.val : Int) - pre.g.val) + 8).toNat = z := ⟨_, rfl⟩
  have hx64 : x < 64 := by omega
  have hy16 : y < 16 := by omega
  have hz16 : z < 16 := by omega
  obtain ⟨-, -, -, -, h1⟩ := lumaByte1_fields x hx64
  obtain ⟨-, -, h2⟩ := lumaByte2_fields y hy16 z hz16
  have hraw1 := lumaByte1_raw x hx64
  have hraw2 := lumaByte2_raw y hy16 z hz16
  have hop : encOp pre p =
      [toU8 ((128 ||| x : Nat) : Int), toU8 (((y <<< 4) ||| z : Nat) : Int)] := by
    unfold encOp
    simp only []
    rw [if_neg (by simp only [ne_eq, Decidable.not_not]; rw [ha]; omega),
      if_neg (by omega), if_pos (by omega), hx, hy, hz]
  refine ⟨toU8 ((128 ||| x : Nat) : Int), toU8 (((y <<< 4) ||| z : Nat) : Int),
    ?_, ?_, ?_, ?_, ?_⟩
  · rw [encPixel_miss last p run he pre inp out hne hmiss, hop]
  · rw [hx, h1, hraw1]
  · rw [hy, hz, h2, hraw2]
  · rw [h1]; push_cast; omega
  · rw [h2]; push_cast; omega

/-- C10, at the deltas `dr = 17, dg = 20, db = 25` with a pending run of one
pixel: the bytes are `0x80 | 52 = 0xb4` and `(5 << 4) | 13 = 0x5d`. -/
theorem encPixel_luma_witness :
    ∃ b1 b2 : U8,
      (encPixel false ⟨117, 120, 125, 255⟩ ⟨1, zeroHistory, ⟨100, 100, 100, 255⟩, [], []⟩).out =
        [] ++ flushOps 1 ++ [b1, b2] ∧
      b1.val = 0x80 ||| (((120 : U8).val : Int) - (100 : U8).val + 32).toNat ∧
      b2.val = (((((117 : U8).val : Int) - (100 : U8).val) -
          (((120 : U8).val : Int) - (100 : U8).val) + 8).toNat <<< 4)
        ||| (((((125 : U8).val : Int) - (100 : U8).val) -
          (((120 : U8).val : Int) - (100 : U8).val) + 8).toNat) ∧
      (b1.val : Int) = 128 + (((120 : U8).val : Int) - (100 : U8).val + 32) ∧
      (b2.val : Int) = 16 * ((((117 : U8).val : Int) - (100 : U8).val) -
          (((120 : U8).val : Int) - (100 : U8).val) + 8)
        + ((((125 : U8).val : Int) - (100 : U8).val) -
          (((120 : U8).val : Int) - (100 : U8).val) + 8) :=
  encPixel_luma false ⟨117, 120, 125, 255⟩ 1 zeroHistory ⟨100, 100, 100, 255⟩ [] []
    (by decide) (by decide) (by decide) (by decide) (by decide) (by decide) (by decide)

/-! ## C6: images of identical pixels -/

theorem runLens_length (t : Nat) : (runLens t).length = (t + 61) / 62 := by
  unfold runLens
  split <;> simp <;> omega

theorem runLens_sum (t : Nat) : (runLens t).sum = t := by
  unfold runLens
  split <;> simp <;> omega

theorem runLens_mem (t l : Nat) (hl : l ∈ runLens t) : 1 ≤ l ∧ l ≤ 62 := by
  unfold runLens at hl
  rcases List.mem_append.mp hl with h | h
  · have := (List.mem_replicate.mp h).2
    omega
  · split at h
    · simp at h
    · have := List.mem_singleton.mp h
      omega

theorem runLens_add_62 (t : Nat) : runLens (t + 62) = 62 :: runLens t := by
  unfold runLens
  have h1 : (t + 62) / 62 = t / 62 + 1 := by omega
  have h2 : (t + 62) % 62 = t % 62 := by omega
  rw [h1, h2, List.replicate_succ, List.cons_append]

theorem runLens_small (t : Nat) (h0 : 0 < t) (h1 : t ≤ 62) : runLens t = [t] := by
  by_cases h62 : t = 62
  · subst h62; rfl
  · unfold runLens
    have h2 : t / 62 = 0 := by omega
    have h3 : t % 62 = t := by omega
    rw [h2, h3, if_neg (by omega)]
    rfl

/-- The encoder loop over `k` pixels equal to the previous pixel, up to the end
of the image, with a run of `r` pixels pending: it writes the run bytes of
`r + k` pixels and leaves the cache alone. -/
theorem encLoop_uniform (eof channels : U8) (pxnum : Int) (p : Px)
    (hp : channels ≠ 4 → p.a = 255) (k : Nat) :
    ∀ (r i : Nat) (he : History) (erest out : List U8),
      r < 62 → (i : Int) + k = pxnum → (k = 0 → r = 0) →
      encLoop eof channels pxnum k i
          ⟨r, he, p, (List.replicate k p).flatMap (pixBytes channels) ++ erest, out⟩ =
        ⟨0, he, p, erest, out ++ (runLens (r + k)).map runByte⟩ := by
  induction k with
  | zero =>
    intro r i he erest out _ _ h0
    rw [h0 rfl]
    simp [encLoop, runLens]
  | succ k ih =>
    intro r i he erest out hr hi _
    have hiter : encIter eof channels pxnum i
        ⟨r, he, p, (List.replicate (k + 1) p).flatMap (pixBytes channels) ++ erest, out⟩ =
        encPixel (decide ((i : Int) = pxnum - 1)) p
          ⟨r, he, p, (List.replicate k p).flatMap (pixBytes channels) ++ erest, out⟩ := by
      unfold encIter
      simp only [List.replicate_succ, List.flatMap_cons, List.append_assoc]
      rw [encReadPixel_pix eof channels p _ hp]
    simp only [encLoop]
    rw [hiter]
    by_cases hf : r + 1 = 62 ∨ decide ((i : Int) = pxnum - 1) = true
    · rw [encPixel_run_flush _ p r he p _ out rfl hf]
      rcases hf with hf | hf
      · rw [ih 0 (i + 1) he erest _ (by omega) (by push_cast at hi ⊢; omega) (fun _ => rfl)]
        have : r + (k + 1) = k + 62 := by omega
        rw [this, runLens_add_62, hf]
        simp
      · have hk : k = 0 := by
          simp only [decide_eq_true_eq] at hf
          push_cast at hi
          omega
        subst hk
        simp only [encLoop, List.replicate_zero, List.flatMap_nil, List.nil_append]
        rw [runLens_small (r + (0 + 1)) (by omega) (by omega)]
        simp
    · rw [encPixel_run_keep _ p r he p _ out rfl hf]
      have hk : k ≠ 0 := by
        intro hk
        apply hf
        right
        simp only [decide_eq_true_eq]
        push_cast at hi
        omega
      rw [ih (r + 1) (i + 1) he erest out (by omega) (by push_cast at hi ⊢; omega)
        (fun h => absurd h hk)]
      have : r + 1 + k = r + (k + 1) := by omega
      rw [this]

theorem runByte_raw : ∀ m < 62, (0xc0 ||| m : Nat) = 192 + m := by
  decide

/-- The first byte of the operation written for a pixel that is not a cache hit
is not a run byte: it is below `0xc0`, or one of the literal tags. -/
theorem encOp_head (pre p : Px) :
    ∃ (t : U8) (rest : List U8), encOp pre p = t :: rest ∧ (t.val < 192 ∨ 254 ≤ t.val) := by
  unfold encOp
  simp only []
  split
  · exact ⟨_, _, rfl, Or.inr (by decide)⟩
  · split
    · rename_i hd
      obtain ⟨x, hx⟩ : ∃ x : Nat, ((p.r.val : Int) - pre.r.val + 2).toNat = x := ⟨_, rfl⟩
      obtain ⟨y, hy⟩ : ∃ y : Nat, ((p.g.val : Int) - pre.g.val + 2).toNat = y := ⟨_, rfl⟩
      obtain ⟨z, hz⟩ : ∃ z : Nat, ((p.b.val : Int) - pre.b.val + 2).toNat = z := ⟨_, rfl⟩
      have hx4 : x < 4 := by omega
      have hy4 : y < 4 := by omega
      have hz4 : z < 4 := by omega
      obtain ⟨-, -, -, -, -, -, h7⟩ := diffByte_fields x hx4 y hy4 z hz4
      rw [hx, hy, hz]
      exact ⟨_, _, rfl, Or.inl (by rw [h7]; omega)⟩
    · split
      · rename_i hd hl
        obtain ⟨x, hx⟩ : ∃ x : Nat, ((p.g.val : Int) - pre.g.val + 32).toNat = x := ⟨_, rfl⟩
        have hx64 : x < 64 := by omega
        obtain ⟨-, -, -, -, h1⟩ := lumaByte1_fields x hx64
        rw [hx]
        exact ⟨_, _, rfl, Or.inl (by rw [h1]; omega)⟩
      · exact ⟨_, _, rfl, Or.inr (by decide)⟩

/-- C6, as the code has it: for every `N > 62` and every pixel value `p`, the
operation stream `QoiEncode` writes for an image of `N` pixels all equal to `p`
is, when `p` is the initial previous pixel `(0,0,0,255)`, exactly `ceil(N/62)`
run operations (bytes `0xc0 | (len-1)`) whose lengths sum to `N`; for every other
`p` it is one operation that is not a run (the index byte `0` for `(0,0,0,0)`,
else the literal, diff or luma operation against `(0,0,0,255)`) followed by
exactly `ceil((N-1)/62)` run operations whose lengths sum to `N - 1`. -/
theorem opStream_uniform (eof : U8) (width height : U32) (channels : U8) (p : Px)
    (erest : List U8) (N : Nat) (hN : 62 < N) (hwh : width.val * height.val = N)
    (hsize : N < 2147483648) (hp : channels ≠ 4 → p.a = 255) :
    (p = ⟨0, 0, 0, 255⟩ →
      opStream eof width height channels
        ((List.replicate N p).flatMap (pixBytes channels) ++ erest) =
          (runLens N).map runByte) ∧
    (p ≠ ⟨0, 0, 0, 255⟩ → ∃ (t : U8) (rest : List U8),
      (t.val < 192 ∨ 254 ≤ t.val) ∧
      t :: rest = (if p = ⟨0, 0, 0, 0⟩ then [0] else encOp ⟨0, 0, 0, 255⟩ p) ∧
      opStream eof width height channels
        ((List.replicate N p).flatMap (pixBytes channels) ++ erest) =
          t :: rest ++ (runLens (N - 1)).map runByte) ∧
    (runLens N).length = (N + 61) / 62 ∧ (runLens N).sum = N ∧
    (runLens (N - 1)).length = (N - 1 + 61) / 62 ∧ (runLens (N - 1)).sum = N - 1 ∧
    (∀ t l : Nat, l ∈ runLens t → 1 ≤ l ∧ l ≤ 62 ∧ (runByte l).val = 0xc0 ||| (l - 1)) := by
  have hpx : pxNum width height = (N : Int) := by
    rw [pxNum_of_lt width height (by omega), hwh]
  have hn : (pxNum width height).toNat = N := by rw [hpx, Int.toNat_ofNat]
  refine ⟨?_, ?_, runLens_length N, runLens_sum N, runLens_length (N - 1),
    runLens_sum (N - 1), ?_⟩
  · intro hp0
    subst hp0
    unfold opStream encInit
    rw [hn, encLoop_uniform eof channels (pxNum width height) _ hp N 0 0 zeroHistory erest []
      (by decide) (by rw [hpx]; simp) (by omega)]
    simp
  · intro hp0
    obtain ⟨k, hk⟩ : ∃ k, N = k + 1 := ⟨N - 1, by omega⟩
    subst hk
    have hiter : encIter eof channels (pxNum width height) 0
        ⟨0, zeroHistory, ⟨0, 0, 0, 255⟩,
          (List.replicate (k + 1) p).flatMap (pixBytes channels) ++ erest, []⟩ =
        encPixel (decide (((0 : Nat) : Int) = pxNum width height - 1)) p
          ⟨0, zeroHistory, ⟨0, 0, 0, 255⟩,
            (List.replicate k p).flatMap (pixBytes channels) ++ erest, []⟩ := by
      unfold encIter
      simp only [List.replicate_succ, List.flatMap_cons, List.append_assoc]
      rw [encReadPixel_pix eof channels p _ hp]
    have hi1 : ((0 + 1 : Nat) : Int) + (k : Nat) = pxNum width height := by
      rw [hpx]; push_cast; omega
    have hk0 : k = 0 → 0 = 0 := fun _ => rfl
    unfold opStream encInit
    rw [hn]
    simp only [encLoop]
    rw [hiter, Nat.add_sub_cancel]
    by_cases hz : p = ⟨0, 0, 0, 0⟩
    · have hit : zeroHistory (slotOf p) = p := by rw [hz]; rfl
      rw [encPixel_hit _ p 0 zeroHistory _ _ [] hp0 hit,
        encLoop_uniform eof channels (pxNum width height) p hp k 0 (0 + 1) _ erest _
          (by decide) hi1 hk0]
      refine ⟨0, [], Or.inl (by decide), by rw [if_pos hz], ?_⟩
      simp only [Nat.zero_add]
      rw [hz]
      rfl
    · have hmiss : zeroHistory (slotOf p) ≠ p := fun h => hz (by rw [← h]; rfl)
      obtain ⟨t, rest, hop, ht⟩ := encOp_head ⟨0, 0, 0, 255⟩ p
      rw [encPixel_miss _ p 0 zeroHistory _ _ [] hp0 hmiss,
        encLoop_uniform eof channels (pxNum width height) p hp k 0 (0 + 1) _ erest _
          (by decide) hi1 hk0]
      refine ⟨t, rest, ht, by rw [if_neg hz, hop], ?_⟩
      simp only [Nat.zero_add]
      rw [hop]
      rfl
  · intro t l hl
    obtain ⟨h1, h2⟩ := runLens_mem t l hl
    refine ⟨h1, h2, ?_⟩
    obtain ⟨m, hm⟩ : ∃ m, l = m + 1 := ⟨l - 1, by omega⟩
    subst hm
    obtain ⟨-, -, -, -, h5⟩ := runByte_fields m (by omega)
    rw [h5, Nat.add_sub_cancel, runByte_raw m (by omega)]

/-- C6 as amended, at 63 pixels `(1,1,1,255)` in four channels. -/
theorem opStream_uniform_witness :
    ((⟨1, 1, 1, 255⟩ : Px) = ⟨0, 0, 0, 255⟩ →
      opStream 0 63 1 4
        ((List.replicate 63 (⟨1, 1, 1, 255⟩ : Px)).flatMap (pixBytes 4) ++ []) =
          (runLens 63).map runByte) ∧
    ((⟨1, 1, 1, 255⟩ : Px) ≠ ⟨0, 0, 0, 255⟩ → ∃ (t : U8) (rest : List U8),
      (t.val < 192 ∨ 254 ≤ t.val) ∧
      t :: rest = (if (⟨1, 1, 1, 255⟩ : Px) = ⟨0, 0, 0, 0⟩ then [0]
        else encOp ⟨0, 0, 0, 255⟩ ⟨1, 1, 1, 255⟩) ∧
      opStream 0 63 1 4
        ((List.replicate 63 (⟨1, 1, 1, 255⟩ : Px)).flatMap (pixBytes 4) ++ []) =
          t :: rest ++ (runLens (63 - 1)).map runByte) ∧
    (runLens 63).length = (63 + 61) / 62 ∧ (runLens 63).sum = 63 ∧
    (runLens (63 - 1)).length = (63 - 1 + 61) / 62 ∧ (runLens (63 - 1)).sum = 63 - 1 ∧
    (∀ t l : Nat, l ∈ runLens t → 1 ≤ l ∧ l ≤ 62 ∧ (runByte l).val = 0xc0 ||| (l - 1)) :=
  opStream_uniform 0 63 1 4 ⟨1, 1, 1, 255⟩ [] 63 (by decide) (by decide) (by decide)
    (by decide)

set_option maxRecDepth 100000 in
/-- C6 as stated fails at 63 pixels `(1,1,1,255)`: the operation stream is the
diff byte `0x7f` followed by one run byte of length 62, so it is not made of
`ceil(63/62) = 2` run operations, and its run lengths sum to 62, not 63. -/
theorem opStream_uniform_counterexample :
    opStream 0 63 1 4 ((List.replicate 63 (⟨1, 1, 1, 255⟩ : Px)).flatMap (pixBytes 4)) =
      [0x7f, 0xfd] ∧
    ¬ (∀ b ∈ opStream 0 63 1 4 ((List.replicate 63 (⟨1, 1, 1, 255⟩ : Px)).flatMap (pixBytes 4)),
        b.val &&& 0xc0 = 0xc0) ∧
    (((opStream 0 63 1 4 ((List.replicate 63 (⟨1, 1, 1, 255⟩ : Px)).flatMap (pixBytes 4))).filter
        (fun b => b.val &&& 0xc0 = 0xc0)).map (fun b => (b.val &&& 0x3f) + 1)).sum = 62 := by
  decide

/-! ## C7: the two caches after a run of the initial pixel -/

/-- C7 fails on the code at the 1×1 RGBA image whose pixel is `(0,0,0,255)`:
after the single pixel the cache of the encoder is still all zero, while the
decoder, which writes the cache after a run tag as well, holds `(0,0,0,255)` in
slot 53. -/
theorem cache_differs_after_initial_run :
    opStream 0 1 1 4 [0, 0, 0, 255] = [0xc0] ∧
    (encBody 0 1 1 4 0 [0, 0, 0, 255]).history 53 = ⟨0, 0, 0, 0⟩ ∧
    (decBody 0 1 1 4 (opStream 0 1 1 4 [0, 0, 0, 255] ++ [0, 0, 0, 0, 0, 0, 0, 1])).history 53
      = ⟨0, 0, 0, 255⟩ ∧
    ¬ (∀ i : Fin 64, (encBody 0 1 1 4 0 [0, 0, 0, 255]).history i =
      (decBody 0 1 1 4
        (opStream 0 1 1 4 [0, 0, 0, 255] ++ [0, 0, 0, 0, 0, 0, 0, 1])).history i) := by
  decide

/-! ## C4: the padding check -/

/-- Reading one operation takes at least one byte off a source that is not
exhausted, and never adds one. -/
theorem decOp_inp_length (eof : U8) (s : DecState) :
    (decOp eof s).inp.length ≤ s.inp.length - 1 := by
  unfold decOp
  simp only [QoiReadU8]
  split_ifs <;> simp only [List.length_tail] <;> omega

/-- Reading one operation from `a ++ t` without reaching into `t` does the same
on `a ++ t1`. -/
theorem decOp_local (eof : U8) (run : Nat) (h : History) (px : Px) (out : List U8)
    (a a1 t t1 : List U8) (ht : t ≠ [])
    (hinp : (decOp eof ⟨run, h, px, a ++ t, out⟩).inp = a1 ++ t) :
    decOp eof ⟨run, h, px, a ++ t1, out⟩ =
      { decOp eof ⟨run, h, px, a ++ t, out⟩ with inp := a1 ++ t1 } := by
  have htl : 0 < t.length := List.length_pos.mpr ht
  rcases a with _ | ⟨x, a⟩
  · exfalso
    have h1 := decOp_inp_length eof ⟨run, h, px, [] ++ t, out⟩
    rw [hinp] at h1
    simp only [List.length_append, List.nil_append] at h1
    omega
  · by_cases h254 : x.val = QOI_OP_RGB_TAG
    · rcases a with _ | ⟨r, _ | ⟨g, _ | ⟨b, a⟩⟩⟩ <;>
        simp only [decOp, QoiReadU8, List.nil_append, List.cons_append, List.headD_cons,
          List.tail_cons, if_pos h254] at hinp ⊢
      all_goals first
        | (exfalso
           have hl := congrArg List.length hinp
           simp only [List.length_append, List.length_tail, List.length_cons,
             List.length_nil] at hl
           omega)
        | (simp only [List.append_left_inj] at hinp
           subst hinp
           rfl)
    · by_cases h255 : x.val = QOI_OP_RGBA_TAG
      · rcases a with _ | ⟨r, _ | ⟨g, _ | ⟨b, _ | ⟨al, a⟩⟩⟩⟩ <;>
          simp only [decOp, QoiReadU8, List.nil_append, List.cons_append, List.headD_cons,
            List.tail_cons, if_neg h254, if_pos h255] at hinp ⊢
        all_goals first
          | (exfalso
             have hl := congrArg List.length hinp
             simp only [List.length_append, List.length_tail, List.length_cons,
               List.length_nil] at hl
             omega)
          | (simp only [List.append_left_inj] at hinp
             subst hinp
             rfl)
      · by_cases hi : x.val &&& QOI_MASK_2 = QOI_OP_INDEX_TAG
        · simp only [decOp, QoiReadU8, List.nil_append, List.cons_append, List.headD_cons,
            List.tail_cons, if_neg h254, if_neg h255, if_pos hi] at hinp ⊢
          simp only [List.append_left_inj] at hinp
          subst hinp
          rfl
        · by_cases hd : x.val &&& QOI_MASK_2 = QOI_OP_DIFF_TAG
          · simp only [decOp, QoiReadU8, List.nil_append, List.cons_append, List.headD_cons,
              List.tail_cons, if_neg h254, if_neg h255, if_neg hi, if_pos hd] at hinp ⊢
            simp only [List.append_left_inj] at hinp
            subst hinp
            rfl
          · by_cases hl : x.val &&& QOI_MASK_2 = QOI_OP_LUMA_TAG
            · rcases a with _ | ⟨b2, a⟩ <;>
                simp only [decOp, QoiReadU8, List.nil_append, List.cons_append, List.headD_cons,
                  List.tail_cons, if_neg h254, if_neg h255, if_neg hi, if_neg hd, if_pos hl]
                  at hinp ⊢
              all_goals first
                | (exfalso
                   have hl := congrArg List.length hinp
                   simp only [List.length_append, List.length_tail, List.length_cons,
                     List.length_nil] at hl
                   omega)
                | (simp only [List.append_left_inj] at hinp
                   subst hinp
                   rfl)
            · simp only [decOp, QoiReadU8, List.nil_append, List.cons_append, List.headD_cons,
                List.tail_cons, if_neg h254, if_neg h255, if_neg hi, if_neg hd, if_neg hl]
                at hinp ⊢
              split_ifs at hinp ⊢ <;>
                (simp only [List.append_left_inj] at hinp
                 subst hinp
                 rfl)

theorem decOp_inp_suffix (eof : U8) (s : DecState) : (decOp eof s).inp <:+ s.inp := by
  unfold decOp
  simp only [QoiReadU8]
  have h1 : s.inp.tail <:+ s.inp := List.tail_suffix _
  have h2 : s.inp.tail.tail <:+ s.inp := (List.tail_suffix _).trans h1
  have h3 : s.inp.tail.tail.tail <:+ s.inp := (List.tail_suffix _).trans h2
  have h4 : s.inp.tail.tail.tail.tail <:+ s.inp := (List.tail_suffix _).trans h3
  have h5 : s.inp.tail.tail.tail.tail.tail <:+ s.inp := (List.tail_suffix _).trans h4
  split_ifs <;> assumption

theorem decIter_eq (eof channels : U8) (s : DecState) :
    decIter eof channels s =
      if s.run > 0 then
        ⟨s.run - 1, s.history, s.px, s.inp, s.out ++ pixBytes channels s.px⟩
      else
        ⟨(decOp eof s).run, setSlot (decOp eof s).history (slotOf (decOp eof s).px)
          (decOp eof s).px, (decOp eof s).px, (decOp eof s).inp,
          (decOp eof s).out ++ pixBytes channels (decOp eof s).px⟩ := by
  unfold decIter
  split <;> simp [decEmit_eq, slotOf]

theorem decIter_inp_suffix (eof channels : U8) (s : DecState) :
    (decIter eof channels s).inp <:+ s.inp := by
  rw [decIter_eq]
  split
  · exact List.suffix_refl _
  · exact decOp_inp_suffix eof s

theorem decLoop_inp_suffix (eof channels : U8) (n : Nat) :
    ∀ s : DecState, (decLoop eof channels n s).inp <:+ s.inp := by
  induction n with
  | zero => intro s; exact List.suffix_refl _
  | succ n ih =>
    intro s
    simp only [decLoop]
    exact (ih _).trans (decIter_inp_suffix eof channels s)

theorem decIter_local (eof channels : U8) (run : Nat) (h : History) (px : Px)
    (out a a1 t t1 : List U8) (ht : t ≠ [])
    (hinp : (decIter eof channels ⟨run, h, px, a ++ t, out⟩).inp = a1 ++ t) :
    decIter eof channels ⟨run, h, px, a ++ t1, out⟩ =
      { decIter eof channels ⟨run, h, px, a ++ t, out⟩ with inp := a1 ++ t1 } := by
  rw [decIter_eq] at hinp
  rw [decIter_eq, decIter_eq]
  by_cases hr : run > 0
  · simp only [hr, if_true] at hinp ⊢
    rw [List.append_left_inj] at hinp
    rw [hinp]
  · simp only [hr, if_false] at hinp ⊢
    rw [decOp_local eof run h px out a a1 t t1 ht hinp]

/-- A pixel loop that stops exactly in front of `t` does not depend on `t`. -/
theorem decLoop_local (eof channels : U8) (t t1 : List U8) (ht : t ≠ []) (n : Nat) :
    ∀ (run : Nat) (h : History) (px : Px) (out a : List U8),
      (decLoop eof channels n ⟨run, h, px, a ++ t, out⟩).inp = t →
      decLoop eof channels n ⟨run, h, px, a ++ t1, out⟩ =
        { decLoop eof channels n ⟨run, h, px, a ++ t, out⟩ with inp := t1 } := by
  induction n with
  | zero =>
    intro run h px out a hinp
    simp only [decLoop] at hinp ⊢
    have ha : a = [] := List.append_left_eq_self.mp hinp
    subst ha
    rfl
  | succ n ih =>
    intro run h px out a hinp
    simp only [decLoop] at hinp ⊢
    obtain ⟨a1, ha1⟩ : ∃ a1, a1 ++ t =
        (decIter eof channels ⟨run, h, px, a ++ t, out⟩).inp := by
      have hs := decLoop_inp_suffix eof channels n
        (decIter eof channels ⟨run, h, px, a ++ t, out⟩)
      rw [hinp] at hs
      exact hs
    rw [decIter_local eof channels run h px out a a1 t t1 ht ha1.symm]
    generalize decIter eof channels ⟨run, h, px, a ++ t, out⟩ = s1 at hinp ha1 ⊢
    obtain ⟨run1, h1, px1, inp1, out1⟩ := s1
    simp only at ha1
    subst ha1
    exact ih run1 h1 px1 out1 a1 hinp

/-- The padding loop on eight bytes: `valid` is whether they are the padding. -/
theorem decPadding_eight (eof : U8) (pad rest : List U8) (hpad : pad.length = 8) :
    decPadding eof QOI_PADDING true (pad ++ rest) =
      (decide (pad = [0, 0, 0, 0, 0, 0, 0, 1]), rest) := by
  rcases pad with _ | ⟨p0, _ | ⟨p1, _ | ⟨p2, _ | ⟨p3, _ | ⟨p4, _ | ⟨p5, _ | ⟨p6, _ |
    ⟨p7, _ | ⟨p8, pad⟩⟩⟩⟩⟩⟩⟩⟩⟩ <;> simp only [List.length_cons, List.length_nil] at hpad <;>
    try omega
  simp only [decPadding, QOI_PADDING, QoiReadU8, List.cons_append, List.nil_append,
    List.headD_cons, List.tail_cons]
  refine Prod.ext ?_ rfl
  simp only [List.cons.injEq, and_true]
  by_cases h0 : p0 = 0 <;> by_cases h1 : p1 = 0 <;> by_cases h2 : p2 = 0 <;>
    by_cases h3 : p3 = 0 <;> by_cases h4 : p4 = 0 <;> by_cases h5 : p5 = 0 <;>
    by_cases h6 : p6 = 0 <;> by_cases h7 : p7 = 1 <;> simp [h0, h1, h2, h3, h4, h5, h6, h7]

/-- Replacing the final byte of the output of `QoiEncode` for a buffer of
`width * height * channels` bytes by a byte other than 1: `QoiDecode` writes the
original buffer and returns `false`. -/
theorem QoiDecode_tampered (eofE eofD : U8) (w0 h0 : U32) (c0 cs0 : U8)
    (width height : U32) (channels colorspace : U8) (buf : List U8) (x : U8)
    (hsize : width.val * height.val < 2147483648)
    (hch : channels = 3 ∨ channels = 4)
    (hbuf : buf.length = width.val * height.val * channels.val)
    (hx : x ≠ 1) :
    (QoiDecode eofD w0 h0 c0 cs0
      ((QoiEncode eofE width height channels colorspace buf).out.dropLast ++ [x])).out = buf ∧
    (QoiDecode eofD w0 h0 c0 cs0
      ((QoiEncode eofE width height channels colorspace buf).out.dropLast ++ [x])).ret
        = false := by
  obtain ⟨ps, hlen, hflat, hps⟩ := exists_pixels channels hch _ buf hbuf
  obtain ⟨hd1, px1, hloop⟩ := decLoop_opStream eofE eofD width height channels ps []
    hsize hlen hps
  rw [List.append_nil, hflat] at hloop
  have henc : (QoiEncode eofE width height channels colorspace buf).out.dropLast ++ [x] =
      ([113, 111, 105, 102] ++ be32 width ++ be32 height ++ [channels, colorspace]) ++
        (opStream eofE width height channels buf ++ ([0, 0, 0, 0, 0, 0, 0, x] ++ [])) := by
    rw [QoiEncode_out]
    have : ([113, 111, 105, 102] ++ be32 width ++ be32 height ++ [channels, colorspace]) ++
        opStream eofE width height channels buf ++ [0, 0, 0, 0, 0, 0, 0, 1] =
        (([113, 111, 105, 102] ++ be32 width ++ be32 height ++ [channels, colorspace]) ++
        opStream eofE width height channels buf ++ [0, 0, 0, 0, 0, 0, 0]) ++ [1] := by
      simp
    rw [this, List.dropLast_concat]
    simp
  have hdecx : decBody eofD width height channels
      (opStream eofE width height channels buf ++ ([0, 0, 0, 0, 0, 0, 0, x] ++ [])) =
      ⟨0, hd1, px1, [0, 0, 0, 0, 0, 0, 0, x] ++ [], [] ++ buf⟩ := hloop _ []
  refine ⟨?_, ?_⟩
  · rw [henc, QoiDecode_header, hdecx]
    rfl
  · rw [henc, QoiDecode_header, hdecx]
    simp only []
    rw [decPadding_eight eofD [0, 0, 0, 0, 0, 0, 0, x] [] rfl]
    simp only [decide_eq_false_iff_not, List.cons.injEq, and_true, true_and]
    exact hx

/-- C4: for every stream with a correct magic, whatever its width, height,
channels and colorspace bytes are, whose pixel loop stops in front of eight bytes
`pad`, the pixel bytes `QoiDecode` writes are the same whatever eight bytes (and
whatever further bytes) stand there, and `QoiDecode` returns `true` if and only
if the eight bytes are `0,0,0,0,0,0,0,1`.  In particular, for every width and
height with `width * height < 2^31`, `channels` 3 or 4 and buffer of
`width * height * channels` bytes, replacing the final byte of the output of
`QoiEncode` by any other byte makes `QoiDecode` write the original buffer and
return `false`. -/
theorem QoiDecode_padding (eofD : U8) (w0 h0 : U32) (c0 cs0 : U8)
    (width height : U32) (channels colorspace : U8)
    (body pad pad1 rest rest1 : List U8)
    (hpad : pad.length = 8) (hpad1 : pad1.length = 8)
    (hbody : (decBody eofD width height channels (body ++ (pad ++ rest))).inp = pad ++ rest) :
    (QoiDecode eofD w0 h0 c0 cs0 (([113, 111, 105, 102] ++ be32 width ++ be32 height ++
        [channels, colorspace]) ++ (body ++ (pad1 ++ rest1)))).out =
      (QoiDecode eofD w0 h0 c0 cs0 (([113, 111, 105, 102] ++ be32 width ++ be32 height ++
        [channels, colorspace]) ++ (body ++ (pad ++ rest)))).out ∧
    ((QoiDecode eofD w0 h0 c0 cs0 (([113, 111, 105, 102] ++ be32 width ++ be32 height ++
        [channels, colorspace]) ++ (body ++ (pad ++ rest)))).ret = true ↔
      pad = [0, 0, 0, 0, 0, 0, 0, 1]) ∧
    ((QoiDecode eofD w0 h0 c0 cs0 (([113, 111, 105, 102] ++ be32 width ++ be32 height ++
        [channels, colorspace]) ++ (body ++ (pad1 ++ rest1)))).ret = true ↔
      pad1 = [0, 0, 0, 0, 0, 0, 0, 1]) ∧
    (∀ (eofE : U8) (width1 height1 : U32) (channels1 colorspace1 : U8) (buf : List U8)
        (x : U8), width1.val * height1.val < 2147483648 →
      (channels1 = 3 ∨ channels1 = 4) →
      buf.length = width1.val * height1.val * channels1.val → x ≠ 1 →
      (QoiDecode eofD w0 h0 c0 cs0
        ((QoiEncode eofE width1 height1 channels1 colorspace1 buf).out.dropLast ++ [x])).out
          = buf ∧
      (QoiDecode eofD w0 h0 c0 cs0
        ((QoiEncode eofE width1 height1 channels1 colorspace1 buf).out.dropLast ++ [x])).ret
          = false) := by
  have ht : pad ++ rest ≠ [] := by
    intro h
    have := congrArg List.length h
    simp only [List.length_append, hpad, List.length_nil] at this
    omega
  have hloc := decLoop_local eofD channels (pad ++ rest) (pad1 ++ rest1) ht
    (pxNum width height).toNat 0 zeroHistory ⟨0, 0, 0, 255⟩ [] body hbody
  have hb1 : decBody eofD width height channels (body ++ (pad1 ++ rest1)) =
      { decBody eofD width height channels (body ++ (pad ++ rest)) with
        inp := pad1 ++ rest1 } := hloc
  refine ⟨?_, ?_, ?_, ?_⟩
  · rw [QoiDecode_header, QoiDecode_header, hb1]
  · rw [QoiDecode_header, hbody, decPadding_eight eofD pad rest hpad]
    simp
  · rw [QoiDecode_header, hb1]
    simp only []
    rw [decPadding_eight eofD pad1 rest1 hpad1]
    simp
  · intro eofE width1 height1 channels1 colorspace1 buf x hsize hch hbuf hx
    exact QoiDecode_tampered eofE eofD w0 h0 c0 cs0 width1 height1 channels1 colorspace1
      buf x hsize hch hbuf hx

/-- C4, at a 1×1 stream whose channels byte is 0, with the RGB literal `(1,2,3)`
and two different paddings, and at the encoder output for the 1×1 RGB image
`(1,2,3)` with its final byte changed to 2. -/
theorem QoiDecode_padding_witness :
    ((QoiDecode 0 0 0 0 0 (([113, 111, 105, 102] ++ be32 1 ++ be32 1 ++
        [0, 7]) ++ ([254, 1, 2, 3] ++ ([0, 0, 0, 0, 0, 0, 0, 2] ++ [9])))).out =
      (QoiDecode 0 0 0 0 0 (([113, 111, 105, 102] ++ be32 1 ++ be32 1 ++
        [0, 7]) ++ ([254, 1, 2, 3] ++ ([0, 0, 0, 0, 0, 0, 0, 1] ++ [])))).out ∧
    ((QoiDecode 0 0 0 0 0 (([113, 111, 105, 102] ++ be32 1 ++ be32 1 ++
        [0, 7]) ++ ([254, 1, 2, 3] ++ ([0, 0, 0, 0, 0, 0, 0, 1] ++ [])))).ret = true ↔
      [0, 0, 0, 0, 0, 0, 0, 1] = ([0, 0, 0, 0, 0, 0, 0, 1] : List U8)) ∧
    ((QoiDecode 0 0 0 0 0 (([113, 111, 105, 102] ++ be32 1 ++ be32 1 ++
        [0, 7]) ++ ([254, 1, 2, 3] ++ ([0, 0, 0, 0, 0, 0, 0, 2] ++ [9])))).ret = true ↔
      [0, 0, 0, 0, 0, 0, 0, 2] = ([0, 0, 0, 0, 0, 0, 0, 1] : List U8))) ∧
    (QoiDecode 0 0 0 0 0
      ((QoiEncode 0 1 1 3 0 [1, 2, 3]).out.dropLast ++ [2])).out = [1, 2, 3] ∧
    (QoiDecode 0 0 0 0 0
      ((QoiEncode 0 1 1 3 0 [1, 2, 3]).out.dropLast ++ [2])).ret = false :=
  ⟨⟨(QoiDecode_padding 0 0 0 0 0 1 1 0 7 [254, 1, 2, 3] [0, 0, 0, 0, 0, 0, 0, 1]
      [0, 0, 0, 0, 0, 0, 0, 2] [] [9] (by decide) (by decide) (by decide)).1,
    (QoiDecode_padding 0 0 0 0 0 1 1 0 7 [254, 1, 2, 3] [0, 0, 0, 0, 0, 0, 0, 1]
      [0, 0, 0, 0, 0, 0, 0, 2] [] [9] (by decide) (by decide) (by decide)).2.1,
    (QoiDecode_padding 0 0 0 0 0 1 1 0 7 [254, 1, 2, 3] [0, 0, 0, 0, 0, 0, 0, 1]
      [0, 0, 0, 0, 0, 0, 0, 2] [] [9] (by decide) (by decide) (by decide)).2.2.1⟩,
   (QoiDecode_padding 0 0 0 0 0 1 1 0 7 [254, 1, 2, 3] [0, 0, 0, 0, 0, 0, 0, 1]
      [0, 0, 0, 0, 0, 0, 0, 2] [] [9] (by decide) (by decide) (by decide)).2.2.2
      0 1 1 3 0 [1, 2, 3] 2 (by decide) (by decide) (by decide) (by decide)⟩

/-! ## C11: the RGB literal -/

/-- The four branches of lines 104-136: which operation is written for a pixel
that is not a cache hit. -/
theorem encOp_cases (pre p : Px) :
    (p.a ≠ pre.a ∧ encOp pre p = [255, p.r, p.g, p.b, p.a]) ∨
    (p.a = pre.a ∧ DiffOk pre p ∧ ∃ t : U8, encOp pre p = [t] ∧ 64 ≤ t.val ∧ t.val < 128) ∨
    (p.a = pre.a ∧ ¬ DiffOk pre p ∧ LumaOk pre p ∧
      ∃ b1 b2 : U8, encOp pre p = [b1, b2] ∧ 128 ≤ b1.val ∧ b1.val < 192) ∨
    (p.a = pre.a ∧ ¬ DiffOk pre p ∧ ¬ LumaOk pre p ∧ encOp pre p = [254, p.r, p.g, p.b]) := by
  by_cases ha : p.a = pre.a
  · right
    have hda : ¬ ((p.a.val : Int) - (pre.a.val : Int) ≠ 0) := by
      rw [ha]; simp
    by_cases hd : DiffOk pre p
    · left
      refine ⟨ha, hd, ?_⟩
      unfold DiffOk at hd
      obtain ⟨x, hx⟩ : ∃ x : Nat, ((p.r.val : Int) - pre.r.val + 2).toNat = x := ⟨_, rfl⟩
      obtain ⟨y, hy⟩ : ∃ y : Nat, ((p.g.val : Int) - pre.g.val + 2).toNat = y := ⟨_, rfl⟩
      obtain ⟨z, hz⟩ : ∃ z : Nat, ((p.b.val : Int) - pre.b.val + 2).toNat = z := ⟨_, rfl⟩
      obtain ⟨-, -, -, -, -, -, h7⟩ :=
        diffByte_fields x (by omega) y (by omega) z (by omega)
      refine ⟨toU8 ((64 ||| (x <<< 4) ||| (y <<< 2) ||| z : Nat) : Int), ?_, ?_, ?_⟩
      · unfold encOp
        simp only []
        rw [if_neg hda, if_pos (by omega), hx, hy, hz]
      · rw [h7]; omega
      · rw [h7]; omega
    · right
      by_cases hl : LumaOk pre p
      · left
        refine ⟨ha, hd, hl, ?_⟩
        unfold DiffOk at hd
        unfold LumaOk at hl
        obtain ⟨x, hx⟩ : ∃ x : Nat, ((p.g.val : Int) - pre.g.val + 32).toNat = x := ⟨_, rfl⟩
        obtain ⟨-, -, -, -, h1⟩ := lumaByte1_fields x (by omega)
        refine ⟨toU8 ((128 ||| x : Nat) : Int),
          toU8 ((((((p.r.val : Int) - pre.r.val) - ((p.g.val : Int) - pre.g.val) + 8).toNat <<< 4)
            ||| ((((p.b.val : Int) - pre.b.val) - ((p.g.val : Int) - pre.g.val) + 8).toNat) : Nat)
            : Int), ?_, ?_, ?_⟩
        · unfold encOp
          simp only []
          rw [if_neg hda, if_neg (by omega), if_pos (by omega), hx]
        · rw [h1]; omega
        · rw [h1]; omega
      · right
        refine ⟨ha, hd, hl, ?_⟩
        unfold DiffOk at hd
        unfold LumaOk at hl
        unfold encOp
        simp only []
        rw [if_neg hda, if_neg (by omega), if_neg (by omega)]
        rfl
  · left
    exact ⟨ha, encOp_rgba pre p ha⟩

/-- C11: for every encoder state and every pixel that is not a run extension,
not a cache hit, has unchanged alpha and whose deltas satisfy neither the diff
bounds nor the luma bounds, `QoiEncode` writes for the pixel, after the byte of
any pending run, exactly the four bytes `0xfe, r, g, b`.  Conversely, in every
state, an operation with tag `0xfe` is written only for such a pixel: a pixel
that is not a run extension and gets an operation starting with `0xfe` is not a
cache hit, has unchanged alpha and deltas outside both bounds, and the operation
is `0xfe, r, g, b`; a run extension writes nothing or one run byte. -/
theorem encPixel_rgb (last : Bool) (p : Px) (run : Nat) (he : History) (pre : Px)
    (inp out : List U8) (hne : p ≠ pre) (hmiss : he (slotOf p) ≠ p) (ha : p.a = pre.a)
    (hnd : ¬ DiffOk pre p) (hnl : ¬ LumaOk pre p) :
    (encPixel last p ⟨run, he, pre, inp, out⟩).out =
      out ++ flushOps run ++ [0xfe, p.r, p.g, p.b] ∧
    (∀ (last1 : Bool) (q : Px) (run1 : Nat) (he1 : History) (pre1 : Px)
        (inp1 out1 rest : List U8), q ≠ pre1 →
      (encPixel last1 q ⟨run1, he1, pre1, inp1, out1⟩).out =
        out1 ++ flushOps run1 ++ 0xfe :: rest →
      he1 (slotOf q) ≠ q ∧ q.a = pre1.a ∧ ¬ DiffOk pre1 q ∧ ¬ LumaOk pre1 q ∧
        rest = [q.r, q.g, q.b]) ∧
    (∀ (last1 : Bool) (q : Px) (run1 : Nat) (he1 : History) (pre1 : Px)
        (inp1 out1 : List U8), q = pre1 →
      (encPixel last1 q ⟨run1, he1, pre1, inp1, out1⟩).out = out1 ∨
      (encPixel last1 q ⟨run1, he1, pre1, inp1, out1⟩).out = out1 ++ [runByte (run1 + 1)]) := by
  refine ⟨?_, ?_, ?_⟩
  · rw [encPixel_miss last p run he pre inp out hne hmiss]
    rcases encOp_cases pre p with h | h | h | h
    · exact absurd ha h.1
    · exact absurd h.2.1 hnd
    · exact absurd h.2.2.1 hnl
    · rw [h.2.2.2]
  · intro last1 q run1 he1 pre1 inp1 out1 rest hq hout
    by_cases hit : he1 (slotOf q) = q
    · exfalso
      rw [encPixel_hit last1 q run1 he1 pre1 inp1 out1 hq hit] at hout
      simp only [List.append_assoc, List.append_cancel_left_eq, List.cons.injEq] at hout
      obtain ⟨-, -, -, -, h5⟩ := indexByte_fields (slotOf q).val (slotOf q).isLt
      have := congrArg Fin.val hout.1
      rw [h5] at this
      have hlt := (slotOf q).isLt
      have h254 : ((0xfe : U8).val) = 254 := rfl
      omega
    · rw [encPixel_miss last1 q run1 he1 pre1 inp1 out1 hq hit] at hout
      simp only [List.append_assoc, List.append_cancel_left_eq] at hout
      have h254 : ((0xfe : U8).val) = 254 := rfl
      rcases encOp_cases pre1 q with h | h | h | h
      · exfalso
        rw [h.2] at hout
        have := congrArg Fin.val (List.cons.inj hout).1
        rw [h254] at this
        exact absurd this (by decide)
      · exfalso
        obtain ⟨t, ht, -, h128⟩ := h.2.2
        rw [ht] at hout
        have := congrArg Fin.val (List.cons.inj hout).1
        omega
      · exfalso
        obtain ⟨b1, b2, hb, -, h192⟩ := h.2.2.2
        rw [hb] at hout
        have := congrArg Fin.val (List.cons.inj hout).1
        omega
      · rw [h.2.2.2] at hout
        exact ⟨hit, h.1, h.2.1, h.2.2.1, (List.cons.inj hout).2.symm⟩
  · intro last1 q run1 he1 pre1 inp1 out1 hq
    by_cases hf : run1 + 1 = 62 ∨ last1 = true
    · right; rw [encPixel_run_flush last1 q run1 he1 pre1 inp1 out1 hq hf]
    · left; rw [encPixel_run_keep last1 q run1 he1 pre1 inp1 out1 hq hf]

/-- C11, at the pixel `(200, 10, 10, 255)` after `(10, 10, 10, 255)` with a
pending run of two pixels. -/
theorem encPixel_rgb_witness :
    (encPixel false ⟨200, 10, 10, 255⟩ ⟨2, zeroHistory, ⟨10, 10, 10, 255⟩, [], []⟩).out =
      [] ++ flushOps 2 ++ [0xfe, 200, 10, 10] :=
  (encPixel_rgb false ⟨200, 10, 10, 255⟩ 2 zeroHistory ⟨10, 10, 10, 255⟩ [] []
    (by decide) (by decide) (by decide) (by decide) (by decide)).1

/-! ## C15: the deltas the decoder adds back -/

theorem toU8_int_val (z : Int) : ((toU8 z).val : Int) = z % 256 := by
  simp only [toU8]
  omega

set_option maxRecDepth 100000 in
/-- A tag whose top two bits are `01` or `10` is neither literal tag. -/
theorem tag_not_literal : ∀ n < 256,
    (n &&& 192 = 64 ∨ n &&& 192 = 128) → n ≠ 254 ∧ n ≠ 255 := by
  decide

set_option maxRecDepth 100000 in
/-- The high nibble of a byte is below 16, so masking it with `0x0f` changes
nothing. -/
theorem high_nibble : ∀ n < 256, (n >>> 4) &&& 15 = n >>> 4 := by
  decide

/-- C15: for every previous pixel `(r, g, b, a)` and every diff tag `t` (top bits
`01`) the decoded pixel is `((r + ((t>>4)&3) - 2) mod 256,
(g + ((t>>2)&3) - 2) mod 256, (b + (t&3) - 2) mod 256, a)`; and for every luma tag
`u` (top bits `10`) with second byte `s`, with `dg = (u&0x3f) - 32`, the decoded
pixel is `((r + dg + (s>>4) - 8) mod 256, (g + dg) mod 256,
(b + dg + (s&0x0f) - 8) mod 256, a)`. -/
theorem decIter_delta (eof channels : U8) (h : History) (px : Px) (t u s : U8)
    (rest out : List U8) (ht : t.val &&& 0xc0 = 0x40) (hu : u.val &&& 0xc0 = 0x80) :
    (((decIter eof channels ⟨0, h, px, t :: rest, out⟩).px.r.val : Int) =
        ((px.r.val : Int) + (((t.val >>> 4) &&& 3 : Nat) : Int) - 2) % 256 ∧
      ((decIter eof channels ⟨0, h, px, t :: rest, out⟩).px.g.val : Int) =
        ((px.g.val : Int) + (((t.val >>> 2) &&& 3 : Nat) : Int) - 2) % 256 ∧
      ((decIter eof channels ⟨0, h, px, t :: rest, out⟩).px.b.val : Int) =
        ((px.b.val : Int) + ((t.val &&& 3 : Nat) : Int) - 2) % 256 ∧
      (decIter eof channels ⟨0, h, px, t :: rest, out⟩).px.a = px.a) ∧
    (((decIter eof channels ⟨0, h, px, u :: s :: rest, out⟩).px.r.val : Int) =
        ((px.r.val : Int) + (((u.val &&& 0x3f : Nat) : Int) - 32)
          + ((s.val >>> 4 : Nat) : Int) - 8) % 256 ∧
      ((decIter eof channels ⟨0, h, px, u :: s :: rest, out⟩).px.g.val : Int) =
        ((px.g.val : Int) + (((u.val &&& 0x3f : Nat) : Int) - 32)) % 256 ∧
      ((decIter eof channels ⟨0, h, px, u :: s :: rest, out⟩).px.b.val : Int) =
        ((px.b.val : Int) + (((u.val &&& 0x3f : Nat) : Int) - 32)
          + ((s.val &&& 0x0f : Nat) : Int) - 8) % 256 ∧
      (decIter eof channels ⟨0, h, px, u :: s :: rest, out⟩).px.a = px.a) := by
  obtain ⟨t1, t2⟩ := tag_not_literal t.val t.isLt (Or.inl ht)
  obtain ⟨u1, u2⟩ := tag_not_literal u.val u.isLt (Or.inr hu)
  have hs := high_nibble s.val s.isLt
  rw [decIter_of_decOp eof channels h px _ out _ (decOp_diff eof 0 h px t rest out t1 t2 ht),
    decIter_of_decOp eof channels h px _ out _ (decOp_luma eof 0 h px u s rest out u1 u2 hu)]
  refine ⟨⟨?_, ?_, ?_, rfl⟩, ⟨?_, ?_, ?_, rfl⟩⟩ <;>
    simp only [toU8_int_val, hs] <;> congr 1 <;> ring

/-- C15, at the previous pixel `(0, 255, 7, 9)`, the diff tag `0x4c`
(`dr = -2, dg = 1, db = -2`) and the luma tag `0xbf` with second byte `0x0f`. -/
theorem decIter_delta_witness :
    (((decIter 0 4 ⟨0, zeroHistory, ⟨0, 255, 7, 9⟩, 0x4c :: [], []⟩).px.r.val : Int) =
        ((((0 : U8).val : Nat) : Int) + (((((0x4c : U8).val >>> 4) &&& 3 : Nat)) : Int) - 2) % 256 ∧
      ((decIter 0 4 ⟨0, zeroHistory, ⟨0, 255, 7, 9⟩, 0x4c :: [], []⟩).px.g.val : Int) =
        ((((255 : U8).val : Nat) : Int) + (((((0x4c : U8).val >>> 2) &&& 3 : Nat)) : Int) - 2) % 256 ∧
      ((decIter 0 4 ⟨0, zeroHistory, ⟨0, 255, 7, 9⟩, 0x4c :: [], []⟩).px.b.val : Int) =
        ((((7 : U8).val : Nat) : Int) + ((((0x4c : U8).val &&& 3 : Nat)) : Int) - 2) % 256 ∧
      (decIter 0 4 ⟨0, zeroHistory, ⟨0, 255, 7, 9⟩, 0x4c :: [], []⟩).px.a = 9) ∧
    (((decIter 0 4 ⟨0, zeroHistory, ⟨0, 255, 7, 9⟩, 0xbf :: 0x0f :: [], []⟩).px.r.val : Int) =
        ((((0 : U8).val : Nat) : Int) + (((((0xbf : U8).val &&& 0x3f : Nat)) : Int) - 32)
          + ((((0x0f : U8).val >>> 4 : Nat)) : Int) - 8) % 256 ∧
      ((decIter 0 4 ⟨0, zeroHistory, ⟨0, 255, 7, 9⟩, 0xbf :: 0x0f :: [], []⟩).px.g.val : Int) =
        ((((255 : U8).val : Nat) : Int) + (((((0xbf : U8).val &&& 0x3f : Nat)) : Int) - 32)) % 256 ∧
      ((decIter 0 4 ⟨0, zeroHistory, ⟨0, 255, 7, 9⟩, 0xbf :: 0x0f :: [], []⟩).px.b.val : Int) =
        ((((7 : U8).val : Nat) : Int) + (((((0xbf : U8).val &&& 0x3f : Nat)) : Int) - 32)
          + ((((0x0f : U8).val &&& 0x0f : Nat)) : Int) - 8) % 256 ∧
      (decIter 0 4 ⟨0, zeroHistory, ⟨0, 255, 7, 9⟩, 0xbf :: 0x0f :: [], []⟩).px.a = 9) :=
  decIter_delta 0 4 zeroHistory ⟨0, 255, 7, 9⟩ 0x4c 0xbf 0x0f [] [] (by decide) (by decide)

/-! ## C16: the cache and the previous pixel after an encoder step -/

/-- C16: for every encoder state and every pixel, a run extension (the pixel
equals the previous pixel) leaves the cache unchanged; otherwise after the step
the cache slot at `hash(pixel)` holds the pixel and every other slot is
unchanged; and after every step the previous-pixel register holds the pixel. -/
theorem encPixel_cache (last : Bool) (p : Px) (run : Nat) (he : History) (pre : Px)
    (inp out : List U8) :
    (p = pre → (encPixel last p ⟨run, he, pre, inp, out⟩).history = he) ∧
    (p ≠ pre →
      (encPixel last p ⟨run, he, pre, inp, out⟩).history (slotOf p) = p ∧
      ∀ i : Fin 64, i ≠ slotOf p →
        (encPixel last p ⟨run, he, pre, inp, out⟩).history i = he i) ∧
    (encPixel last p ⟨run, he, pre, inp, out⟩).pre = p := by
  by_cases hp : p = pre
  · by_cases hf : run + 1 = 62 ∨ last = true
    · rw [encPixel_run_flush last p run he pre inp out hp hf]
      exact ⟨fun _ => rfl, fun h => absurd hp h, hp.symm⟩
    · rw [encPixel_run_keep last p run he pre inp out hp hf]
      exact ⟨fun _ => rfl, fun h => absurd hp h, hp.symm⟩
  · by_cases hit : he (slotOf p) = p
    · rw [encPixel_hit last p run he pre inp out hp hit]
      exact ⟨fun h => absurd h hp, fun _ => ⟨hit, fun _ _ => rfl⟩, rfl⟩
    · rw [encPixel_miss last p run he pre inp out hp hit]
      refine ⟨fun h => absurd h hp, fun _ => ⟨?_, ?_⟩, rfl⟩
      · simp [setSlot]
      · intro i hi
        simp [setSlot, hi]

/-! ## C14: the decoder writes the cache after a run tag -/

/-- C14 fails on the code.  Consuming a pending run repeat leaves the cache
unchanged, but processing a run tag does not: in every state a run tag makes the
decoder write the pixel registers into their slot of the cache.  At the stream of
the 1×1 image whose only operation is the run tag `0xc0`, slot 53 of the cache
goes from `(0,0,0,0)` to `(0,0,0,255)`. -/
theorem decIter_run_tag_writes_cache :
    (∀ (eof channels : U8) (run : Nat) (h : History) (px : Px) (inp out : List U8),
      (decIter eof channels ⟨run + 1, h, px, inp, out⟩).history = h) ∧
    (∀ (eof channels : U8) (h : History) (px : Px) (t : U8) (rest out : List U8),
      t.val &&& 0xc0 = 0xc0 → t.val ≠ 0xfe → t.val ≠ 0xff →
      (decIter eof channels ⟨0, h, px, t :: rest, out⟩).history = setSlot h (slotOf px) px) ∧
    (decInit [0xc0, 0, 0, 0, 0, 0, 0, 0, 1] []).history 53 = ⟨0, 0, 0, 0⟩ ∧
    (decIter 0 4 (decInit [0xc0, 0, 0, 0, 0, 0, 0, 0, 1] [])).history 53 = ⟨0, 0, 0, 255⟩ ∧
    (decBody 0 1 1 4 [0xc0, 0, 0, 0, 0, 0, 0, 0, 1]).history 53 = ⟨0, 0, 0, 255⟩ := by
  refine ⟨?_, ?_, by decide, by decide, by decide⟩
  · intro eof channels run h px inp out
    rw [decIter_eq]
    simp
  · intro eof channels h px t rest out h3 h1 h2
    rw [decIter_of_decOp eof channels h px _ out _ (decOp_run eof 0 h px t rest out h1 h2 h3)]

/-! ## C13: the run counters -/

theorem encPixel_run_lt (last : Bool) (p : Px) (s : EncState) (hs : s.run < 62) :
    (encPixel last p s).run < 62 := by
  obtain ⟨run, he, pre, inp, out⟩ := s
  simp only at hs
  by_cases hp : p = pre
  · by_cases hf : run + 1 = 62 ∨ last = true
    · rw [encPixel_run_flush last p run he pre inp out hp hf]; exact Nat.zero_lt_succ 61
    · rw [encPixel_run_keep last p run he pre inp out hp hf]
      simp only
      omega
  · by_cases hit : he (slotOf p) = p
    · rw [encPixel_hit last p run he pre inp out hp hit]; exact Nat.zero_lt_succ 61
    · rw [encPixel_miss last p run he pre inp out hp hit]; exact Nat.zero_lt_succ 61

theorem encLoop_run_lt (eof channels : U8) (pxnum : Int) (n : Nat) :
    ∀ (i : Nat) (s : EncState), s.run < 62 →
      (encLoop eof channels pxnum n i s).run < 62 := by
  induction n with
  | zero => intro i s hs; exact hs
  | succ n ih =>
    intro i s hs
    simp only [encLoop]
    exact ih (i + 1) _ (encPixel_run_lt _ _ _ hs)

set_option maxRecDepth 100000 in
/-- The low six bits of a run tag are at most 61. -/
theorem run_field_lt : ∀ n < 256, n &&& 192 = 192 → n ≠ 254 → n ≠ 255 → n &&& 63 < 62 := by
  decide

theorem decOp_run_lt (eof : U8) (s : DecState) (hs : s.run < 62) :
    (decOp eof s).run < 62 := by
  unfold decOp
  simp only [QoiReadU8]
  split_ifs with h1 h2 h3 h4 h5 h6
  all_goals first
    | exact hs
    | exact run_field_lt _ (s.inp.headD eof).isLt h6 h1 h2

theorem decIter_run_lt (eof channels : U8) (s : DecState) (hs : s.run < 62) :
    (decIter eof channels s).run < 62 := by
  rw [decIter_eq]
  split
  · simp only; omega
  · exact decOp_run_lt eof s hs

theorem decLoop_run_lt (eof channels : U8) (n : Nat) :
    ∀ s : DecState, s.run < 62 → (decLoop eof channels n s).run < 62 := by
  induction n with
  | zero => intro s hs; exact hs
  | succ n ih =>
    intro s hs
    simp only [decLoop]
    exact ih _ (decIter_run_lt eof channels s hs)

/-- What one encoder step writes and what it does to the run counter, in every
state.  A run extension increments the counter to `run + 1` and, when that is 62
or the pixel is the last one, writes exactly the run byte of `run + 1` and resets
the counter; otherwise it writes nothing.  A pixel that differs from the previous
one writes the run byte of the pending counter `run` when `run > 0`, followed by
the index byte or the operation of `encOp`, whose tag is not a run tag, and
resets the counter. -/
theorem encPixel_step (last : Bool) (p : Px) (s : EncState) :
    (p = s.pre → (s.run + 1 = 62 ∨ last = true) →
      (encPixel last p s).out = s.out ++ [runByte (s.run + 1)] ∧
      (encPixel last p s).run = 0) ∧
    (p = s.pre → ¬ (s.run + 1 = 62 ∨ last = true) →
      (encPixel last p s).out = s.out ∧ (encPixel last p s).run = s.run + 1) ∧
    (p ≠ s.pre →
      (encPixel last p s).out =
        s.out ++ (if s.run > 0 then [runByte s.run] else []) ++
          (if s.history (slotOf p) = p
            then [toU8 ((QOI_OP_INDEX_TAG ||| (slotOf p).val : Nat) : Int)]
            else encOp s.pre p) ∧
      (encPixel last p s).run = 0 ∧
      ∃ (t : U8) (rest : List U8),
        (if s.history (slotOf p) = p
          then [toU8 ((QOI_OP_INDEX_TAG ||| (slotOf p).val : Nat) : Int)]
          else encOp s.pre p) = t :: rest ∧ (t.val < 192 ∨ 254 ≤ t.val)) := by
  obtain ⟨run, he, pre, inp, out⟩ := s
  refine ⟨?_, ?_, ?_⟩
  · intro hp hf
    rw [encPixel_run_flush last p run he pre inp out hp hf]
    exact ⟨rfl, rfl⟩
  · intro hp hf
    rw [encPixel_run_keep last p run he pre inp out hp hf]
    exact ⟨rfl, rfl⟩
  · intro hp
    by_cases hit : he (slotOf p) = p
    · rw [encPixel_hit last p run he pre inp out hp hit]
      simp only [if_pos hit]
      obtain ⟨-, -, -, -, h5⟩ := indexByte_fields (slotOf p).val (slotOf p).isLt
      have hlt := (slotOf p).isLt
      refine ⟨?_, ?_, _, [], rfl, Or.inl (by rw [h5]; omega)⟩
      · trivial
      · trivial
    · rw [encPixel_miss last p run he pre inp out hp hit]
      simp only [if_neg hit]
      obtain ⟨t, rest, hop, ht⟩ := encOp_head pre p
      refine ⟨?_, ?_, t, rest, hop, ht⟩
      · trivial
      · trivial

/-- Iteration `k` of the encoder loop is the step `encPixel` on the pixel read,
with the last-pixel test `k == px_num - 1`. -/
theorem encLoop_succ (eof channels : U8) (pxnum : Int) (k : Nat) (s : EncState) :
    encLoop eof channels pxnum (k + 1) 0 s =
      encPixel (decide ((k : Int) = pxnum - 1))
        (encReadPixel eof channels (encLoop eof channels pxnum k 0 s).inp).1
        { encLoop eof channels pxnum k 0 s with
          inp := (encReadPixel eof channels (encLoop eof channels pxnum k 0 s).inp).2 } := by
  have hadd : ∀ (a : Nat) (i : Nat) (t : EncState),
      encLoop eof channels pxnum (a + 1) i t =
        encIter eof channels pxnum (i + a) (encLoop eof channels pxnum a i t) := by
    intro a
    induction a with
    | zero => intro i t; rfl
    | succ a ih =>
      intro i t
      show encLoop eof channels pxnum (a + 1) (i + 1) (encIter eof channels pxnum i t) = _
      rw [ih (i + 1)]
      have : i + 1 + a = i + (a + 1) := by omega
      rw [this]
      rfl
  rw [hadd k 0 s, Nat.zero_add]
  rfl

/-- C13: at the start of every iteration of the encoder's pixel loop the run
counter `run` is below 62.  The iteration is a step that, on a run extension,
increments the counter and, when it has reached 62 or the pixel is the last one,
writes exactly the byte `0xc0 | (run-1)` of the incremented counter, which is
between 1 and 62, and resets it; on a pixel that differs from the previous one it
writes the byte `0xc0 | (run-1)` of the pending counter, which is between 1 and
61, when `run > 0`, then an operation whose tag is not a run tag, and resets the
counter; nothing else is written.  Every byte `0xc0 | (run-1)` with
`1 <= run <= 62` lies in `0xc0..0xfd` and is neither `0xfe` nor `0xff`.  Likewise
the run counter of the decoder is below 62 after any number of iterations on any
stream. -/
theorem run_counter_bound :
    (∀ (eof channels : U8) (pxnum : Int) (k : Nat) (inp out : List U8),
      (encLoop eof channels pxnum k 0 (encInit inp out)).run < 62) ∧
    (∀ (eof channels : U8) (pxnum : Int) (k : Nat) (inp out : List U8),
      encLoop eof channels pxnum (k + 1) 0 (encInit inp out) =
        encPixel (decide ((k : Int) = pxnum - 1))
          (encReadPixel eof channels
            (encLoop eof channels pxnum k 0 (encInit inp out)).inp).1
          { encLoop eof channels pxnum k 0 (encInit inp out) with
            inp := (encReadPixel eof channels
              (encLoop eof channels pxnum k 0 (encInit inp out)).inp).2 }) ∧
    (∀ (last : Bool) (p : Px) (s : EncState), s.run < 62 →
      (p = s.pre → (s.run + 1 = 62 ∨ last = true) →
        (encPixel last p s).out = s.out ++ [runByte (s.run + 1)] ∧
        (encPixel last p s).run = 0 ∧ 1 ≤ s.run + 1 ∧ s.run + 1 ≤ 62) ∧
      (p = s.pre → ¬ (s.run + 1 = 62 ∨ last = true) →
        (encPixel last p s).out = s.out ∧ (encPixel last p s).run = s.run + 1 ∧
        s.run + 1 < 62) ∧
      (p ≠ s.pre →
        (encPixel last p s).out =
          s.out ++ (if s.run > 0 then [runByte s.run] else []) ++
            (if s.history (slotOf p) = p
              then [toU8 ((QOI_OP_INDEX_TAG ||| (slotOf p).val : Nat) : Int)]
              else encOp s.pre p) ∧
        (encPixel last p s).run = 0 ∧ (s.run > 0 → 1 ≤ s.run ∧ s.run ≤ 61) ∧
        ∃ (t : U8) (rest : List U8),
          (if s.history (slotOf p) = p
            then [toU8 ((QOI_OP_INDEX_TAG ||| (slotOf p).val : Nat) : Int)]
            else encOp s.pre p) = t :: rest ∧ (t.val < 192 ∨ 254 ≤ t.val))) ∧
    (∀ r : Nat, 1 ≤ r → r ≤ 62 →
      (runByte r).val = 0xc0 ||| (r - 1) ∧ 0xc0 ≤ (runByte r).val ∧ (runByte r).val ≤ 0xfd ∧
        (runByte r).val ≠ 0xfe ∧ (runByte r).val ≠ 0xff) ∧
    (∀ (eof channels : U8) (k : Nat) (inp out : List U8),
      (decLoop eof channels k (decInit inp out)).run < 62) := by
  refine ⟨?_, ?_, ?_, ?_, ?_⟩
  · intro eof channels pxnum k inp out
    exact encLoop_run_lt eof channels pxnum k 0 _ (Nat.zero_lt_succ 61)
  · intro eof channels pxnum k inp out
    exact encLoop_succ eof channels pxnum k (encInit inp out)
  · intro last p s hs
    obtain ⟨h1, h2, h3⟩ := encPixel_step last p s
    refine ⟨fun hp hf => ?_, fun hp hf => ?_, fun hp => ?_⟩
    · obtain ⟨e1, e2⟩ := h1 hp hf
      exact ⟨e1, e2, by omega, by omega⟩
    · obtain ⟨e1, e2⟩ := h2 hp hf
      refine ⟨e1, e2, ?_⟩
      have : s.run + 1 ≠ 62 := fun h => hf (Or.inl h)
      omega
    · obtain ⟨e1, e2, e3⟩ := h3 hp
      exact ⟨e1, e2, fun h => ⟨by omega, by omega⟩, e3⟩
  · intro r h1 h2
    obtain ⟨m, hm⟩ : ∃ m, r = m + 1 := ⟨r - 1, by omega⟩
    subst hm
    obtain ⟨e1, e2, -, -, e5⟩ := runByte_fields m (by omega)
    rw [e5, Nat.add_sub_cancel, runByte_raw m (by omega)]
    omega
  · intro eof channels k inp out
    exact decLoop_run_lt eof channels k _ (Nat.zero_lt_succ 61)

/-! ## C12: the shortest operation -/

theorem encOp_diff (pre p : Px) (ha : p.a = pre.a) (hd : DiffOk pre p) :
    encOp pre p = [diffByte pre p] := by
  unfold DiffOk at hd
  unfold encOp diffByte
  simp only []
  rw [if_neg (by rw [ha]; simp), if_pos (by omega)]

theorem encOp_luma (pre p : Px) (ha : p.a = pre.a) (hd : ¬ DiffOk pre p)
    (hl : LumaOk pre p) : encOp pre p = lumaBytes pre p := by
  unfold DiffOk at hd
  unfold LumaOk at hl
  unfold encOp lumaBytes
  simp only []
  rw [if_neg (by rw [ha]; simp), if_neg (by omega), if_pos (by omega)]

theorem encOp_rgb (pre p : Px) (ha : p.a = pre.a) (hd : ¬ DiffOk pre p)
    (hl : ¬ LumaOk pre p) : encOp pre p = [0xfe, p.r, p.g, p.b] := by
  rcases encOp_cases pre p with h | h | h | h
  · exact absurd ha h.1
  · exact absurd h.2.1 hd
  · exact absurd h.2.2.1 hl
  · exact h.2.2.2

/-- The luma bytes of a pixel within the luma bounds are decoded to the pixel,
whether or not the pixel is also within the diff bounds. -/
theorem decIter_lumaBytes (eof channels : U8) (h : History) (pre p : Px)
    (rest out : List U8) (ha : p.a = pre.a) (hl : LumaOk pre p) :
    decIter eof channels ⟨0, h, pre, lumaBytes pre p ++ rest, out⟩ =
      ⟨0, setSlot h (slotOf p) p, p, rest, out ++ pixBytes channels p⟩ := by
  obtain ⟨pr, pg, pb, pa⟩ := p
  obtain ⟨qr, qg, qb, qa⟩ := pre
  simp only at ha
  subst ha
  unfold LumaOk at hl
  simp only at hl
  unfold lumaBytes
  simp only []
  obtain ⟨x, hx⟩ : ∃ x : Nat, ((pg.val : Int) - qg.val + 32).toNat = x := ⟨_, rfl⟩
  obtain ⟨y, hy⟩ : ∃ y : Nat,
    ((pr.val : Int) - qr.val - ((pg.val : Int) - qg.val) + 8).toNat = y := ⟨_, rfl⟩
  obtain ⟨z, hz⟩ : ∃ z : Nat,
    ((pb.val : Int) - qb.val - ((pg.val : Int) - qg.val) + 8).toNat = z := ⟨_, rfl⟩
  obtain ⟨h1, h2, h3, h4, -⟩ := lumaByte1_fields x (by omega)
  obtain ⟨h5, h6, -⟩ := lumaByte2_fields y (by omega) z (by omega)
  rw [hx, hy, hz, List.cons_append, List.cons_append, List.nil_append,
    decIter_of_decOp eof channels h _ _ out _ (decOp_luma eof 0 h _ _ _ rest out h1 h2 h3)]
  simp only [h4, h5, h6]
  have er : toU8 ((qr.val : Int) + ((x : Int) - 32) + ((y : Int) - 8)) = pr := by
    apply Fin.ext; simp only [toU8]; omega
  have eg : toU8 ((qg.val : Int) + ((x : Int) - 32)) = pg := by
    apply Fin.ext; simp only [toU8]; omega
  have eb : toU8 ((qb.val : Int) + ((x : Int) - 32) + ((z : Int) - 8)) = pb := by
    apply Fin.ext; simp only [toU8]; omega
  rw [er, eg, eb]

/-- Every operation of `candidateOps` is decoded, from the same previous pixel
and the same cache, to the pixel. -/
theorem decIter_candidate (eof channels : U8) (he : History) (pre p : Px)
    (c rest out : List U8) (hc : c ∈ candidateOps he pre p) :
    decIter eof channels ⟨0, he, pre, c ++ rest, out⟩ =
      ⟨0, setSlot he (slotOf p) p, p, rest, out ++ pixBytes channels p⟩ := by
  unfold candidateOps at hc
  simp only [List.mem_append, List.mem_singleton] at hc
  rcases hc with (((hc | hc) | hc) | hc) | hc
  · split at hc
    · rename_i hit
      rw [List.mem_singleton.mp hc, List.cons_append, List.nil_append, decIter_index, hit]
    · simp at hc
  · split at hc
    · rename_i hd
      rw [List.mem_singleton.mp hc, ← encOp_diff pre p hd.1 hd.2, decIter_encOp]
    · simp at hc
  · split at hc
    · rename_i hl
      rw [List.mem_singleton.mp hc, decIter_lumaBytes eof channels he pre p rest out hl.1 hl.2]
    · simp at hc
  · split at hc
    · rename_i ha
      rw [List.mem_singleton.mp hc]
      simp only [List.cons_append, List.nil_append]
      rw [decIter_of_decOp eof channels he _ _ out _
        (decOp_rgb eof 0 he _ _ p.r p.g p.b rest out rfl)]
      simp only [← ha]
    · simp at hc
  · rw [hc]
    simp only [List.cons_append, List.nil_append]
    rw [decIter_of_decOp eof channels he _ _ out _
      (decOp_rgba eof 0 he _ _ p.r p.g p.b p.a rest out rfl)]

theorem candidate_length (he : History) (pre p : Px) (c : List U8)
    (hc : c ∈ candidateOps he pre p) :
    (c.length = 1 ∧ (he (slotOf p) = p ∨ (p.a = pre.a ∧ DiffOk pre p))) ∨
    (c.length = 2 ∧ p.a = pre.a ∧ LumaOk pre p) ∨
    (c.length = 4 ∧ p.a = pre.a) ∨ c.length = 5 := by
  unfold candidateOps at hc
  simp only [List.mem_append, List.mem_singleton] at hc
  rcases hc with (((hc | hc) | hc) | hc) | hc
  · split at hc
    · rename_i hit
      rw [List.mem_singleton.mp hc]; exact Or.inl ⟨rfl, Or.inl hit⟩
    · simp at hc
  · split at hc
    · rename_i hd
      rw [List.mem_singleton.mp hc]; exact Or.inl ⟨rfl, Or.inr hd⟩
    · simp at hc
  · split at hc
    · rename_i hl
      rw [List.mem_singleton.mp hc]; exact Or.inr (Or.inl ⟨rfl, hl⟩)
    · simp at hc
  · split at hc
    · rename_i ha
      rw [List.mem_singleton.mp hc]; exact Or.inr (Or.inr (Or.inl ⟨rfl, ha⟩))
    · simp at hc
  · rw [hc]; exact Or.inr (Or.inr (Or.inr rfl))

/-- C12, as the code has it: for every encoder state and every pixel that
differs from the previous pixel, the operation `QoiEncode` writes for the pixel
is one of `candidateOps` (the index operation of slot `hash(pixel)`, the diff and
luma operations of the unwrapped integer deltas, the RGB literal, the RGBA
literal, each under its condition), it is no longer in bytes than any other of
them, and `QoiDecode`, in the corresponding state (same previous pixel, same
cache), decodes each of them to that same pixel. -/
theorem encPixel_shortest (eof channels : U8) (last : Bool) (p : Px) (run : Nat)
    (he : History) (pre : Px) (inp out : List U8) (hne : p ≠ pre) :
    ∃ op : List U8,
      (encPixel last p ⟨run, he, pre, inp, out⟩).out = out ++ flushOps run ++ op ∧
      op ∈ candidateOps he pre p ∧
      ∀ c ∈ candidateOps he pre p, op.length ≤ c.length ∧
        ∀ rest dout : List U8, decIter eof channels ⟨0, he, pre, c ++ rest, dout⟩ =
          ⟨0, setSlot he (slotOf p) p, p, rest, dout ++ pixBytes channels p⟩ := by
  have hdec : ∀ c ∈ candidateOps he pre p, ∀ rest dout : List U8,
      decIter eof channels ⟨0, he, pre, c ++ rest, dout⟩ =
        ⟨0, setSlot he (slotOf p) p, p, rest, dout ++ pixBytes channels p⟩ :=
    fun c hc rest dout => decIter_candidate eof channels he pre p c rest dout hc
  by_cases hit : he (slotOf p) = p
  · refine ⟨[toU8 ((QOI_OP_INDEX_TAG ||| (slotOf p).val : Nat) : Int)],
      by rw [encPixel_hit last p run he pre inp out hne hit], ?_, fun c hc => ⟨?_, hdec c hc⟩⟩
    · unfold candidateOps
      simp [hit]
    · rcases candidate_length he pre p c hc with h | h | h | h
      · rw [h.1]; simp
      · rw [h.1]; simp
      · rw [h.1]; simp
      · rw [h]; simp
  · rw [encPixel_miss last p run he pre inp out hne hit]
    by_cases ha : p.a = pre.a
    · by_cases hd : DiffOk pre p
      · refine ⟨[diffByte pre p], by rw [encOp_diff pre p ha hd], ?_,
          fun c hc => ⟨?_, hdec c hc⟩⟩
        · unfold candidateOps
          simp [ha, hd]
        · rcases candidate_length he pre p c hc with h | h | h | h
          · rw [h.1]; simp
          · rw [h.1]; simp
          · rw [h.1]; simp
          · rw [h]; simp
      · by_cases hl : LumaOk pre p
        · refine ⟨lumaBytes pre p, by rw [encOp_luma pre p ha hd hl], ?_,
            fun c hc => ⟨?_, hdec c hc⟩⟩
          · unfold candidateOps
            simp [ha, hl]
          · have hlen : (lumaBytes pre p).length = 2 := rfl
            rw [hlen]
            rcases candidate_length he pre p c hc with h | h | h | h
            · rcases h.2 with h2 | h2
              · exact absurd h2 hit
              · exact absurd h2.2 hd
            · rw [h.1]
            · rw [h.1]; omega
            · rw [h]; omega
        · refine ⟨[0xfe, p.r, p.g, p.b], by rw [encOp_rgb pre p ha hd hl], ?_,
            fun c hc => ⟨?_, hdec c hc⟩⟩
          · unfold candidateOps
            simp [ha]
          · rcases candidate_length he pre p c hc with h | h | h | h
            · rcases h.2 with h2 | h2
              · exact absurd h2 hit
              · exact absurd h2.2 hd
            · exact absurd h.2.2 hl
            · rw [h.1]; simp
            · rw [h]; simp
    · refine ⟨[0xff, p.r, p.g, p.b, p.a], by rw [encOp_rgba pre p ha], ?_,
        fun c hc => ⟨?_, hdec c hc⟩⟩
      · unfold candidateOps
        simp
      · rcases candidate_length he pre p c hc with h | h | h | h
        · rcases h.2 with h2 | h2
          · exact absurd h2 hit
          · exact absurd h2.1 ha
        · exact absurd h.2.1 ha
        · exact absurd h.2 ha
        · rw [h]; simp

/-- C12 as amended, at the pixel `(11, 11, 11, 255)` after `(10, 10, 10, 255)`:
the candidates are the diff, luma, RGB and RGBA operations, and the diff byte is
written. -/
theorem encPixel_shortest_witness :
    ∃ op : List U8,
      (encPixel false ⟨11, 11, 11, 255⟩ ⟨0, zeroHistory, ⟨10, 10, 10, 255⟩, [], []⟩).out =
        [] ++ flushOps 0 ++ op ∧
      op ∈ candidateOps zeroHistory ⟨10, 10, 10, 255⟩ ⟨11, 11, 11, 255⟩ ∧
      ∀ c ∈ candidateOps zeroHistory ⟨10, 10, 10, 255⟩ ⟨11, 11, 11, 255⟩,
        op.length ≤ c.length ∧
        ∀ rest dout : List U8,
          decIter 0 4 ⟨0, zeroHistory, ⟨10, 10, 10, 255⟩, c ++ rest, dout⟩ =
            ⟨0, setSlot zeroHistory (slotOf ⟨11, 11, 11, 255⟩) ⟨11, 11, 11, 255⟩,
              ⟨11, 11, 11, 255⟩, rest, dout ++ pixBytes 4 ⟨11, 11, 11, 255⟩⟩ :=
  encPixel_shortest 0 4 false ⟨11, 11, 11, 255⟩ 0 zeroHistory ⟨10, 10, 10, 255⟩ [] []
    (by decide)

/-- C12 as stated fails in two reachable states.  After the pixel
`(255,0,0,255)` the encoder writes for `(0,0,0,255)` the four bytes
`0xfe,0,0,0`, while the decoder, from the same previous pixel and cache, decodes
the one-byte diff operation `0x7a` (`dr = +1` with 8-bit wraparound) to that
pixel.  After the pixel `(64,0,0,0)`, which takes slot 0, the encoder writes for
`(0,0,0,0)` the four bytes `0xfe,0,0,0`, while the decoder decodes the one-byte
index operation `0x01` of the still zero slot 1 to that pixel. -/
theorem encPixel_shortest_counterexample :
    ((encLoop 0 4 2 1 0 (encInit [255, 0, 0, 255, 0, 0, 0, 255] [])).pre = ⟨255, 0, 0, 255⟩ ∧
      (encPixel true ⟨0, 0, 0, 255⟩
          (encLoop 0 4 2 1 0 (encInit [255, 0, 0, 255, 0, 0, 0, 255] []))).out =
        (encLoop 0 4 2 1 0 (encInit [255, 0, 0, 255, 0, 0, 0, 255] [])).out ++
          [0xfe, 0, 0, 0] ∧
      (0x7a : U8).val &&& 0xc0 = 0x40 ∧
      (decIter 0 4 ⟨0, (encLoop 0 4 2 1 0 (encInit [255, 0, 0, 255, 0, 0, 0, 255] [])).history,
          ⟨255, 0, 0, 255⟩, [0x7a], []⟩).px = ⟨0, 0, 0, 255⟩ ∧
      (decIter 0 4 ⟨0, (encLoop 0 4 2 1 0 (encInit [255, 0, 0, 255, 0, 0, 0, 255] [])).history,
          ⟨255, 0, 0, 255⟩, [0x7a], []⟩).inp = [] ∧
      ¬ (([0xfe, 0, 0, 0] : List U8).length ≤ ([0x7a] : List U8).length)) ∧
    ((encLoop 0 4 2 1 0 (encInit [64, 0, 0, 0, 0, 0, 0, 0] [])).pre = ⟨64, 0, 0, 0⟩ ∧
      (encPixel true ⟨0, 0, 0, 0⟩
          (encLoop 0 4 2 1 0 (encInit [64, 0, 0, 0, 0, 0, 0, 0] []))).out =
        (encLoop 0 4 2 1 0 (encInit [64, 0, 0, 0, 0, 0, 0, 0] [])).out ++ [0xfe, 0, 0, 0] ∧
      (0x01 : U8).val &&& 0xc0 = 0x00 ∧
      (decIter 0 4 ⟨0, (encLoop 0 4 2 1 0 (encInit [64, 0, 0, 0, 0, 0, 0, 0] [])).history,
          ⟨64, 0, 0, 0⟩, [0x01], []⟩).px = ⟨0, 0, 0, 0⟩ ∧
      (decIter 0 4 ⟨0, (encLoop 0 4 2 1 0 (encInit [64, 0, 0, 0, 0, 0, 0, 0] [])).history,
          ⟨64, 0, 0, 0⟩, [0x01], []⟩).inp = [] ∧
      ¬ (([0xfe, 0, 0, 0] : List U8).length ≤ ([0x01] : List U8).length)) := by
  decide

/-! ## C19: the size of the output -/

theorem flushOps_length (run : Nat) : (flushOps run).length = pending run := by
  unfold flushOps pending
  split <;> rfl

theorem encOp_length (pre p : Px) :
    (encOp pre p).length ≤ 5 ∧ (p.a = pre.a → (encOp pre p).length ≤ 4) := by
  rcases encOp_cases pre p with h | h | h | h
  · rw [h.2]; exact ⟨by simp, fun ha => absurd ha h.1⟩
  · obtain ⟨t, ht, -⟩ := h.2.2
    rw [ht]; exact ⟨by simp, fun _ => by simp⟩
  · obtain ⟨b1, b2, hb, -⟩ := h.2.2.2
    rw [hb]; exact ⟨by simp, fun _ => by simp⟩
  · rw [h.2.2.2]; exact ⟨by simp, fun _ => by simp⟩

/-- One encoder step adds at most five bytes to the output and the pending run
byte taken together, and at most four when alpha is unchanged. -/
theorem encPixel_length (last : Bool) (p : Px) (s : EncState) :
    (encPixel last p s).out.length + pending (encPixel last p s).run ≤
        s.out.length + pending s.run + 5 ∧
    (p.a = s.pre.a →
      (encPixel last p s).out.length + pending (encPixel last p s).run ≤
        s.out.length + pending s.run + 4) := by
  obtain ⟨run, he, pre, inp, out⟩ := s
  have h0 : pending 0 = 0 := rfl
  have h1 : pending (run + 1) = 1 := by simp [pending]
  have h2 : pending run ≤ 1 := by unfold pending; split <;> omega
  by_cases hp : p = pre
  · by_cases hf : run + 1 = 62 ∨ last = true
    · rw [encPixel_run_flush last p run he pre inp out hp hf]
      simp only [List.length_append, List.length_singleton, h0]
      exact ⟨by omega, fun _ => by omega⟩
    · rw [encPixel_run_keep last p run he pre inp out hp hf]
      simp only [h1]
      exact ⟨by omega, fun _ => by omega⟩
  · by_cases hit : he (slotOf p) = p
    · rw [encPixel_hit last p run he pre inp out hp hit]
      simp only [List.length_append, List.length_singleton, flushOps_length, h0]
      exact ⟨by omega, fun _ => by omega⟩
    · rw [encPixel_miss last p run he pre inp out hp hit]
      simp only [List.length_append, flushOps_length, h0]
      obtain ⟨h5, h4⟩ := encOp_length pre p
      exact ⟨by omega, fun ha => by have := h4 ha; omega⟩

theorem encReadPixel_alpha (eof channels : U8) (inp : List U8) (hc : channels ≠ 4) :
    (encReadPixel eof channels inp).1.a = 255 := by
  unfold encReadPixel
  simp [hc]

theorem encPixel_pre (last : Bool) (p : Px) (s : EncState) : (encPixel last p s).pre = p := by
  obtain ⟨run, he, pre, inp, out⟩ := s
  exact (encPixel_cache last p run he pre inp out).2.2

/-- The encoder loop adds at most five bytes per pixel. -/
theorem encLoop_length (eof channels : U8) (pxnum : Int) (n : Nat) :
    ∀ (i : Nat) (s : EncState),
      (encLoop eof channels pxnum n i s).out.length +
          pending (encLoop eof channels pxnum n i s).run ≤
        s.out.length + pending s.run + 5 * n := by
  induction n with
  | zero => intro i s; simp [encLoop]
  | succ n ih =>
    intro i s
    simp only [encLoop]
    have h1 := ih (i + 1) (encIter eof channels pxnum i s)
    have h2 := (encPixel_length (decide ((i : Int) = pxnum - 1))
      (encReadPixel eof channels s.inp).1
      { s with inp := (encReadPixel eof channels s.inp).2 }).1
    have h3 : encIter eof channels pxnum i s =
        encPixel (decide ((i : Int) = pxnum - 1)) (encReadPixel eof channels s.inp).1
          { s with inp := (encReadPixel eof channels s.inp).2 } := rfl
    rw [← h3] at h2
    simp only at h2
    omega

/-- With `channels != 4` alpha is always 255, and the encoder loop adds at most
four bytes per pixel. -/
theorem encLoop_length_rgb (eof channels : U8) (pxnum : Int) (hc : channels ≠ 4) (n : Nat) :
    ∀ (i : Nat) (s : EncState), s.pre.a = 255 →
      (encLoop eof channels pxnum n i s).out.length +
          pending (encLoop eof channels pxnum n i s).run ≤
        s.out.length + pending s.run + 4 * n := by
  induction n with
  | zero => intro i s _; simp [encLoop]
  | succ n ih =>
    intro i s hs
    simp only [encLoop]
    have h3 : encIter eof channels pxnum i s =
        encPixel (decide ((i : Int) = pxnum - 1)) (encReadPixel eof channels s.inp).1
          { s with inp := (encReadPixel eof channels s.inp).2 } := rfl
    have ha := encReadPixel_alpha eof channels s.inp hc
    have hpre : (encIter eof channels pxnum i s).pre.a = 255 := by
      rw [h3, encPixel_pre]; exact ha
    have h1 := ih (i + 1) (encIter eof channels pxnum i s) hpre
    have h2 := (encPixel_length (decide ((i : Int) = pxnum - 1))
      (encReadPixel eof channels s.inp).1
      { s with inp := (encReadPixel eof channels s.inp).2 }).2 (by rw [ha]; exact hs.symm)
    rw [← h3] at h2
    simp only at h2
    omega

/-! ## C18: the operations of the stream and the pixels they stand for -/

theorem parseFrom_skip (data rest : List U8) :
    parseFrom data.length (data ++ rest) = parseFrom 0 rest := by
  induction data with
  | nil => rfl
  | cons d data ih =>
    simp only [List.length_cons, List.cons_append, parseFrom]
    exact ih

theorem complete_nil : Complete [] := by
  intro rest
  simp [parseOps, parseFrom]

theorem complete_append (b1 b2 : List U8) (h1 : Complete b1) (h2 : Complete b2) :
    Complete (b1 ++ b2) ∧ parseOps (b1 ++ b2) = parseOps b1 ++ parseOps b2 := by
  have h12 : parseOps (b1 ++ b2) = parseOps b1 ++ parseOps b2 := h1 b2
  refine ⟨?_, h12⟩
  intro rest
  rw [List.append_assoc, h1 (b2 ++ rest), h2 rest, h12, List.append_assoc]

/-- The bytes of one operation, a tag followed by the bytes its kind takes, are
parsed to that operation. -/
theorem complete_op (t : U8) (data : List U8) (hsize : data.length + 1 = opSize t) :
    Complete (t :: data) ∧ parseOps (t :: data) = [opOf t] := by
  have hlen : opSize t - 1 = data.length := by omega
  have key : ∀ rest : List U8, parseOps (t :: data ++ rest) = opOf t :: parseOps rest := by
    intro rest
    simp only [parseOps, List.cons_append, parseFrom]
    rw [hlen]
    exact congrArg _ (parseFrom_skip data rest)
  have hone : parseOps (t :: data) = [opOf t] := by
    have := key []
    rw [List.append_nil] at this
    rw [this]
    rfl
  refine ⟨?_, hone⟩
  intro rest
  rw [key rest, hone]
  rfl

set_option maxRecDepth 100000 in
/-- The top two bits of a byte by its range. -/
theorem tag_class : ∀ n < 256, (n < 64 → n &&& 192 = 0) ∧ (64 ≤ n → n < 128 → n &&& 192 = 64) ∧
    (128 ≤ n → n < 192 → n &&& 192 = 128) ∧ (192 ≤ n → n &&& 192 = 192) := by
  decide

/-- A byte below `0xc0` starts an operation that is not a run, of one byte, or
of two bytes when its top bits are `10`. -/
theorem opOf_low (t : U8) (ht : t.val < 192) :
    opOf t = Op.other t ∧ opSize t = (if 128 ≤ t.val then 2 else 1) := by
  obtain ⟨c0, c1, c2, -⟩ := tag_class t.val t.isLt
  have hnr : ¬ isRunTag t := by
    unfold isRunTag
    intro h
    have h3 : t.val &&& 192 = 192 := h.2.2
    by_cases h64 : t.val < 64
    · have := c0 h64; omega
    · by_cases h128 : t.val < 128
      · have := c1 (by omega) h128; omega
      · have := c2 (by omega) ht; omega
  refine ⟨by unfold opOf; rw [if_neg hnr], ?_⟩
  unfold opSize
  rw [if_neg (show ¬ t.val = QOI_OP_RGB_TAG by show ¬ t.val = 254; omega),
    if_neg (show ¬ t.val = QOI_OP_RGBA_TAG by show ¬ t.val = 255; omega)]
  by_cases h128 : 128 ≤ t.val
  · rw [if_pos (c2 h128 ht), if_pos h128]
  · rw [if_neg h128, if_neg]
    show ¬ t.val &&& 192 = 128
    by_cases h64 : t.val < 64
    · have := c0 h64; omega
    · have := c1 (by omega) (by omega); omega

theorem runByte_op (r : Nat) (h1 : 1 ≤ r) (h2 : r ≤ 62) :
    opOf (runByte r) = Op.run r ∧ opSize (runByte r) = 1 := by
  obtain ⟨m, hm⟩ : ∃ m, r = m + 1 := ⟨r - 1, by omega⟩
  subst hm
  obtain ⟨e1, e2, e3, e4, -⟩ := runByte_fields m (by omega)
  constructor
  · unfold opOf
    rw [if_pos (show isRunTag (runByte (m + 1)) from ⟨e1, e2, e3⟩)]
    show Op.run (((runByte (m + 1)).val &&& 63) + 1) = Op.run (m + 1)
    rw [e4]
  · unfold opSize
    rw [if_neg e1, if_neg e2, if_neg]
    show ¬ (runByte (m + 1)).val &&& 192 = 128
    rw [e3]; decide

/-- The operation written for a pixel that is not a cache hit has as many bytes
as its tag announces, is not a run, and is not an RGBA literal when alpha is
unchanged. -/
theorem encOp_op (pre p : Px) :
    ∃ (t : U8) (data : List U8), encOp pre p = t :: data ∧ data.length + 1 = opSize t ∧
      opOf t = Op.other t ∧ (p.a = pre.a → t.val ≠ 255) := by
  rcases encOp_cases pre p with h | h | h | h
  · exact ⟨255, _, h.2, rfl, by decide, fun ha => absurd ha h.1⟩
  · obtain ⟨t, ht, h64, h128⟩ := h.2.2
    obtain ⟨e1, e2⟩ := opOf_low t (by omega)
    refine ⟨t, [], ht, ?_, e1, fun _ => by omega⟩
    rw [e2, if_neg (by omega)]; rfl
  · obtain ⟨b1, b2, hb, h128, h192⟩ := h.2.2.2
    obtain ⟨e1, e2⟩ := opOf_low b1 h192
    refine ⟨b1, [b2], hb, ?_, e1, fun _ => by omega⟩
    rw [e2, if_pos h128]; rfl
  · exact ⟨254, _, h.2.2.2, rfl, by decide, fun _ => by decide⟩

/-- The byte of a pending run, if any, followed by one operation that is not a
run: how it is parsed. -/
theorem flush_then_op (run : Nat) (hrun : run < 62) (t : U8) (data : List U8)
    (hsize : data.length + 1 = opSize t) (hother : opOf t = Op.other t) :
    Complete (flushOps run ++ t :: data) ∧
    parseOps (flushOps run ++ t :: data) =
      (if run > 0 then [Op.run run] else []) ++ [Op.other t] := by
  obtain ⟨c1, c2⟩ := complete_op t data hsize
  rw [hother] at c2
  unfold flushOps
  by_cases hr : run > 0
  · obtain ⟨r1, r2⟩ := runByte_op run (by omega) (by omega)
    obtain ⟨d1, d2⟩ := complete_op (runByte run) [] (by rw [r2]; rfl)
    rw [r1] at d2
    obtain ⟨e1, e2⟩ := complete_append _ _ d1 c1
    rw [if_pos hr, if_pos hr]
    exact ⟨e1, by rw [e2, d2, c2]⟩
  · rw [if_neg hr, if_neg hr]
    exact ⟨c1, by rw [List.nil_append, c2]; rfl⟩

theorem nonRuns_append (a b : List Op) : nonRuns (a ++ b) = nonRuns a + nonRuns b := by
  induction a with
  | nil => simp [nonRuns]
  | cons x a ih =>
    cases x with
    | run n => exact ih
    | other t =>
      show nonRuns (a ++ b) + 1 = nonRuns a + 1 + nonRuns b
      omega

theorem runSum_append (a b : List Op) : runSum (a ++ b) = runSum a + runSum b := by
  induction a with
  | nil => simp [runSum]
  | cons x a ih =>
    cases x with
    | run n =>
      show n + runSum (a ++ b) = n + runSum a + runSum b
      omega
    | other t => exact ih

/-- The operations of a step that writes an operation which is not a run: the
pending run, if any, and the operation. -/
theorem ops_flush_other (run : Nat) (t : U8) :
    nonRuns ((if run > 0 then [Op.run run] else []) ++ [Op.other t]) +
      runSum ((if run > 0 then [Op.run run] else []) ++ [Op.other t]) = run + 1 ∧
    List.Chain' RunThenOther ((if run > 0 then [Op.run run] else []) ++ [Op.other t]) ∧
    (∀ a ∈ ((if run > 0 then [Op.run run] else []) ++ [Op.other t]).getLast?,
      ∀ n : Nat, a = Op.run n → 62 ≤ n) ∧
    (∀ u : U8, Op.other u ∈ ((if run > 0 then [Op.run run] else []) ++ [Op.other t]) →
      u = t) := by
  by_cases hr : run > 0
  · simp only [if_pos hr, List.singleton_append]
    refine ⟨by simp only [nonRuns, runSum]; omega, ?_, ?_, ?_⟩
    · refine List.chain'_pair.mpr ?_
      intro n _ _
      exact ⟨t, rfl⟩
    · intro a ha n hn
      simp at ha
      rw [← ha] at hn
      exact absurd hn (by simp)
    · intro u hu
      simp at hu
      exact hu
  · simp only [if_neg hr, List.nil_append]
    have h0 : run = 0 := by omega
    refine ⟨by simp only [nonRuns, runSum]; omega, List.chain'_singleton _, ?_, ?_⟩
    · intro a ha n hn
      simp at ha
      rw [← ha] at hn
      exact absurd hn (by simp)
    · intro u hu
      simp at hu
      exact hu

/-- What one encoder step adds to the stream, parsed. -/
theorem encPixel_trace (last : Bool) (p : Px) (s : EncState) (hs : s.run < 62) :
    ∃ bytes : List U8,
      (encPixel last p s).out = s.out ++ bytes ∧ Complete bytes ∧
      nonRuns (parseOps bytes) + runSum (parseOps bytes) + (encPixel last p s).run =
        s.run + 1 ∧
      List.Chain' RunThenOther (parseOps bytes) ∧
      (last = false → ∀ a ∈ (parseOps bytes).getLast?, ∀ n : Nat, a = Op.run n → 62 ≤ n) ∧
      (last = true → (encPixel last p s).run = 0) ∧
      (p.a = s.pre.a → ∀ t : U8, Op.other t ∈ parseOps bytes → t.val ≠ 255) := by
  obtain ⟨run, he, pre, inp, out⟩ := s
  simp only at hs
  have hnil : parseOps [] = [] := rfl
  by_cases hp : p = pre
  · by_cases hf : run + 1 = 62 ∨ last = true
    · rw [encPixel_run_flush last p run he pre inp out hp hf]
      obtain ⟨r1, r2⟩ := runByte_op (run + 1) (by omega) (by omega)
      obtain ⟨d1, d2⟩ := complete_op (runByte (run + 1)) [] (by rw [r2]; rfl)
      rw [r1] at d2
      refine ⟨[runByte (run + 1)], rfl, d1, ?_, ?_, ?_, fun _ => rfl, ?_⟩
      · rw [d2]; simp only [nonRuns, runSum]; omega
      · rw [d2]; exact List.chain'_singleton _
      · intro hl a ha n hn
        rw [d2] at ha
        simp at ha
        rw [← ha] at hn
        have hn' : run + 1 = n := Op.run.inj hn
        rcases hf with hf | hf
        · omega
        · rw [hl] at hf; exact absurd hf (by simp)
      · intro _ t ht
        rw [d2] at ht
        simp at ht
    · rw [encPixel_run_keep last p run he pre inp out hp hf]
      refine ⟨[], by simp, complete_nil, ?_, ?_, ?_, ?_, ?_⟩
      · rw [hnil]; simp only [nonRuns, runSum]; omega
      · rw [hnil]; exact List.chain'_nil
      · intro _ a ha; rw [hnil] at ha; simp at ha
      · intro hl; exact absurd (Or.inr hl) hf
      · intro _ t ht; rw [hnil] at ht; simp at ht
  · have build : ∀ (t : U8) (data : List U8), data.length + 1 = opSize t →
        opOf t = Op.other t → (p.a = pre.a → t.val ≠ 255) →
        ∃ bytes : List U8,
          out ++ flushOps run ++ t :: data = out ++ bytes ∧ Complete bytes ∧
          nonRuns (parseOps bytes) + runSum (parseOps bytes) + 0 = run + 1 ∧
          List.Chain' RunThenOther (parseOps bytes) ∧
          (last = false → ∀ a ∈ (parseOps bytes).getLast?, ∀ n : Nat,
            a = Op.run n → 62 ≤ n) ∧
          (last = true → (0 : Nat) = 0) ∧
          (p.a = pre.a → ∀ u : U8, Op.other u ∈ parseOps bytes → u.val ≠ 255) := by
      intro t data hsize hother h255
      obtain ⟨f1, f2⟩ := flush_then_op run hs t data hsize hother
      obtain ⟨o1, o2, o3, o4⟩ := ops_flush_other run t
      refine ⟨flushOps run ++ t :: data, by rw [List.append_assoc], f1, ?_, ?_, ?_,
        fun _ => rfl, ?_⟩
      · rw [f2]; omega
      · rw [f2]; exact o2
      · intro _; rw [f2]; exact o3
      · intro ha u hu
        rw [f2] at hu
        rw [o4 u hu]
        exact h255 ha
    by_cases hit : he (slotOf p) = p
    · rw [encPixel_hit last p run he pre inp out hp hit]
      obtain ⟨-, -, -, -, h5⟩ := indexByte_fields (slotOf p).val (slotOf p).isLt
      have hlt := (slotOf p).isLt
      obtain ⟨e1, e2⟩ := opOf_low (toU8 ((QOI_OP_INDEX_TAG ||| (slotOf p).val : Nat) : Int))
        (by rw [h5]; omega)
      exact build _ [] (by rw [e2, if_neg (by rw [h5]; omega)]; rfl) e1
        (fun _ => by rw [h5]; omega)
    · rw [encPixel_miss last p run he pre inp out hp hit]
      obtain ⟨t, data, hop, hsize, hother, h255⟩ := encOp_op pre p
      rw [hop]
      exact build t data hsize hother h255

/-- What the encoder loop adds to the stream over its last `n` iterations,
parsed: the operations stand for the pixels of the pending run and the `n`
pixels read; a run of less than 62 pixels is followed by an operation that is
not a run; no run is left pending at the end. -/
theorem encLoop_trace (eof channels : U8) (pxnum : Int) (n : Nat) :
    ∀ (i : Nat) (s : EncState), s.run < 62 → (i : Int) + n = pxnum →
      ∃ bytes : List U8,
        (encLoop eof channels pxnum n i s).out = s.out ++ bytes ∧ Complete bytes ∧
        nonRuns (parseOps bytes) + runSum (parseOps bytes) +
          (encLoop eof channels pxnum n i s).run = s.run + n ∧
        List.Chain' RunThenOther (parseOps bytes) ∧
        (0 < n → (encLoop eof channels pxnum n i s).run = 0) ∧
        (channels ≠ 4 → s.pre.a = 255 →
          ∀ t : U8, Op.other t ∈ parseOps bytes → t.val ≠ 255) := by
  induction n with
  | zero =>
    intro i s _ _
    exact ⟨[], by simp [encLoop], complete_nil, by simp [encLoop, parseOps, parseFrom, nonRuns, runSum],
      List.chain'_nil, fun h => absurd h (by omega), fun _ _ t ht => by
        simp [parseOps, parseFrom] at ht⟩
  | succ n ih =>
    intro i s hs hi
    have h3 : encIter eof channels pxnum i s =
        encPixel (decide ((i : Int) = pxnum - 1)) (encReadPixel eof channels s.inp).1
          { s with inp := (encReadPixel eof channels s.inp).2 } := rfl
    obtain ⟨b1, ho1, hc1, hn1, hch1, hlast1, hrun1, htag1⟩ :=
      encPixel_trace (decide ((i : Int) = pxnum - 1)) (encReadPixel eof channels s.inp).1
        { s with inp := (encReadPixel eof channels s.inp).2 } hs
    rw [← h3] at ho1 hn1 hrun1
    simp only at ho1 hn1 htag1
    have hs1 : (encIter eof channels pxnum i s).run < 62 := by
      rw [h3]; exact encPixel_run_lt _ _ _ hs
    have hpre1 : (encIter eof channels pxnum i s).pre = (encReadPixel eof channels s.inp).1 := by
      rw [h3]; exact encPixel_pre _ _ _
    simp only [encLoop]
    by_cases hn0 : n = 0
    · subst hn0
      have hl : decide ((i : Int) = pxnum - 1) = true := by
        simp only [decide_eq_true_eq]
        push_cast at hi
        omega
      simp only [encLoop]
      refine ⟨b1, ho1, hc1, ?_, hch1, fun _ => hrun1 hl, ?_⟩
      · omega
      · intro hc hpa t ht
        exact htag1 (by rw [encReadPixel_alpha eof channels s.inp hc, hpa]) t ht
    · have hl : decide ((i : Int) = pxnum - 1) = false := by
        simp only [decide_eq_false_iff_not]
        push_cast at hi
        omega
      obtain ⟨b2, ho2, hc2, hn2, hch2, hlast2, htag2⟩ :=
        ih (i + 1) (encIter eof channels pxnum i s) hs1 (by push_cast at hi ⊢; omega)
      obtain ⟨hc12, hp12⟩ := complete_append b1 b2 hc1 hc2
      refine ⟨b1 ++ b2, by rw [ho2, ho1, List.append_assoc], hc12, ?_, ?_,
        fun _ => hlast2 (by omega), ?_⟩
      · rw [hp12, nonRuns_append, runSum_append]
        omega
      · rw [hp12]
        refine List.Chain'.append hch1 hch2 ?_
        intro a ha b _ m hm hm62
        have := hlast1 hl a ha m hm
        omega
      · intro hc hpa t ht
        rw [hp12] at ht
        have ha255 := encReadPixel_alpha eof channels s.inp hc
        rcases List.mem_append.mp ht with ht | ht
        · exact htag1 (by rw [ha255, hpa]) t ht
        · exact htag2 hc (by rw [hpre1]; exact ha255) t ht

/-- C18: for every input with `width * height < 2^31`, parsing the operation
stream of the encoder gives a sequence of operations in which the number of
operations that are not runs plus the sum of the run lengths (low six bits plus
one of each run byte) equals `width * height`, and every run operation of length
below 62 is the last operation or is immediately followed by an operation that is
not a run. -/
theorem opStream_accounting (eof : U8) (width height : U32) (channels : U8)
    (inp : List U8) (hsize : width.val * height.val < 2147483648) :
    nonRuns (parseOps (opStream eof width height channels inp)) +
      runSum (parseOps (opStream eof width height channels inp)) = width.val * height.val ∧
    List.Chain' RunThenOther (parseOps (opStream eof width height channels inp)) := by
  have hpx := pxNum_of_lt width height hsize
  have hn : (pxNum width height).toNat = width.val * height.val := by
    rw [hpx, Int.toNat_ofNat]
  obtain ⟨bytes, ho, -, hcount, hchain, hlast, -⟩ :=
    encLoop_trace eof channels (pxNum width height) (width.val * height.val) 0
      (encInit inp []) (Nat.zero_lt_succ 61) (by rw [hpx]; simp)
  have hops : opStream eof width height channels inp = bytes := by
    unfold opStream
    rw [hn, ho]
    rfl
  rw [hops]
  refine ⟨?_, hchain⟩
  by_cases h0 : width.val * height.val = 0
  · rw [h0] at hcount ⊢
    have : (encInit inp []).run = 0 := rfl
    omega
  · have := hlast (by omega)
    have h1 : (encInit inp []).run = 0 := rfl
    omega

/-- C18, at a 70×1 RGBA image given by a source of only eight bytes. -/
theorem opStream_accounting_witness :
    nonRuns (parseOps (opStream 0 70 1 4 [1, 2, 3, 4, 1, 2, 3, 4])) +
      runSum (parseOps (opStream 0 70 1 4 [1, 2, 3, 4, 1, 2, 3, 4])) =
        (70 : U32).val * (1 : U32).val ∧
    List.Chain' RunThenOther (parseOps (opStream 0 70 1 4 [1, 2, 3, 4, 1, 2, 3, 4])) :=
  opStream_accounting 0 70 1 4 [1, 2, 3, 4, 1, 2, 3, 4] (by decide)

/-- C19: for every input with `N = width * height < 2^31` pixels the output of
`QoiEncode` has at most `22 + 5 N` bytes, and when `channels` is not 4 it has at
most `22 + 4 N` bytes and no operation of the stream has the RGBA literal tag
`0xff`. -/
theorem QoiEncode_size (eof : U8) (width height : U32) (channels colorspace : U8)
    (inp : List U8) (hsize : width.val * height.val < 2147483648) :
    (QoiEncode eof width height channels colorspace inp).out.length ≤
      22 + 5 * (width.val * height.val) ∧
    (channels ≠ 4 →
      (QoiEncode eof width height channels colorspace inp).out.length ≤
        22 + 4 * (width.val * height.val) ∧
      ∀ t : U8, Op.other t ∈ parseOps (opStream eof width height channels inp) →
        t.val ≠ 0xff) := by
  have hpx := pxNum_of_lt width height hsize
  have hn : (pxNum width height).toNat = width.val * height.val := by
    rw [hpx, Int.toNat_ofNat]
  have hlen : (QoiEncode eof width height channels colorspace inp).out.length =
      22 + (opStream eof width height channels inp).length := by
    rw [QoiEncode_out]
    simp only [List.length_append, List.length_cons, List.length_nil, be32]
    omega
  have h0 : pending (encInit inp []).run = 0 := rfl
  have hout0 : (encInit inp []).out.length = 0 := rfl
  refine ⟨?_, fun hc => ⟨?_, ?_⟩⟩
  · have := encLoop_length eof channels (pxNum width height) (width.val * height.val) 0
      (encInit inp [])
    rw [hlen]
    unfold opStream
    rw [hn]
    omega
  · have := encLoop_length_rgb eof channels (pxNum width height) hc
      (width.val * height.val) 0 (encInit inp []) rfl
    rw [hlen]
    unfold opStream
    rw [hn]
    omega
  · obtain ⟨bytes, ho, -, -, -, -, htag⟩ :=
      encLoop_trace eof channels (pxNum width height) (width.val * height.val) 0
        (encInit inp []) (Nat.zero_lt_succ 61) (by rw [hpx]; simp)
    have hops : opStream eof width height channels inp = bytes := by
      unfold opStream
      rw [hn, ho]
      rfl
    rw [hops]
    exact htag hc rfl

/-- C19, at a 2×2 RGB image of four different pixels. -/
theorem QoiEncode_size_witness :
    (QoiEncode 0 2 2 3 0 [0, 0, 0, 50, 50, 50, 100, 100, 100, 200, 200, 200]).out.length ≤
      22 + 5 * ((2 : U32).val * (2 : U32).val) ∧
    ((3 : U8) ≠ 4 →
      (QoiEncode 0 2 2 3 0 [0, 0, 0, 50, 50, 50, 100, 100, 100, 200, 200, 200]).out.length ≤
        22 + 4 * ((2 : U32).val * (2 : U32).val) ∧
      ∀ t : U8, Op.other t ∈ parseOps (opStream 0 2 2 3
          [0, 0, 0, 50, 50, 50, 100, 100, 100, 200, 200, 200]) → t.val ≠ 0xff) :=
  QoiEncode_size 0 2 2 3 0 [0, 0, 0, 50, 50, 50, 100, 100, 100, 200, 200, 200] (by decide)

/-! ## C17: the two caches after every prefix -/

theorem encLoop_add (eof channels : U8) (pxnum : Int) (a b : Nat) :
    ∀ (i : Nat) (s : EncState),
      encLoop eof channels pxnum (a + b) i s =
        encLoop eof channels pxnum b (i + a) (encLoop eof channels pxnum a i s) := by
  induction a with
  | zero => intro i s; simp [encLoop]
  | succ a ih =>
    intro i s
    rw [Nat.succ_add]
    simp only [encLoop]
    rw [ih (i + 1)]
    congr 1
    omega

/-- The encoder loop only appends to the sink, state form. -/
theorem encLoop_out_state (eof channels : U8) (pxnum : Int) (n i : Nat) (s : EncState) :
    (encLoop eof channels pxnum n i s).out =
      s.out ++ (encLoop eof channels pxnum n i { s with out := [] }).out := by
  obtain ⟨run, he, pre, inp, out⟩ := s
  rw [encLoop_out]

/-- With a run pending and at least one more pixel to come, the next byte the
encoder loop writes is the run byte of a run at least as long as the pending
run. -/
theorem encLoop_pending_head (eof channels : U8) (pxnum : Int) (m : Nat) :
    ∀ (i : Nat) (s : EncState), 0 < s.run → s.run < 62 → (i : Int) + m = pxnum → 0 < m →
      ∃ (L : Nat) (more : List U8), s.run ≤ L ∧ L ≤ 62 ∧
        (encLoop eof channels pxnum m i s).out = s.out ++ runByte L :: more := by
  induction m with
  | zero => intro i s _ _ _ hm; omega
  | succ m ih =>
    intro i s hr0 hr62 hi _
    obtain ⟨run, he, pre, inp, out⟩ := s
    simp only at hr0 hr62
    simp only [encLoop]
    have h3 : encIter eof channels pxnum i ⟨run, he, pre, inp, out⟩ =
        encPixel (decide ((i : Int) = pxnum - 1)) (encReadPixel eof channels inp).1
          ⟨run, he, pre, (encReadPixel eof channels inp).2, out⟩ := rfl
    rw [h3]
    generalize (encReadPixel eof channels inp).1 = p
    generalize (encReadPixel eof channels inp).2 = inp1
    by_cases hp : p = pre
    · by_cases hf : run + 1 = 62 ∨ decide ((i : Int) = pxnum - 1) = true
      · rw [encPixel_run_flush _ p run he pre inp1 out hp hf, encLoop_out_state]
        exact ⟨run + 1, (encLoop eof channels pxnum m (i + 1) ⟨0, he, pre, inp1, []⟩).out,
          by omega, by omega, by simp⟩
      · rw [encPixel_run_keep _ p run he pre inp1 out hp hf]
        have hm : 0 < m := by
          by_contra hm0
          apply hf
          right
          simp only [decide_eq_true_eq]
          push_cast at hi
          omega
        obtain ⟨L, more, h1, h2, h3⟩ := ih (i + 1) ⟨run + 1, he, pre, inp1, out⟩
          (by simp) (by simp only; omega) (by push_cast at hi ⊢; omega) hm
        exact ⟨L, more, by simp only at h1; omega, h2, h3⟩
    · have hfl : flushOps run = [runByte run] := by
        unfold flushOps; rw [if_pos hr0]
      by_cases hit : he (slotOf p) = p
      · rw [encPixel_hit _ p run he pre inp1 out hp hit, encLoop_out_state, hfl]
        exact ⟨run, toU8 ((QOI_OP_INDEX_TAG ||| (slotOf p).val : Nat) : Int) ::
            (encLoop eof channels pxnum m (i + 1) ⟨0, he, p, inp1, []⟩).out,
          le_refl _, by omega, by simp⟩
      · rw [encPixel_miss _ p run he pre inp1 out hp hit, encLoop_out_state, hfl]
        exact ⟨run, encOp pre p ++
            (encLoop eof channels pxnum m (i + 1)
              ⟨0, setSlot he (slotOf p) p, p, inp1, []⟩).out,
          le_refl _, by omega, by simp⟩

/-- While `run >= j` the decoder repeats the pixel registers `j` times without
reading and without touching the cache. -/
theorem decLoop_countdown (eof channels : U8) (j : Nat) :
    ∀ (m : Nat) (h : History) (px : Px) (inp out : List U8), j ≤ m →
      decLoop eof channels j ⟨m, h, px, inp, out⟩ =
        ⟨m - j, h, px, inp, out ++ (List.replicate j px).flatMap (pixBytes channels)⟩ := by
  induction j with
  | zero => intro m h px inp out _; simp [decLoop]
  | succ j ih =>
    intro m h px inp out hm
    simp only [decLoop]
    rw [decIter_eq, if_pos (by simp only; omega)]
    simp only
    rw [ih (m - 1) h px inp _ (by omega)]
    simp only [List.replicate_succ, List.flatMap_cons, List.append_assoc]
    congr 1
    omega

/-- The first `r` pixels of a run of `L` pixels, `1 <= r <= L <= 62`: the decoder
has read the run byte and written the pixel registers into the cache. -/
theorem decLoop_run_partial (eof channels : U8) (r L : Nat) (hr : 1 ≤ r) (hrL : r ≤ L)
    (hL : L ≤ 62) (h : History) (px : Px) (rest out : List U8) :
    decLoop eof channels r ⟨0, h, px, runByte L :: rest, out⟩ =
      ⟨L - r, setSlot h (slotOf px) px, px, rest,
        out ++ (List.replicate r px).flatMap (pixBytes channels)⟩ := by
  obtain ⟨j, hj⟩ : ∃ j, r = j + 1 := ⟨r - 1, by omega⟩
  obtain ⟨m, hm⟩ : ∃ m, L = m + 1 := ⟨L - 1, by omega⟩
  subst hj hm
  obtain ⟨h1, h2, h3, h4, -⟩ := runByte_fields m (by omega)
  simp only [decLoop]
  rw [decIter_of_decOp eof channels h px _ out _ (decOp_run eof 0 h px _ rest out h1 h2 h3), h4]
  simp only []
  rw [decLoop_countdown eof channels j m _ px rest _ (by omega)]
  simp only [List.replicate_succ, List.flatMap_cons, List.append_assoc]
  congr 1
  omega

/-- After the encoder has processed `k` pixels and the decoder has reconstructed
`k` pixels from the whole operation stream, the two caches are related by
`CacheRel`. -/
theorem cacheRel_prefix (eofE eofD : U8) (width height : U32) (channels : U8)
    (ps : List Px) (erest drest : List U8) (k : Nat)
    (hsize : width.val * height.val < 2147483648)
    (hlen : ps.length = width.val * height.val)
    (hps : channels ≠ 4 → ∀ p ∈ ps, p.a = 255) (hk : k ≤ ps.length) :
    CacheRel
      (encLoop eofE channels (pxNum width height) k 0
        (encInit (ps.flatMap (pixBytes channels) ++ erest) [])).history
      (decLoop eofD channels k
        (decInit (opStream eofE width height channels
          (ps.flatMap (pixBytes channels) ++ erest) ++ drest) [])).history := by
  have hpx := pxNum_of_lt width height hsize
  have hN : (pxNum width height).toNat = ps.length := by rw [hpx, hlen, Int.toNat_ofNat]
  have hpxN : pxNum width height = (ps.length : Int) := by rw [hpx, hlen]
  have htk : (ps.take k).length = k := by rw [List.length_take]; omega
  have hps1 : channels ≠ 4 → ∀ p ∈ ps.take k, p.a = 255 :=
    fun hc p hp => hps hc p (List.mem_of_mem_take hp)
  have hinp : ps.flatMap (pixBytes channels) ++ erest =
      (ps.take k).flatMap (pixBytes channels) ++
        ((ps.drop k).flatMap (pixBytes channels) ++ erest) := by
    rw [← List.append_assoc, ← List.flatMap_append, List.take_append_drop]
  obtain ⟨hsim, -, hlast⟩ := sim_loop eofE eofD channels (pxNum width height) (ps.take k)
    hps1 0 0 zeroHistory ⟨0, 0, 0, 255⟩ ((ps.drop k).flatMap (pixBytes channels) ++ erest) []
    zeroHistory (Nat.zero_lt_succ 61) (cacheRel_refl _) (Or.inr ⟨rfl, rfl⟩)
  rw [htk, ← hinp] at hsim hlast
  have hinit : (⟨0, zeroHistory, ⟨0, 0, 0, 255⟩, ps.flatMap (pixBytes channels) ++ erest, []⟩
      : EncState) = encInit (ps.flatMap (pixBytes channels) ++ erest) [] := rfl
  rw [hinit] at hsim hlast
  obtain ⟨ops1, n1, dec1, hd1, ho, hr62, hn, -, hrel, hpre, hloop⟩ := hsim
  have hfull : opStream eofE width height channels (ps.flatMap (pixBytes channels) ++ erest) =
      (encLoop eofE channels (pxNum width height) (ps.length - k) k
        (encLoop eofE channels (pxNum width height) k 0
          (encInit (ps.flatMap (pixBytes channels) ++ erest) []))).out := by
    unfold opStream
    rw [hN]
    have : ps.length = k + (ps.length - k) := by omega
    conv_lhs => rw [this]
    rw [encLoop_add, Nat.zero_add]
  generalize encLoop eofE channels (pxNum width height) k 0
    (encInit (ps.flatMap (pixBytes channels) ++ erest) []) = Ek at *
  obtain ⟨run, he, pre, einp, eout⟩ := Ek
  simp only [encInit, List.nil_append] at ho hr62 hn hrel hpre hloop hlast ⊢
  subst ho
  have hkn : k = n1 + run := by omega
  have hdinit : decInit (opStream eofE width height channels
      (ps.flatMap (pixBytes channels) ++ erest) ++ drest) [] =
      ⟨0, zeroHistory, ⟨0, 0, 0, 255⟩, opStream eofE width height channels
        (ps.flatMap (pixBytes channels) ++ erest) ++ drest, []⟩ := rfl
  rw [hdinit]
  by_cases hr0 : run = 0
  · subst hr0
    rw [hfull, encLoop_out_state]
    simp only [List.append_assoc]
    rw [hkn, Nat.add_zero, hloop]
    exact hrel
  · have hklt : k < ps.length := by
      by_contra hge
      have hkeq : k = ps.length := by omega
      have hne : ps.take k ≠ [] := by
        intro h
        have := congrArg List.length h
        rw [htk] at this
        simp only [List.length_nil] at this
        omega
      have := hlast (by rw [hpxN, hkeq]; simp) hne
      exact hr0 this
    obtain ⟨L, more, hL1, hL2, hout⟩ := encLoop_pending_head eofE channels (pxNum width height)
      (ps.length - k) k ⟨run, he, pre, einp, eout⟩ (by simp only; omega) hr62
      (by rw [hpxN]; omega) (by omega)
    simp only at hL1 hout
    rw [hfull, hout]
    simp only [List.append_assoc, List.cons_append]
    rw [hkn, decLoop_add, hloop,
      decLoop_run_partial eofD channels run L (by omega) hL1 hL2]
    exact cacheRel_setSlot_pre hrel hpre

/-- C17: for every pixel sequence and every prefix length `k`, after the encoder
has processed `k` pixels and the decoder has reconstructed `k` pixels from the
encoder's operation stream, every cache slot `i` holds the same pixel in both, or
`i = 53 = hash(0,0,0,255)` and the encoder slot is `(0,0,0,0)` while the decoder
slot is `(0,0,0,255)`; consequently a pixel that the encoder finds in its slot,
so that it writes an index operation, is found by the decoder in the same
slot. -/
theorem cache_agreement (eofE eofD : U8) (width height : U32) (channels : U8)
    (ps : List Px) (erest drest : List U8) (k : Nat)
    (hsize : width.val * height.val < 2147483648)
    (hlen : ps.length = width.val * height.val)
    (hps : channels ≠ 4 → ∀ p ∈ ps, p.a = 255) (hk : k ≤ ps.length) :
    (∀ i : Fin 64,
      (encLoop eofE channels (pxNum width height) k 0
          (encInit (ps.flatMap (pixBytes channels) ++ erest) [])).history i =
        (decLoop eofD channels k
          (decInit (opStream eofE width height channels
            (ps.flatMap (pixBytes channels) ++ erest) ++ drest) [])).history i ∨
      (i = 53 ∧
        (encLoop eofE channels (pxNum width height) k 0
          (encInit (ps.flatMap (pixBytes channels) ++ erest) [])).history i = ⟨0, 0, 0, 0⟩ ∧
        (decLoop eofD channels k
          (decInit (opStream eofE width height channels
            (ps.flatMap (pixBytes channels) ++ erest) ++ drest) [])).history i =
              ⟨0, 0, 0, 255⟩)) ∧
    QoiColorHash 0 0 0 255 = 53 ∧
    (∀ p : Px,
      (encLoop eofE channels (pxNum width height) k 0
          (encInit (ps.flatMap (pixBytes channels) ++ erest) [])).history
            (QoiColorHash p.r p.g p.b p.a) = p →
      (decLoop eofD channels k
          (decInit (opStream eofE width height channels
            (ps.flatMap (pixBytes channels) ++ erest) ++ drest) [])).history
              (QoiColorHash p.r p.g p.b p.a) = p) := by
  have hrel := cacheRel_prefix eofE eofD width height channels ps erest drest k hsize hlen
    hps hk
  exact ⟨hrel, by decide, fun p hit => cacheRel_lookup hrel hit⟩

/-- C17, at the 3×1 RGBA image `(0,0,0,255), (0,0,0,255), (9,9,9,255)` after two
pixels, where the decoder is inside the run of the initial pixel. -/
theorem cache_agreement_witness :
    (∀ i : Fin 64,
      (encLoop 0 4 (pxNum 3 1) 2 0
          (encInit (([⟨0, 0, 0, 255⟩, ⟨0, 0, 0, 255⟩, ⟨9, 9, 9, 255⟩] : List Px).flatMap
            (pixBytes 4) ++ []) [])).history i =
        (decLoop 0 4 2
          (decInit (opStream 0 3 1 4
            (([⟨0, 0, 0, 255⟩, ⟨0, 0, 0, 255⟩, ⟨9, 9, 9, 255⟩] : List Px).flatMap
              (pixBytes 4) ++ []) ++ [0, 0, 0, 0, 0, 0, 0, 1]) [])).history i ∨
      (i = 53 ∧
        (encLoop 0 4 (pxNum 3 1) 2 0
          (encInit (([⟨0, 0, 0, 255⟩, ⟨0, 0, 0, 255⟩, ⟨9, 9, 9, 255⟩] : List Px).flatMap
            (pixBytes 4) ++ []) [])).history i = ⟨0, 0, 0, 0⟩ ∧
        (decLoop 0 4 2
          (decInit (opStream 0 3 1 4
            (([⟨0, 0, 0, 255⟩, ⟨0, 0, 0, 255⟩, ⟨9, 9, 9, 255⟩] : List Px).flatMap
              (pixBytes 4) ++ []) ++ [0, 0, 0, 0, 0, 0, 0, 1]) [])).history i =
              ⟨0, 0, 0, 255⟩)) ∧
    QoiColorHash 0 0 0 255 = 53 ∧
    (∀ p : Px,
      (encLoop 0 4 (pxNum 3 1) 2 0
          (encInit (([⟨0, 0, 0, 255⟩, ⟨0, 0, 0, 255⟩, ⟨9, 9, 9, 255⟩] : List Px).flatMap
            (pixBytes 4) ++ []) [])).history (QoiColorHash p.r p.g p.b p.a) = p →
      (decLoop 0 4 2
          (decInit (opStream 0 3 1 4
            (([⟨0, 0, 0, 255⟩, ⟨0, 0, 0, 255⟩, ⟨9, 9, 9, 255⟩] : List Px).flatMap
              (pixBytes 4) ++ []) ++ [0, 0, 0, 0, 0, 0, 0, 1]) [])).history
              (QoiColorHash p.r p.g p.b p.a) = p) :=
  cache_agreement 0 0 3 1 4 [⟨0, 0, 0, 255⟩, ⟨0, 0, 0, 255⟩, ⟨9, 9, 9, 255⟩] []
    [0, 0, 0, 0, 0, 0, 0, 1] 2 (by decide) (by decide) (by decide) (by decide)

end Qoi
